import Mathlib

/-! Earley chart parser and semantic evaluator of `fmr`.

A shallow embedding of `src/earley.go` (the chart, the predict / scan /
complete sweep, the epsilon closure and the acceptance scan) and of
`src/bnf/earley_fmr.go` (the evaluator `Semantic` / `semStr`), followed by
theorems about them.

Conventions of the embedding.
* Go `int` is `Int`; the code never gets near the 64-bit range (every
  increment is bounded by the number of columns).
* A Go pointer to a record is the record; a pointer that the code itself
  leaves nil (`TableState.Rb` of wildcard states, `RuleBody.F`, an element of
  `FMR.Args`) is an `Option`.
* A run-time panic (nil dereference, index out of range) is `none` in
  functions returning `Option`, and `Outcome.panic` in the loops.
* The two loops whose trip count is not known beforehand (the work-list loop
  of `parse` and the `for changed` loop of `handleEpsilons`) take a fuel
  argument; running out of it is `Outcome.outOfFuel`.
* The chart is mutated in place by the Go code through column pointers; here
  a column is named by its position in `Parse.columns` and the chart is passed
  along.
-/

namespace Fmr

/-! ## Grammar model (declared outside `src/`, shape taken from its uses) -/

/-- Modelled from the spec: the kind of a grammar term (`TermType`). -/
inductive TermType where
  | Nonterminal
  | Terminal
  | Any
deriving DecidableEq, Repr

/-- Modelled from the spec: the dynamic value (`interface{}`) kept in
`Term.Meta` and `TableState.meta`. The code only distinguishes the nil
interface, a `map[string]int` (read at the keys `"min"` and `"max"`, a missing
key reading as `0`) and anything else. A map is given by its entries, in a
canonical order, so that equal maps are equal lists. -/
inductive Meta where
  | nil
  | intMap (entries : List (String × Int))
  | other (tag : Nat)
deriving DecidableEq, Repr

/-- Reading `m[key]` on a `map[string]int`: the zero value for a missing key. -/
def lookupInt (entries : List (String × Int)) (key : String) : Int :=
  (entries.lookup key).getD 0

/-- Modelled from the spec: arbitrary-precision float payload of an `Arg`
(`*big.Float`), kept as sign, mantissa, exponent and precision. -/
structure BigFloat where
  neg : Bool
  mant : Nat
  exp : Int
  prec : Nat
deriving DecidableEq, Repr

/-- Modelled from the spec: the dynamic payload (`interface{}`) of an `Arg`,
by the dynamic types `semStr` asserts on. -/
inductive ArgValue where
  | str (s : String)
  | bigInt (i : Int)
  | bigFloat (f : BigFloat)
  | int (i : Int)
  | other (tag : Nat)
deriving DecidableEq, Repr

/-- Modelled from the spec: `Arg{Type, Value}`, an argument of a semantic action. -/
structure Arg where
  Type_ : String
  Value : ArgValue
deriving DecidableEq, Repr

/-- Modelled from the spec: `FMR{Fn, Args}`, a semantic action; `Args` is a
slice of pointers, a nil pointer being `none`. -/
structure FMR where
  Fn : String
  Args : List (Option Arg)
deriving DecidableEq, Repr

/-- Modelled from the spec: `Term{Value, Type, Meta}`. -/
structure Term where
  Value : String
  Type_ : TermType
  Meta : Meta
deriving DecidableEq, Repr

/-- Modelled from the spec: `RuleBody{Terms, F}`. -/
structure RuleBody where
  Terms : List Term
  F : Option FMR
deriving DecidableEq, Repr

/-- Modelled from the spec: `Rule{Name, Body}`. -/
structure Rule where
  Name : String
  Body : List RuleBody
deriving DecidableEq, Repr

/-- Modelled from the spec: `Grammar{Rules}`, where `Rules` is a
`map[string]*Rule`, given by its entries. -/
structure Grammar where
  Rules : List (String × Rule)
deriving DecidableEq, Repr

/-- Map access `g.Rules[key]`. -/
def Grammar.rule (g : Grammar) (key : String) : Option Rule :=
  g.Rules.lookup key

/-! ## Chart (`src/earley.go`) -/

/-- The constant `GAMMA_RULE`, the name of the rule added by the algorithm. -/
def GAMMA_RULE : String := "ɣ"

/-- The record `TableState`: a dotted rule instance. -/
structure TableState where
  Name : String
  Rb : Option RuleBody
  Start : Int
  End : Int
  dot : Int
  isAny : Bool
  meta : Meta
deriving DecidableEq, Repr

/-- The record `TableColumn`: the states ending at one input boundary. -/
structure TableColumn where
  token : String
  startByte : Int
  endByte : Int
  index : Int
  states : List TableState
deriving DecidableEq, Repr

/-- The record `Parse`: a chart with its grammars and start symbols. -/
structure Parse where
  grammars : List Grammar
  text : String
  starts : List String
  columns : List TableColumn
  finalStates : List TableState
deriving DecidableEq, Repr

/-- Result of a loop: a value, a run-time panic, or fuel exhausted. -/
inductive Outcome (α : Type) where
  | ok (a : α)
  | panic
  | outOfFuel
deriving DecidableEq, Repr

/-- Method `TableState.isCompleted`; `none` is the nil dereference of `s.Rb`. -/
def TableState.isCompleted (s : TableState) : Option Bool :=
  if s.isAny then
    match s.meta with
    | .nil => some (decide (s.dot > 0))
    | .intMap m => some (decide (s.dot ≥ lookupInt m "min" ∧ s.dot ≤ lookupInt m "max"))
    | .other _ => some false
  else
    match s.Rb with
    | none => none
    | some rb => some (decide (s.dot ≥ (rb.Terms.length : Int)))

/-- Method `TableState.getNextTerm`; the outer `none` is a panic (nil `Rb`, or
`Terms[dot]` out of range), the inner `none` the nil result. -/
def TableState.getNextTerm (s : TableState) : Option (Option Term) :=
  match s.isCompleted with
  | none => none
  | some true => some none
  | some false =>
    if s.isAny then some (some { Value := "", Type_ := .Any, Meta := s.meta })
    else
      match s.Rb with
      | none => none
      | some rb =>
        if s.dot < 0 then none
        else
          match rb.Terms.get? s.dot.toNat with
          | none => none
          | some t => some (some t)

/-- The test of the loop of `TableColumn.insert`: `s` is deeply equal to the
stamped `state`, or both are wildcard states with the same `Start` and `End`. -/
def sameState (state s : TableState) : Bool :=
  decide (state = s) ||
    (state.isAny && s.isAny && decide (state.Start = s.Start) && decide (state.End = s.End))

/-- Method `TableColumn.insert`: the column afterwards, the state returned, and
whether the returned pointer is the argument itself (`st == st2` at the call
sites). -/
def TableColumn.insert (col : TableColumn) (state : TableState) :
    TableColumn × TableState × Bool :=
  let state1 : TableState := { state with End := col.index }
  match col.states.find? (fun s => sameState state1 s) with
  | some s => (col, s, false)
  | none => ({ col with states := col.states ++ [state1] }, state1, true)

/-- Slice access `p.columns[k]` for a Go `int`; `none` is index out of range. -/
def Parse.column (p : Parse) (k : Int) : Option TableColumn :=
  if k < 0 then none else p.columns.get? k.toNat

/-- The call `col.insert(state)` on the column at position `i` of the chart:
the chart afterwards and whether the state was appended. -/
def Parse.insertAt (p : Parse) (i : Nat) (state : TableState) : Option (Parse × Bool) :=
  match p.columns.get? i with
  | none => none
  | some col =>
    some ({ p with columns := p.columns.set i (col.insert state).1 }, (col.insert state).2.2)

/-- Method `Parse.scan`, `col` being the column at position `i`. -/
def Parse.scan (p : Parse) (i : Nat) (st : TableState) (term : Term) : Option Parse :=
  if term.Type_ = .Any then
    (p.insertAt i { Name := "any", Rb := st.Rb, Start := st.Start, End := 0,
                    dot := st.dot + 1, isAny := st.isAny, meta := term.Meta }).map Prod.fst
  else
    match p.columns.get? i with
    | none => none
    | some col =>
      if term.Value = col.token then
        (p.insertAt i { Name := st.Name, Rb := st.Rb, Start := st.Start, End := 0,
                        dot := st.dot + 1, isAny := false, meta := .nil }).map Prod.fst
      else some p

/-- The loop of the function `predict` over the alternatives `r.Body`. -/
def predictBodies (name : String) (i : Nat) :
    List RuleBody → Parse → Bool → Option (Parse × Bool)
  | [], p, changed => some (p, changed)
  | prod :: rest, p, changed =>
    match p.columns.get? i with
    | none => none
    | some col =>
      match p.insertAt i { Name := name, Rb := some prod, Start := col.index, End := 0,
                           dot := 0, isAny := false, meta := .nil } with
      | none => none
      | some (p1, fresh) => predictBodies name i rest p1 (changed || fresh)

/-- The function `predict(g, col, term)`. -/
def predictGrammar (g : Grammar) (p : Parse) (i : Nat) (term : Term) : Option (Parse × Bool) :=
  match g.rule term.Value with
  | none => some (p, false)
  | some r => predictBodies r.Name i r.Body p false

/-- The loop of `Parse.predict` over `p.grammars`; `changed || predict(g, col, term)`
does not call `predict` once `changed` is true. -/
def predictGrammars (i : Nat) (term : Term) :
    List Grammar → Parse → Bool → Option (Parse × Bool)
  | [], p, changed => some (p, changed)
  | g :: gs, p, changed =>
    if changed then predictGrammars i term gs p changed
    else
      match predictGrammar g p i term with
      | none => none
      | some (p1, c) => predictGrammars i term gs p1 c

/-- Method `Parse.predict`, `col` being the column at position `i`. -/
def Parse.predict (p : Parse) (i : Nat) (term : Term) : Option (Parse × Bool) :=
  match term.Type_ with
  | .Nonterminal => predictGrammars i term p.grammars p false
  | .Any =>
    match p.columns.get? i with
    | none => none
    | some col =>
      p.insertAt i { Name := "any", Rb := none, Start := col.index, End := 0,
                     dot := 0, isAny := true, meta := term.Meta }
  | .Terminal => some (p, false)

/-- The loop of `Parse.complete` over the states of column `state.Start`, as
they were when the loop began. -/
def completeLoop (i : Nat) (state : TableState) :
    List TableState → Parse → Bool → Option (Parse × Bool)
  | [], p, changed => some (p, changed)
  | st :: rest, p, changed =>
    match st.getNextTerm with
    | none => none
    | some none => completeLoop i state rest p changed
    | some (some term) =>
      if term.Type_ = .Any ∨ (term.Type_ = .Nonterminal ∧ term.Value = state.Name) then
        match p.insertAt i { Name := st.Name, Rb := st.Rb, Start := st.Start, End := 0,
                             dot := st.dot + 1, isAny := st.isAny, meta := .nil } with
        | none => none
        | some (p1, fresh) => completeLoop i state rest p1 (changed || fresh)
      else completeLoop i state rest p changed

/-- Method `Parse.complete`, `col` being the column at position `i`. -/
def Parse.complete (p : Parse) (i : Nat) (state : TableState) : Option (Parse × Bool) :=
  match p.column state.Start with
  | none => none
  | some c => completeLoop i state c.states p false

/-- One pass of the inner loop of `Parse.handleEpsilons` over the states the
column had when the pass began. -/
def epsilonPass (i : Nat) : List TableState → Parse → Bool → Option (Parse × Bool)
  | [], p, changed => some (p, changed)
  | state :: rest, p, changed =>
    match state.isCompleted with
    | none => none
    | some done =>
      match (if done && !changed then p.complete i state else some (p, changed)) with
      | none => none
      | some (p1, changed1) =>
        match state.getNextTerm with
        | none => none
        | some none => epsilonPass i rest p1 changed1
        | some (some term) =>
          if term.Type_ = .Nonterminal ∧ changed1 = false then
            match p1.predict i term with
            | none => none
            | some (p2, changed2) => epsilonPass i rest p2 changed2
          else epsilonPass i rest p1 changed1

/-- Method `Parse.handleEpsilons`, `col` being the column at position `i`;
one unit of fuel per pass. -/
def Parse.handleEpsilons : Nat → Parse → Nat → Outcome Parse
  | 0, _, _ => .outOfFuel
  | fuel + 1, p, i =>
    match p.columns.get? i with
    | none => .panic
    | some col =>
      match epsilonPass i col.states p false with
      | none => .panic
      | some (p1, true) => Parse.handleEpsilons fuel p1 i
      | some (p1, false) => .ok p1

/-- The body of the work-list loop of `Parse.parse` for the state `st` of the
column at position `i`. -/
def Parse.processState (p : Parse) (i : Nat) (st : TableState) : Option Parse :=
  if st.isAny then
    match st.meta with
    | .nil =>
      match (if st.dot > 0 then (p.complete i st).map Prod.fst else some p) with
      | none => none
      | some p1 =>
        if i + 1 < p1.columns.length then
          p1.scan (i + 1) st { Value := "", Type_ := .Any, Meta := st.meta }
        else some p1
    | .intMap m =>
      match (if st.dot ≥ lookupInt m "min" ∧ st.dot ≤ lookupInt m "max"
             then (p.complete i st).map Prod.fst else some p) with
      | none => none
      | some p1 =>
        if i + 1 < p1.columns.length ∧ st.dot + 1 ≤ lookupInt m "max" then
          p1.scan (i + 1) st { Value := "", Type_ := .Any, Meta := st.meta }
        else some p1
    | .other _ => some p
  else
    match st.isCompleted with
    | none => none
    | some true => (p.complete i st).map Prod.fst
    | some false =>
      match st.getNextTerm with
      | none => none
      | some none => none
      | some (some term) =>
        match term.Type_ with
        | .Nonterminal => (p.predict i term).map Prod.fst
        | .Any => (p.predict i term).map Prod.fst
        | .Terminal =>
          if i + 1 < p.columns.length then p.scan (i + 1) st term else some p

/-- The work-list loop `for j := 0; j < len(col.states); j++` of `Parse.parse`
on the column at position `i`, from `j` on; one unit of fuel per test of the
loop condition. -/
def Parse.columnLoop : Nat → Parse → Nat → Nat → Outcome Parse
  | 0, _, _, _ => .outOfFuel
  | fuel + 1, p, i, j =>
    match p.columns.get? i with
    | none => .panic
    | some col =>
      match col.states.get? j with
      | none => .ok p
      | some st =>
        match p.processState i st with
        | none => .panic
        | some p1 => Parse.columnLoop fuel p1 i (j + 1)

/-- The loop `for i, col := range p.columns` of `Parse.parse`: `n` columns
remain, the next one is at position `i`. -/
def Parse.sweepFrom (fuel : Nat) : Nat → Parse → Nat → Outcome Parse
  | 0, p, _ => .ok p
  | n + 1, p, i =>
    match Parse.columnLoop fuel p i 0 with
    | .ok p1 =>
      match Parse.handleEpsilons fuel p1 i with
      | .ok p2 => Parse.sweepFrom fuel n p2 (i + 1)
      | .panic => .panic
      | .outOfFuel => .outOfFuel
    | .panic => .panic
    | .outOfFuel => .outOfFuel

/-- The rule body `ɣ → start` built by `Parse.parse`, with the action
`nf.I($1)`. -/
def gammaBody (start : String) : RuleBody :=
  { Terms := [{ Value := start, Type_ := .Nonterminal, Meta := .nil }],
    F := some { Fn := "nf.I", Args := [some { Type_ := "index", Value := .int 1 }] } }

/-- The state `begin` built by `Parse.parse` for one start symbol. -/
def gammaState (start : String) : TableState :=
  { Name := GAMMA_RULE, Rb := some (gammaBody start), Start := 0, End := 0,
    dot := 0, isAny := false, meta := .nil }

/-- The first loop of `Parse.parse`: one `begin` state per start symbol is
appended to `p.columns[0].states`; `none` when there is no column. -/
def Parse.addStarts (p : Parse) : Option Parse :=
  match p.columns with
  | [] => none
  | col0 :: cols =>
    some { p with columns :=
      { col0 with states := col0.states ++ p.starts.map gammaState } :: cols }

/-- The chart after the first two loops of `Parse.parse` (the sweep). -/
def Parse.sweep (fuel : Nat) (p : Parse) : Outcome Parse :=
  match p.addStarts with
  | none => .panic
  | some p0 => Parse.sweepFrom fuel p0.columns.length p0 0

/-- The test `state.Name == GAMMA_RULE && state.isCompleted()`. -/
def TableState.accepting (state : TableState) : Option Bool :=
  if state.Name = GAMMA_RULE then state.isCompleted else some false

/-- The inner loop of the acceptance scan over the states of one column:
the list `ret` afterwards and whether the function returned from inside. -/
def acceptStates (maxFlag : Bool) :
    List TableState → List TableState → Option (List TableState × Bool)
  | [], ret => some (ret, false)
  | state :: rest, ret =>
    match state.accepting with
    | none => none
    | some true =>
      if maxFlag then some (ret ++ [state], true)
      else acceptStates maxFlag rest (ret ++ [state])
    | some false => acceptStates maxFlag rest ret

/-- The outer loop of the acceptance scan, over the columns from the last to
the first (the argument is the reversed column list). -/
def acceptColumns (maxFlag : Bool) :
    List TableColumn → List TableState → Option (List TableState)
  | [], ret => some ret
  | col :: cols, ret =>
    match acceptStates maxFlag col.states ret with
    | none => none
    | some (ret1, true) => some ret1
    | some (ret1, false) => acceptColumns maxFlag cols ret1

/-- The acceptance scan of `Parse.parse` on the chart `p`. -/
def Parse.accept (p : Parse) (maxFlag : Bool) : Option (List TableState) :=
  acceptColumns maxFlag p.columns.reverse []

/-- Method `Parse.parse`: the chart afterwards (with `finalStates` set) and
the states returned. -/
def Parse.parse (fuel : Nat) (p : Parse) (maxFlag : Bool) :
    Outcome (Parse × List TableState) :=
  if p.starts.length = 0 then .ok (p, [])
  else
    match p.sweep fuel with
    | .ok p1 =>
      match p1.accept maxFlag with
      | none => .panic
      | some ret => .ok ({ p1 with finalStates := ret }, ret)
    | .panic => .panic
    | .outOfFuel => .outOfFuel

/-! ## Semantic evaluator (`src/bnf/earley_fmr.go`) -/

/-- Modelled from the spec: the record `Node` of the derivation tree, a chart
state and its ordered children. -/
inductive Node where
  | mk (Value : TableState) (Children : List Node)

/-- The state of a node. -/
def Node.Value : Node → TableState
  | .mk v _ => v

/-- The children of a node. -/
def Node.Children : Node → List Node
  | .mk _ cs => cs

/-- The errors built by `Semantic` and `semStr` with `fmt.Errorf`, one
constructor per format string, carrying the values formatted. -/
inductive EvalError where
  | identityArity
  | argNil
  | notString (v : ArgValue)
  | notInt (v : ArgValue)
  | notFloat (v : ArgValue)
  | notFunc (v : ArgValue)
  | notIndex (v : ArgValue)
  | indexRange (i : Int) (n : Nat)
  | invalidType (t : String)
deriving DecidableEq, Repr

/-- The library functions `semStr` renders literals with: `strconv.Quote`,
`(*big.Int).String` and `(*big.Float).String`. -/
structure Render where
  quote : String → String
  intString : Int → String
  floatString : BigFloat → String

mutual
/-- Method `Node.Semantic`: the string and the error returned. -/
def Node.Semantic (R : Render) : Node → String × Option EvalError
  | .mk v cs =>
    match v.Rb with
    | none => ("", none)
    | some rb =>
      match rb.F with
      | none => ("", none)
      | some f =>
        if f.Fn = "nf.I" then
          match f.Args with
          | [a] =>
            match semStr R a cs with
            | (_, some err) => ("", some err)
            | (s, none) => (s, none)
          | _ => ("", some .identityArity)
        else
          match semArgs R f.Args cs [] with
          | (_, some err) => ("", some err)
          | (args, none) => (f.Fn ++ "(" ++ ", ".intercalate args ++ ")", none)
termination_by n => (sizeOf n, 0)
/-- The loop of `Node.Semantic` over `F.Args`, collecting the strings in `args`. -/
def semArgs (R : Render) :
    List (Option Arg) → List Node → List String → List String × Option EvalError
  | [], _, args => (args, none)
  | arg :: rest, nodes, args =>
    match semStr R arg nodes with
    | (_, some err) => (args, some err)
    | (s, none) => semArgs R rest nodes (args ++ [s])
termination_by as nodes _ => (sizeOf nodes, as.length + 2)
/-- The function `semStr`: the string and the error returned. -/
def semStr (R : Render) (arg : Option Arg) (nodes : List Node) : String × Option EvalError :=
  match arg with
  | none => ("", some .argNil)
  | some a =>
    if a.Type_ = "string" then
      match a.Value with
      | .str s => (R.quote s, none)
      | v => ("", some (.notString v))
    else if a.Type_ = "int" then
      match a.Value with
      | .bigInt i => (R.intString i, none)
      | v => ("", some (.notInt v))
    else if a.Type_ = "float" then
      match a.Value with
      | .bigFloat f => (R.floatString f, none)
      | v => ("", some (.notFloat v))
    else if a.Type_ = "func" then
      match a.Value with
      | .str s => (s, none)
      | v => ("", some (.notFunc v))
    else if a.Type_ = "index" then
      match a.Value with
      | .int i =>
        if i < 1 ∨ i > (nodes.length : Int) then ("", some (.indexRange i nodes.length))
        else
          match h : nodes.get? (i - 1).toNat with
          | none => ("", some (.indexRange i nodes.length))
          | some n =>
            match Node.Semantic R n with
            | (_, some err) => ("", some err)
            | (s, none) => (s, none)
      | v => ("", some (.notIndex v))
    else ("", some (.invalidType a.Type_))
termination_by (sizeOf nodes, 1)
decreasing_by
  apply Prod.Lex.left
  have hlt := List.sizeOf_lt_of_mem (List.get?_mem h)
  omega
end

/-- A renderer used in examples: quoting adds double quotes, numbers are
rendered with `toString` (floats by their mantissa). -/
def plainRender : Render :=
  { quote := fun s => "\"" ++ s ++ "\"",
    intString := fun i => toString i,
    floatString := fun f => toString f.mant }

/-! ## Auxiliary notions for the proofs about the chart -/

/-- The column at position `i` of the chart holds the state `s`. -/
def Parse.InCol (p : Parse) (i : Nat) (s : TableState) : Prop :=
  ∃ col, p.columns.get? i = some col ∧ s ∈ col.states

/-- The chart `q` extends the chart `p`: same grammars and start symbols,
column by column the same token and index, and the states of `p` followed by
further states. -/
structure Parse.Ext (p q : Parse) : Prop where
  grammars : q.grammars = p.grammars
  starts : q.starts = p.starts
  length : q.columns.length = p.columns.length
  column : ∀ i col, p.columns.get? i = some col →
    ∃ col1, q.columns.get? i = some col1 ∧ col1.token = col.token ∧
      col1.index = col.index ∧ ∃ t, col1.states = col.states ++ t

/-- The states the chart operations may hand to `insert` on the column at
position `i` of the chart `p`, one constructor per call site: `predict` for a
rule body, `predict` for a wildcard term, `scan` of a wildcard state, `scan`
over a terminal, and `complete`. -/
inductive Gen (p : Parse) : Nat → TableState → Prop where
  | predictRule (i : Nat) (col : TableColumn) (st : TableState) (term : Term) (g : Grammar)
      (r : Rule) (prod : RuleBody) :
      p.columns.get? i = some col → st ∈ col.states →
      st.getNextTerm = some (some term) → term.Type_ = .Nonterminal →
      g ∈ p.grammars → g.rule term.Value = some r → prod ∈ r.Body →
      Gen p i { Name := r.Name, Rb := some prod, Start := col.index, End := 0,
                dot := 0, isAny := false, meta := .nil }
  | predictAny (i : Nat) (col : TableColumn) (st : TableState) (term : Term) :
      p.columns.get? i = some col → st ∈ col.states → st.isAny = false →
      st.getNextTerm = some (some term) → term.Type_ = .Any →
      Gen p i { Name := "any", Rb := none, Start := col.index, End := 0,
                dot := 0, isAny := true, meta := term.Meta }
  | scanAny (i : Nat) (col : TableColumn) (st : TableState) :
      p.columns.get? i = some col → st ∈ col.states → st.isAny = true →
      (st.meta = .nil ∨ ∃ m, st.meta = .intMap m ∧ st.dot + 1 ≤ lookupInt m "max") →
      i + 1 < p.columns.length →
      Gen p (i + 1) { Name := "any", Rb := st.Rb, Start := st.Start, End := 0,
                      dot := st.dot + 1, isAny := st.isAny, meta := st.meta }
  | scanTerminal (i : Nat) (col col1 : TableColumn) (st : TableState) (term : Term) :
      p.columns.get? i = some col → st ∈ col.states → st.isAny = false →
      st.getNextTerm = some (some term) → term.Type_ = .Terminal →
      p.columns.get? (i + 1) = some col1 → term.Value = col1.token →
      Gen p (i + 1) { Name := st.Name, Rb := st.Rb, Start := st.Start, End := 0,
                      dot := st.dot + 1, isAny := false, meta := .nil }
  | complete (i : Nat) (col : TableColumn) (state : TableState) (colk : TableColumn)
      (st : TableState) (term : Term) :
      p.columns.get? i = some col → state ∈ col.states →
      state.isCompleted = some true → p.column state.Start = some colk →
      st ∈ colk.states → st.getNextTerm = some (some term) →
      (term.Type_ = .Any ∨ (term.Type_ = .Nonterminal ∧ term.Value = state.Name)) →
      Gen p i { Name := st.Name, Rb := st.Rb, Start := st.Start, End := 0,
                dot := st.dot + 1, isAny := st.isAny, meta := .nil }

/-- The chart `q` is reached from `p` by calls of `insert`, each on a column
at a position allowed by `C` and with a state allowed by `Gen`. -/
inductive Reach (C : Nat → Prop) : Parse → Parse → Prop where
  | refl (p : Parse) : Reach C p p
  | step (p q r : Parse) (i : Nat) (s : TableState) (b : Bool) :
      Reach C p q → C i → Gen q i s → q.insertAt i s = some (r, b) → Reach C p r

/-- The chart invariant on one state of the column at position `i`: `End` is
the column position, `0 ≤ Start ≤ End`, `0 ≤ dot`, and a state that is not a
wildcard state has a rule body with `dot ≤ len(Terms)`. -/
def GoodState (i : Nat) (s : TableState) : Prop :=
  s.End = (i : Int) ∧ 0 ≤ s.Start ∧ s.Start ≤ (i : Int) ∧ 0 ≤ s.dot ∧
    (s.isAny = false → ∃ rb, s.Rb = some rb ∧ s.dot ≤ (rb.Terms.length : Int))

/-- Every state of every column satisfies `P` at its column position. -/
def Parse.AllStates (P : Nat → TableState → Prop) (p : Parse) : Prop :=
  ∀ i col, p.columns.get? i = some col → ∀ s ∈ col.states, P i s

/-- The column at position `i` has index `i`, for every column. -/
def Parse.Indexed (p : Parse) : Prop :=
  ∀ i col, p.columns.get? i = some col → col.index = (i : Int)

/-- A well-formed chart: columns indexed by position, states satisfying
`GoodState`. -/
def Parse.WF (p : Parse) : Prop :=
  p.Indexed ∧ p.AllStates GoodState

/-- The state `s` as `insert` stamps it for the column at position `i`. -/
def stamp (i : Nat) (s : TableState) : TableState :=
  { s with End := (i : Int) }

/-- The column at position `i` holds a state that `insert` would return for
`s` instead of appending it. -/
def Parse.Present (p : Parse) (i : Nat) (s : TableState) : Prop :=
  ∃ s1, p.InCol i s1 ∧ sameState (stamp i s) s1 = true

/-- A run of calls `col.insert(s)` on the column at position `i`, for the
states of a list in order, accumulating `changed = changed || (st == st2)`. -/
def insertAll (i : Nat) : List TableState → Parse → Bool → Option (Parse × Bool)
  | [], p, changed => some (p, changed)
  | s :: rest, p, changed =>
    match p.insertAt i s with
    | none => none
    | some (p1, fresh) => insertAll i rest p1 (changed || fresh)

/-- Number of states of the column at position `i` (zero when there is none). -/
def Parse.colLength (p : Parse) (i : Nat) : Nat :=
  match p.columns.get? i with
  | none => 0
  | some col => col.states.length

/-- The state `predict` builds for the alternative `prod` of the rule `name`
on a column of index `idx`. -/
def predictedState (name : String) (idx : Int) (prod : RuleBody) : TableState :=
  { Name := name, Rb := some prod, Start := idx, End := 0, dot := 0, isAny := false,
    meta := .nil }

/-- The state `complete` builds from the waiting state `st`. -/
def advanced (st : TableState) : TableState :=
  { Name := st.Name, Rb := st.Rb, Start := st.Start, End := 0, dot := st.dot + 1,
    isAny := st.isAny, meta := .nil }

/-- The test of the loop of `complete` on the waiting state `st`: its next
term is a wildcard, or the nonterminal named as the completed `state`. -/
def waitsFor (state st : TableState) : Bool :=
  match st.getNextTerm with
  | some (some term) =>
    decide (term.Type_ = .Any ∨ (term.Type_ = .Nonterminal ∧ term.Value = state.Name))
  | _ => false

/-- The states `complete(col, state)` hands to `insert`, in order, when the
column `state.Start` holds `snapshot`. -/
def completions (state : TableState) (snapshot : List TableState) : List TableState :=
  (snapshot.filter (waitsFor state)).map advanced

/-- The states `Parse.predict` would hand to `insert` for the nonterminal
`key` on a column of index `idx` if it consulted every grammar of `gs`. -/
def predictTargets (gs : List Grammar) (key : String) (idx : Int) : List TableState :=
  gs.flatMap (fun g =>
    match g.rule key with
    | none => []
    | some r => r.Body.map (predictedState r.Name idx))

/-- At most one grammar of the list has a rule under `key`. -/
def UniqueDef (gs : List Grammar) (key : String) : Prop :=
  ∀ g1 ∈ gs, ∀ g2 ∈ gs, g1.rule key ≠ none → g2.rule key ≠ none → g1 = g2

/-- The column at position `i` is closed at the state `state` under the two
operations of `handleEpsilons`: everything `complete` would insert for it, and
everything `predict` would insert for its next nonterminal from any grammar,
is already present. -/
def Parse.ClosedAt (p : Parse) (i : Nat) (state : TableState) : Prop :=
  (state.isCompleted = some true → ∀ colk, p.column state.Start = some colk →
      ∀ s ∈ completions state colk.states, p.Present i s) ∧
  (∀ term, state.getNextTerm = some (some term) → term.Type_ = .Nonterminal →
      ∀ col, p.columns.get? i = some col →
      ∀ s ∈ predictTargets p.grammars term.Value col.index, p.Present i s)

/-- The work-list loop has dealt with the state `st` of the column at position
`i`, as far as states that are not wildcard states go: the completions of a
completed state against the column `colk` are present, the predictions for a
next nonterminal are present when a single grammar defines it, and the scan
over a matching next terminal is present in the following column. -/
def Parse.Processed (p : Parse) (i : Nat) (colk : List TableState) (st : TableState) : Prop :=
  st.isAny = false →
  (st.isCompleted = some true → ∀ s ∈ completions st colk, p.Present i s) ∧
  (∀ term, st.getNextTerm = some (some term) → term.Type_ = .Nonterminal →
      UniqueDef p.grammars term.Value →
      ∀ col, p.columns.get? i = some col →
      ∀ s ∈ predictTargets p.grammars term.Value col.index, p.Present i s) ∧
  (∀ term, st.getNextTerm = some (some term) → term.Type_ = .Terminal →
      ∀ col1, p.columns.get? (i + 1) = some col1 → term.Value = col1.token →
      p.Present (i + 1) (advanced st))

/-- The test of the acceptance scan as a boolean: the state is named
`GAMMA_RULE` and `isCompleted` returns true. -/
def isAccepting (s : TableState) : Bool :=
  decide (s.Name = GAMMA_RULE) && (s.isCompleted == some true)

/-- The completed `GAMMA_RULE` states of the chart, column by column from the
last column to the first, in column order within a column. -/
def Parse.allAccepting (p : Parse) : List TableState :=
  p.columns.reverse.flatMap (fun c => c.states.filter isAccepting)

/-! ## Example charts -/

/-- A column as `buildChart` makes it: no states yet. -/
def emptyColumn (index : Int) (token : String) : TableColumn :=
  { token := token, startByte := 0, endByte := 0, index := index, states := [] }

/-- The columns `k`, `k+1`, ... of a fresh chart, one per token. -/
def freshColumns : Int → List String → List TableColumn
  | _, [] => []
  | k, t :: ts => emptyColumn k t :: freshColumns (k + 1) ts

/-- Modelled from the spec: the fresh chart for a token sequence, one column
per input boundary, column `0` without token and column `k+1` with the token
number `k`, every column indexed by its position and empty. -/
def freshChart (grammars : List Grammar) (starts tokens : List String) : Parse :=
  { grammars := grammars, text := "", starts := starts,
    columns := emptyColumn 0 "" :: freshColumns 1 tokens,
    finalStates := [] }

/-- A terminal term. -/
def tTerm (v : String) : Term := { Value := v, Type_ := .Terminal, Meta := .nil }

/-- A nonterminal term. -/
def nTerm (v : String) : Term := { Value := v, Type_ := .Nonterminal, Meta := .nil }

/-- A wildcard term. -/
def anyTerm (m : Meta) : Term := { Value := "", Type_ := .Any, Meta := m }

/-- A grammar entry: the rule `name` with the given alternatives, none with
a semantic action. -/
def plainRule (name : String) (bodies : List (List Term)) : String × Rule :=
  (name, { Name := name, Body := bodies.map (fun ts => { Terms := ts, F := none }) })

/-- The value of a successful outcome, with a default otherwise. -/
def Outcome.getD {α : Type} (o : Outcome α) (d : α) : α :=
  match o with
  | .ok a => a
  | _ => d

/-- Example: two start symbols `A → "x"` and `B → "x"` over the input `x`. -/
def twoStartChart : Parse :=
  freshChart [{ Rules := [plainRule "A" [[tTerm "x"]], plainRule "B" [[tTerm "x"]]] }]
    ["A", "B"] ["x"]

/-- The bound on a wildcard state: when it carries a `map[string]int` whose
`"max"` entry is not negative, its `dot` does not exceed that entry. -/
def WithinMax (_i : Nat) (s : TableState) : Prop :=
  s.isAny = true → ∀ m, s.meta = .intMap m → 0 ≤ lookupInt m "max" → s.dot ≤ lookupInt m "max"

/-- Example: the start symbol `S → any{1,2}` over the input `a b c`. -/
def boundedAnyChart : Parse :=
  freshChart
    [{ Rules := [plainRule "S" [[anyTerm (.intMap [("max", 2), ("min", 1)])]]] }]
    ["S"] ["a", "b", "c"]

/-! ## Grammars without wildcard terms -/

/-- No rule body of the grammars contains a wildcard term. -/
def WildcardFree (gs : List Grammar) : Prop :=
  ∀ g ∈ gs, ∀ key r, g.rule key = some r → ∀ body ∈ r.Body, ∀ t ∈ body.Terms, t.Type_ ≠ .Any

/-- Every rule is stored in `Rules` under its own name. -/
def NamesMatch (gs : List Grammar) : Prop :=
  ∀ g ∈ gs, ∀ key r, g.rule key = some r → r.Name = key

/-- The states of a chart over grammars without wildcard terms: not a wildcard
state, no `meta`, and a rule body that is either `ɣ → start` for a start
symbol (the state then starting at `0`) or an alternative of a grammar rule of
the state's name. -/
def ItemState (gs : List Grammar) (starts : List String) (_i : Nat) (s : TableState) : Prop :=
  s.isAny = false ∧ s.meta = .nil ∧ ∃ rb, s.Rb = some rb ∧
    ((s.Name = GAMMA_RULE ∧ s.Start = 0 ∧ ∃ start ∈ starts, rb = gammaBody start) ∨
     (∃ g ∈ gs, ∃ key r, g.rule key = some r ∧ r.Name = s.Name ∧ rb ∈ r.Body))

/-- The pairs of a rule name and a rule body a chart state can carry. -/
def rulePairs (gs : List Grammar) (starts : List String) : List (String × RuleBody) :=
  starts.map (fun s => (GAMMA_RULE, gammaBody s)) ++
    gs.flatMap (fun g => g.Rules.flatMap (fun kr => kr.2.Body.map (fun b => (kr.2.Name, b))))

/-- Every state `ItemState` and `GoodState` allow in the column at position `i`. -/
def itemUniverse (gs : List Grammar) (starts : List String) (i : Nat) : List TableState :=
  (rulePairs gs starts).flatMap (fun nb =>
    (List.range (i + 1)).flatMap (fun k =>
      (List.range (nb.2.Terms.length + 1)).map (fun d =>
        { Name := nb.1, Rb := some nb.2, Start := Int.ofNat k, End := Int.ofNat i,
          dot := Int.ofNat d, isAny := false, meta := .nil })))

/-- Every state `ItemState` and `GoodState` allow in the first `n` columns. -/
def allItems (gs : List Grammar) (starts : List String) (n : Nat) : List TableState :=
  (List.range n).flatMap (itemUniverse gs starts)

/-- Every column has at most `L` states more than it has distinct states. -/
def Parse.LenBound (L : Nat) (p : Parse) : Prop :=
  ∀ i col, p.columns.get? i = some col → col.states.length ≤ col.states.toFinset.card + L

/-! ## Derivations -/

/-- The token sequence `w` is derivable from the sequence of terms, as the
spec reads the grammar: a terminal matches the equal token, a nonterminal
matches what an alternative of its rule in one of the grammars derives, a
wildcard without bounds matches one or more tokens and a wildcard with bounds
`{min, max}` between `min` and `max` tokens. -/
inductive Derives (gs : List Grammar) : List Term → List String → Prop where
  | nil : Derives gs [] []
  | terminal (t : Term) (ts : List Term) (v : List String) :
      t.Type_ = .Terminal → Derives gs ts v → Derives gs (t :: ts) (t.Value :: v)
  | nonterminal (t : Term) (ts : List Term) (g : Grammar) (r : Rule) (body : RuleBody)
      (u v : List String) :
      t.Type_ = .Nonterminal → g ∈ gs → g.rule t.Value = some r → body ∈ r.Body →
      Derives gs body.Terms u → Derives gs ts v → Derives gs (t :: ts) (u ++ v)
  | anyUnbounded (t : Term) (ts : List Term) (u v : List String) :
      t.Type_ = .Any → t.Meta = .nil → 0 < u.length →
      Derives gs ts v → Derives gs (t :: ts) (u ++ v)
  | anyBounded (t : Term) (ts : List Term) (m : List (String × Int)) (u v : List String) :
      t.Type_ = .Any → t.Meta = .intMap m → lookupInt m "min" ≤ (u.length : Int) →
      (u.length : Int) ≤ lookupInt m "max" →
      Derives gs ts v → Derives gs (t :: ts) (u ++ v)

/-- The rule state `name → rb` with `d` terms matched, from column `k` to
column `i`. -/
def item (name : String) (rb : RuleBody) (k i d : Nat) : TableState :=
  { Name := name, Rb := some rb, Start := Int.ofNat k, End := Int.ofNat i,
    dot := Int.ofNat d, isAny := false, meta := .nil }

/-- The column at position `i` of the chart is closed under the three Earley
steps, as far as rule states go: completing a completed state against the
states waiting for its name in its start column, predicting every alternative
of the next nonterminal in every grammar, and scanning a matching next terminal
into the following column. -/
structure ColumnClosed (q : Parse) (i : Nat) : Prop where
  complete : ∀ state st term, q.InCol i state → state.isAny = false →
    state.isCompleted = some true → q.InCol state.Start.toNat st → st.isAny = false →
    st.getNextTerm = some (some term) → term.Type_ = .Nonterminal →
    term.Value = state.Name → q.InCol i (stamp i (advanced st))
  predict : ∀ st term g r body, q.InCol i st → st.isAny = false →
    st.getNextTerm = some (some term) → term.Type_ = .Nonterminal →
    g ∈ q.grammars → g.rule term.Value = some r → body ∈ r.Body →
    q.InCol i (stamp i (predictedState r.Name (Int.ofNat i) body))
  scan : ∀ st term col1, q.InCol i st → st.isAny = false →
    st.getNextTerm = some (some term) → term.Type_ = .Terminal →
    q.columns.get? (i + 1) = some col1 → term.Value = col1.token →
    q.InCol (i + 1) (stamp (i + 1) (advanced st))

/-- Example: the start symbols `A → ε` and `B → ε` over the empty input. -/
def twoNullableChart : Parse :=
  freshChart [{ Rules := [plainRule "A" [[]], plainRule "B" [[]]] }] ["A", "B"] []

/-- Example: the start symbol `S → A A`, `A → ε` over the empty input. -/
def nullableChart : Parse :=
  freshChart [{ Rules := [plainRule "S" [[nTerm "A", nTerm "A"]], plainRule "A" [[]]] }] ["S"] []

/-- Boolean check that no rule body in the entries of the grammars contains a
wildcard term. -/
def wildcardFreeCheck (gs : List Grammar) : Bool :=
  gs.all (fun g => g.Rules.all (fun kr =>
    kr.2.Body.all (fun b => b.Terms.all (fun t => decide (t.Type_ ≠ .Any)))))

/-- Boolean check that every entry of the grammars holds a rule named as its
key. -/
def namesMatchCheck (gs : List Grammar) : Bool :=
  gs.all (fun g => g.Rules.all (fun kr => decide (kr.2.Name = kr.1)))

/-- The name `GAMMA_RULE` is reserved: it is no start symbol, no rule of the
grammars is named so and no nonterminal term refers to it. -/
def GammaReserved (gs : List Grammar) (starts : List String) : Prop :=
  GAMMA_RULE ∉ starts ∧
  ∀ g ∈ gs, ∀ key r, g.rule key = some r → r.Name ≠ GAMMA_RULE ∧
    ∀ body ∈ r.Body, ∀ t ∈ body.Terms, t.Type_ = .Nonterminal → t.Value ≠ GAMMA_RULE

/-- Boolean check of `GammaReserved` over the entries of the grammars. -/
def gammaReservedCheck (gs : List Grammar) (starts : List String) : Bool :=
  decide (GAMMA_RULE ∉ starts) &&
  gs.all (fun g => g.Rules.all (fun kr => decide (kr.2.Name ≠ GAMMA_RULE) &&
    kr.2.Body.all (fun b => b.Terms.all (fun t =>
      decide (t.Type_ = .Nonterminal → t.Value ≠ GAMMA_RULE)))))

/-- The tokens from column `k` to column `i`. -/
def span (toks : List String) (k i : Nat) : List String :=
  (toks.drop k).take (i - k)

/-- A state of the column at position `i` is justified by the input: the
terms before its dot derive the tokens from its start column to column `i`. -/
def SoundState (gs : List Grammar) (toks : List String) (i : Nat) (s : TableState) : Prop :=
  ∃ rb, s.Rb = some rb ∧
    Derives gs (rb.Terms.take s.dot.toNat) (span toks s.Start.toNat i)

/-- The invariant of the soundness proof: `ItemState` and `SoundState`. -/
def SoundItem (gs : List Grammar) (starts toks : List String) (i : Nat) (s : TableState) :
    Prop :=
  ItemState gs starts i s ∧ SoundState gs toks i s

/-- The column at position `j + 1` carries the token number `j` of the input. -/
def Parse.HasTokens (p : Parse) (toks : List String) : Prop :=
  ∀ j col, p.columns.get? (j + 1) = some col → toks.get? j = some col.token

/-- Example: `S → E any`, `E → ε` over the empty input. -/
def emptyAnyChart : Parse :=
  freshChart [{ Rules := [plainRule "S" [[nTerm "E", anyTerm .nil]], plainRule "E" [[]]] }]
    ["S"] []

/-- Example: `S → "a" S | "a"` over the input `a a`. -/
def repeatChart : Parse :=
  freshChart [{ Rules := [plainRule "S" [[tTerm "a", nTerm "S"], [tTerm "a"]]] }]
    ["S"] ["a", "a"]

/-! ## Grammars without empty rule bodies -/

/-- No rule body of the grammars is empty. -/
def EpsilonFree (gs : List Grammar) : Prop :=
  ∀ g ∈ gs, ∀ key r, g.rule key = some r → ∀ body ∈ r.Body, body.Terms ≠ []

/-- Boolean check of `EpsilonFree` over the entries of the grammars. -/
def epsilonFreeCheck (gs : List Grammar) : Bool :=
  gs.all (fun g => g.Rules.all (fun kr => kr.2.Body.all (fun b => decide (b.Terms ≠ []))))

/-- Boolean check that no two different grammars of the list have a rule
under the same key. -/
def uniqueDefCheck (gs : List Grammar) : Bool :=
  gs.all (fun g1 => gs.all (fun g2 =>
    decide (g1 = g2) || g1.Rules.all (fun kr => (g2.rule kr.1).isNone)))

/-- The invariant of the completeness proof on a state of the column at
position `i`: `ItemState`, and a state that has matched something starts
before column `i`. -/
def PosItem (gs : List Grammar) (starts : List String) (i : Nat) (s : TableState) : Prop :=
  ItemState gs starts i s ∧ (0 < s.dot → s.Start < (i : Int))

/-- The work-list loop is done with the rule state `st` of the column at
position `i` of the chart `p`: the completions against an earlier start column,
the predictions for the next nonterminal and the scan over a matching next
terminal are present. -/
def Parse.DoneState (p : Parse) (i : Nat) (st : TableState) : Prop :=
  st.isAny = false →
  (st.isCompleted = some true → st.Start < (i : Int) → ∀ colk,
      p.column st.Start = some colk → ∀ s ∈ completions st colk.states, p.Present i s) ∧
  (∀ term, st.getNextTerm = some (some term) → term.Type_ = .Nonterminal →
      ∀ col, p.columns.get? i = some col →
      ∀ s ∈ predictTargets p.grammars term.Value col.index, p.Present i s) ∧
  (∀ term, st.getNextTerm = some (some term) → term.Type_ = .Terminal →
      ∀ col1, p.columns.get? (i + 1) = some col1 → term.Value = col1.token →
      p.Present (i + 1) (advanced st))

/-- The invariant of the sweep in the completeness proof. -/
def SweepInv (gs : List Grammar) (starts : List String) (q : Parse) (i : Nat) : Prop :=
  q.grammars = gs ∧ q.AllStates (PosItem gs starts) ∧ ∀ i1 < i, ColumnClosed q i1

/-- Example, the grammar of the spec: `list → "<" items ">"`,
`items → items " " item | item`, `item → "f" | "bar" | "baz"`, over the input
`< bar   baz >` (five tokens). -/
def listChart : Parse :=
  freshChart
    [{ Rules := [plainRule "list" [[tTerm "<", nTerm "items", tTerm ">"]],
                 plainRule "items" [[nTerm "items", tTerm " ", nTerm "item"], [nTerm "item"]],
                 plainRule "item" [[tTerm "f"], [tTerm "bar"], [tTerm "baz"]]] }]
    ["list"] ["<", "bar", " ", "baz", ">"]

/-- Example: `S → any{1,1} | any{2,2}` over the input `a b`. -/
def mergedAnyChart : Parse :=
  freshChart
    [{ Rules := [plainRule "S" [[anyTerm (.intMap [("max", 1), ("min", 1)])],
                                [anyTerm (.intMap [("max", 2), ("min", 2)])]]] }]
    ["S"] ["a", "b"]

/-- Example: `S → E E "x"`, `E → ε` over the input `x`. -/
def nullableScanChart : Parse :=
  freshChart [{ Rules := [plainRule "S" [[nTerm "E", nTerm "E", tTerm "x"]],
                          plainRule "E" [[]]] }] ["S"] ["x"]

/-- Example: two grammars, `S → "a"` and `S → "b"`, over the input `b`. -/
def twoGrammarChart : Parse :=
  freshChart [{ Rules := [plainRule "S" [[tTerm "a"]]] },
              { Rules := [plainRule "S" [[tTerm "b"]]] }] ["S"] ["b"]

/-! ## Termination of the sweep -/

/-- What `insert` tells states apart by, within one column: the start offset
alone for a wildcard state, and name, rule body, dot and start offset for any
other state. -/
def stateKey (s : TableState) : Option (String × Option RuleBody × Int) × Int :=
  if s.isAny then (none, s.Start) else (some (s.Name, s.Rb, s.dot), s.Start)

/-- The pairs of a name and a rule body that states of the chart can carry:
those of the grammars and start symbols, and those of the states the chart
holds. -/
def Parse.pairs (p : Parse) : List (String × RuleBody) :=
  rulePairs p.grammars p.starts ++
    p.columns.flatMap (fun c => c.states.filterMap (fun s => s.Rb.map (fun rb => (s.Name, rb))))

/-- The keys of the states a chart of `n` columns can hold, with rule bodies
from `P`. -/
def keyUniverse (P : List (String × RuleBody)) (n : Nat) :
    List (Option (String × Option RuleBody × Int) × Int) :=
  (List.range n).map (fun k => (none, Int.ofNat k)) ++
    P.flatMap (fun nb =>
      (List.range n).flatMap (fun k =>
        (List.range (nb.2.Terms.length + 1)).map (fun d =>
          (some (nb.1, some nb.2, Int.ofNat d), Int.ofNat k))))

/-- A state that is not a wildcard state carries a name and rule body of `P`. -/
def PairState (P : List (String × RuleBody)) (_i : Nat) (s : TableState) : Prop :=
  s.isAny = false → ∃ rb, s.Rb = some rb ∧ (s.Name, rb) ∈ P

/-- The states the chart `q` holds beyond those of `p`: in every column they
have pairwise different keys, and those that are not wildcard states have no
`meta`. -/
def Parse.Added (p q : Parse) : Prop :=
  ∀ i col0 col, p.columns.get? i = some col0 → q.columns.get? i = some col →
    ∃ t, col.states = col0.states ++ t ∧ (t.map stateKey).Nodup ∧
      ∀ s ∈ t, s.isAny = false → s.meta = .nil

/-- A bound on the number of states of a column of a chart reached from `p`. -/
def Parse.stateBound (p : Parse) : Nat :=
  (p.columns.map (fun c => c.states.length)).sum + p.starts.length +
    (keyUniverse p.pairs p.columns.length).length

/-! ## The round-trip example of the spec -/

/-- The semantic action `sum($1,$3)`. -/
def sumAction : FMR :=
  { Fn := "sum", Args := [some { Type_ := "index", Value := .int 1 },
                          some { Type_ := "index", Value := .int 3 }] }

/-- The rule body `items " " item` with the action `sum($1,$3)`. -/
def itemsBody : RuleBody :=
  { Terms := [nTerm "items", tTerm " ", nTerm "item"], F := some sumAction }

/-- Example, the grammar of the spec with its semantic action:
`list → "<" items ">"`, `items → items " " item {sum($1,$3)} | item`,
`item → "f" | "bar" | "baz"`, over the input `< bar   baz >` (five tokens). -/
def roundTripChart : Parse :=
  freshChart
    [{ Rules := [plainRule "list" [[tTerm "<", nTerm "items", tTerm ">"]],
                 ("items", { Name := "items",
                             Body := [itemsBody, { Terms := [nTerm "item"], F := none }] }),
                 plainRule "item" [[tTerm "f"], [tTerm "bar"], [tTerm "baz"]]] }]
    ["list"] ["<", "bar", " ", "baz", ">"]

/-- The completed state `items → items " " item •` over the tokens `bar`,
` `, `baz` (columns `1` to `4`). -/
def itemsState : TableState :=
  { Name := "items", Rb := some itemsBody, Start := 1, End := 4, dot := 3, isAny := false,
    meta := .nil }

/-- The node of `item → "bar" •` over the token `bar`. -/
def barNode : Node :=
  .mk { Name := "item", Rb := some { Terms := [tTerm "bar"], F := none }, Start := 1, End := 2,
        dot := 1, isAny := false, meta := .nil } []

/-- The node of `items → item •` over the token `bar`. -/
def barItemsNode : Node :=
  .mk { Name := "items", Rb := some { Terms := [nTerm "item"], F := none }, Start := 1,
        End := 2, dot := 1, isAny := false, meta := .nil } [barNode]

/-- The node of `item → "baz" •` over the token `baz`. -/
def bazNode : Node :=
  .mk { Name := "item", Rb := some { Terms := [tTerm "baz"], F := none }, Start := 3, End := 4,
        dot := 1, isAny := false, meta := .nil } []

/-- The derivation node of `items` over `bar`, ` `, `baz`, with one child per
nonterminal of the rule body, as the spec describes the tree. -/
def itemsNode : Node :=
  .mk itemsState [barItemsNode, bazNode]

/-- Example: the chart of `nullableChart` when the work-list loop of column
`0` has ended, before `handleEpsilons` runs on that column. -/
def nullableWorkChart : Parse :=
  (Parse.columnLoop 10 (nullableChart.addStarts.getD nullableChart) 0 0).getD nullableChart

/-- Example: a column of index `2` holding the rule state `S → "a" • "b"` and
the wildcard state with `Start = 0` and `dot = 2`. -/
def anyColumn : TableColumn :=
  { token := "b", startByte := 0, endByte := 0, index := 2,
    states := [{ Name := "S", Rb := some { Terms := [tTerm "a", tTerm "b"], F := none },
                 Start := 1, End := 2, dot := 1, isAny := false, meta := .nil },
               { Name := "any", Rb := none, Start := 0, End := 2, dot := 2, isAny := true,
                 meta := .nil }] }

/-- Example: the wildcard state `complete` builds from a waiting wildcard state
with `Start = 0` and `dot = 0`. -/
def anyProbe : TableState :=
  { Name := "any", Rb := none, Start := 0, End := 0, dot := 1, isAny := true, meta := .nil }

/-! ## Columns as deduplicated sets -/

/-- No two states at different positions of the list are deeply equal, nor
are both wildcard states with the same `Start`. -/
def DedupStates (l : List TableState) : Prop :=
  l.Pairwise (fun a b => a ≠ b ∧ ¬ (a.isAny = true ∧ b.isAny = true ∧ a.Start = b.Start))

/-- Every column of the chart is deduplicated. -/
def Parse.Dedup (p : Parse) : Prop :=
  ∀ i col, p.columns.get? i = some col → DedupStates col.states

/-- Example: the start symbol `S → "a"` named twice, over the input `a`. -/
def repeatedStartChart : Parse :=
  freshChart [{ Rules := [plainRule "S" [[tTerm "a"]]] }] ["S", "S"] ["a"]

/-- Example: `S → "a" "b" | any{1,1}` over the input `a b`. -/
def wildcardGapChart : Parse :=
  freshChart
    [{ Rules := [plainRule "S" [[tTerm "a", tTerm "b"],
                                [anyTerm (.intMap [("max", 1), ("min", 1)])]]] }]
    ["S"] ["a", "b"]

/-- The bound on the dot of a wildcard state of the column at position `i`:
it is at most the number of tokens between its start column and column `i`. -/
def AnyWithin (i : Nat) (s : TableState) : Prop :=
  s.isAny = true → s.dot ≤ (i : Int) - s.Start

/-- A wildcard state of the column at position `i` that carries a `meta`
(bounds) has matched exactly the tokens between its start column and column
`i`. -/
def AnyExact (i : Nat) (s : TableState) : Prop :=
  s.isAny = true → s.meta ≠ .nil → s.dot = (i : Int) - s.Start

/-- Example: `S → S "a" | ε | A`, `A → S` (a left-recursive rule, a rule with
an empty body and a cycle of unit rules) over the input `a a`. -/
def cyclicChart : Parse :=
  freshChart
    [{ Rules := [plainRule "S" [[nTerm "S", tTerm "a"], [], [nTerm "A"]],
                 plainRule "A" [[nTerm "S"]]] }]
    ["S"] ["a", "a"]

/-! ## Theorems -/

/-! ### Evaluator -/

theorem Semantic_error_empty (R : Render) (n : Node) (e : EvalError)
    (h : (n.Semantic R).2 = some e) : (n.Semantic R).1 = "" := by
  cases n with
  | mk v cs =>
    generalize hr : Node.Semantic R (.mk v cs) = r at h ⊢
    rw [Node.Semantic] at hr
    split at hr
    · subst hr; rfl
    · split at hr
      · subst hr; rfl
      · split at hr
        · split at hr
          · split at hr
            · subst hr; rfl
            · subst hr; simp at h
          · subst hr; rfl
        · split at hr
          · subst hr; rfl
          · subst hr; simp at h

theorem semStr_index_unfold (R : Render) (i : Int) (nodes : List Node) :
    semStr R (some { Type_ := "index", Value := .int i }) nodes =
      if i < 1 ∨ i > (nodes.length : Int) then ("", some (.indexRange i nodes.length))
      else match nodes.get? (i - 1).toNat with
        | none => ("", some (.indexRange i nodes.length))
        | some n => n.Semantic R := by
  rw [semStr]
  simp only [show ¬ ("index" = "string") by decide, show ¬ ("index" = "int") by decide,
    show ¬ ("index" = "float") by decide, show ¬ ("index" = "func") by decide, if_false, if_true]
  split
  · rfl
  · split
    · rename_i h; simp only [h]
    · rename_i m h
      simp only [h]
      split
      · rename_i s err hs
        have := Semantic_error_empty R m err (by rw [hs])
        rw [hs] at this ⊢
        simp at this; rw [this]
      · rename_i s hs
        rw [hs]

theorem get?_of_index_range {α : Type} (l : List α) (i : Int) (h1 : 1 ≤ i) (h2 : i ≤ l.length) :
    ∃ a, l.get? (i - 1).toNat = some a := by
  have hlt : (i - 1).toNat < l.length := by omega
  exact ⟨l.get ⟨_, hlt⟩, List.get?_eq_get hlt⟩

theorem semArgs_eq (R : Render) (cs : List Node) (args : List (Option Arg)) (acc : List String) :
    (∀ a ∈ args, (semStr R a cs).2 = none) →
      semArgs R args cs acc = (acc ++ args.map (fun a => (semStr R a cs).1), none) := by
  induction args generalizing acc with
  | nil => intro _; simp [semArgs]
  | cons a rest ih =>
    intro h
    rw [semArgs]
    have ha := h a (List.mem_cons_self _ _)
    split
    · rename_i s err hs; rw [hs] at ha; simp at ha
    · rename_i s hs
      rw [ih _ (fun b hb => h b (List.mem_cons_of_mem _ hb))]
      simp [hs]

theorem semArgs_fail (R : Render) (cs : List Node) (pre : List (Option Arg)) (a : Option Arg)
    (post : List (Option Arg)) (e : EvalError) (acc : List String)
    (hpre : ∀ b ∈ pre, (semStr R b cs).2 = none) (ha : (semStr R a cs).2 = some e) :
    (semArgs R (pre ++ a :: post) cs acc).2 = some e := by
  induction pre generalizing acc with
  | nil =>
    simp only [List.nil_append]
    rw [semArgs]
    split
    · rename_i s err hs; rw [hs] at ha; simpa using ha
    · rename_i s hs; rw [hs] at ha; simp at ha
  | cons b rest ih =>
    simp only [List.cons_append]
    rw [semArgs]
    have hb := hpre b (List.mem_cons_self _ _)
    split
    · rename_i s err hs; rw [hs] at hb; simp at hb
    · exact ih _ (fun c hc => hpre c (List.mem_cons_of_mem _ hc))

theorem Semantic_call_unfold (R : Render) (v : TableState) (cs : List Node) (rb : RuleBody)
    (f : FMR) (hrb : v.Rb = some rb) (hf : rb.F = some f) (hfn : f.Fn ≠ "nf.I") :
    (Node.mk v cs).Semantic R =
      match semArgs R f.Args cs [] with
      | (_, some err) => ("", some err)
      | (args, none) => (f.Fn ++ "(" ++ ", ".intercalate args ++ ")", none) := by
  rw [Node.Semantic]
  simp only [hrb, hf, hfn, if_false]
  try rfl

theorem Semantic_identity_unfold (R : Render) (v : TableState) (cs : List Node) (rb : RuleBody)
    (f : FMR) (a : Option Arg) (hrb : v.Rb = some rb) (hf : rb.F = some f) (hfn : f.Fn = "nf.I")
    (hargs : f.Args = [a]) :
    (Node.mk v cs).Semantic R =
      match semStr R a cs with
      | (_, some err) => ("", some err)
      | (s, none) => (s, none) := by
  rw [Node.Semantic]
  simp only [hrb, hf, hfn, if_true, hargs]
  try rfl

/-- C8: a node whose action is `nf.I` with the single argument `index i`,
`1 ≤ i ≤ len(Children)`, evaluates to exactly what its `i`-th child evaluates
to, string and error alike; so does a node carrying the rule body `ɣ → start`
built by `parse`, with respect to its first child. -/
theorem Semantic_identity_transparent (R : Render) (v : TableState) (cs : List Node) :
    (∀ (rb : RuleBody) (f : FMR) (i : Int), v.Rb = some rb → rb.F = some f → f.Fn = "nf.I" →
        f.Args = [some { Type_ := "index", Value := .int i }] → 1 ≤ i → i ≤ cs.length →
        ∃ c, cs.get? (i - 1).toNat = some c ∧ (Node.mk v cs).Semantic R = c.Semantic R) ∧
    (∀ (start : String) (c : Node) (rest : List Node), v.Rb = some (gammaBody start) →
        cs = c :: rest → (Node.mk v cs).Semantic R = c.Semantic R) := by
  have key : ∀ (rb : RuleBody) (f : FMR) (i : Int), v.Rb = some rb → rb.F = some f →
      f.Fn = "nf.I" → f.Args = [some { Type_ := "index", Value := .int i }] → 1 ≤ i →
      i ≤ cs.length →
      ∃ c, cs.get? (i - 1).toNat = some c ∧ (Node.mk v cs).Semantic R = c.Semantic R := by
    intro rb f i hrb hf hfn hargs h1 h2
    obtain ⟨c, hc⟩ := get?_of_index_range cs i h1 h2
    refine ⟨c, hc, ?_⟩
    rw [Semantic_identity_unfold R v cs rb f _ hrb hf hfn hargs, semStr_index_unfold]
    have hr : ¬ (i < 1 ∨ i > (cs.length : Int)) := by omega
    simp only [hr, if_false, hc]
    split
    · rename_i s err hs
      have := Semantic_error_empty R c err (by rw [hs])
      rw [hs] at this ⊢
      simp at this; rw [this]
    · rename_i s hs; rw [hs]
  refine ⟨key, ?_⟩
  intro start c rest hrb hcs
  obtain ⟨c', hc', heq⟩ := key (gammaBody start) _ 1 hrb rfl rfl rfl (by omega)
    (by rw [hcs]; simp)
  rw [hcs] at hc'
  simp at hc'
  rw [heq, hc']

/-- C9: for an `index` argument with payload `i`, `semStr` fails exactly when
`i < 1`, or `i > len(nodes)`, or evaluating `nodes[i-1]` fails; out of range
(in particular at `0` and at `len(nodes)+1`) the result is the empty string and
the range error, and in range it is exactly the result of `nodes[i-1].Semantic()`. -/
theorem semStr_index_bounds_checked (R : Render) (i : Int) (nodes : List Node) :
    ((semStr R (some { Type_ := "index", Value := .int i }) nodes).2 ≠ none ↔
      (i < 1 ∨ i > (nodes.length : Int) ∨
        ∃ n, nodes.get? (i - 1).toNat = some n ∧ (n.Semantic R).2 ≠ none)) ∧
    (i < 1 ∨ i > (nodes.length : Int) →
      semStr R (some { Type_ := "index", Value := .int i }) nodes =
        ("", some (.indexRange i nodes.length))) ∧
    semStr R (some { Type_ := "index", Value := .int 0 }) nodes =
        ("", some (.indexRange 0 nodes.length)) ∧
    semStr R (some { Type_ := "index", Value := .int ((nodes.length : Int) + 1) }) nodes =
        ("", some (.indexRange ((nodes.length : Int) + 1) nodes.length)) ∧
    (1 ≤ i → i ≤ (nodes.length : Int) →
      ∃ n, nodes.get? (i - 1).toNat = some n ∧
        semStr R (some { Type_ := "index", Value := .int i }) nodes = n.Semantic R) := by
  have hout : ∀ k : Int, (k < 1 ∨ k > (nodes.length : Int)) →
      semStr R (some { Type_ := "index", Value := .int k }) nodes =
        ("", some (.indexRange k nodes.length)) := by
    intro k hk
    rw [semStr_index_unfold]
    simp only [hk, if_true]
  have hin : 1 ≤ i → i ≤ (nodes.length : Int) →
      ∃ n, nodes.get? (i - 1).toNat = some n ∧
        semStr R (some { Type_ := "index", Value := .int i }) nodes = n.Semantic R := by
    intro h1 h2
    obtain ⟨c, hc⟩ := get?_of_index_range nodes i h1 h2
    refine ⟨c, hc, ?_⟩
    rw [semStr_index_unfold]
    have hr : ¬ (i < 1 ∨ i > (nodes.length : Int)) := by omega
    simp only [hr, if_false, hc]
  refine ⟨?_, hout i, hout 0 (by omega), hout _ (by omega), hin⟩
  constructor
  · intro h
    by_cases hr : i < 1 ∨ i > (nodes.length : Int)
    · rcases hr with hr | hr
      · exact Or.inl hr
      · exact Or.inr (Or.inl hr)
    · obtain ⟨n, hn, heq⟩ := hin (by omega) (by omega)
      rw [heq] at h
      exact Or.inr (Or.inr ⟨n, hn, h⟩)
  · rintro (h | h | ⟨n, hn, hne⟩)
    · rw [hout i (Or.inl h)]; simp
    · rw [hout i (Or.inr h)]; simp
    · by_cases hr : i < 1 ∨ i > (nodes.length : Int)
      · rw [hout i hr]; simp
      · obtain ⟨n', hn', heq⟩ := hin (by omega) (by omega)
        rw [hn] at hn'
        cases hn'
        rw [heq]; exact hne

/-- C10: for a node whose action has a function name other than `nf.I`,
`Semantic` succeeds exactly when every argument evaluates without error, the
string then being `Fn(s1, ..., sk)` with the arguments' strings in order; when
an argument fails, the result is the empty string with the error of the first
failing argument. -/
theorem Semantic_call_rendering (R : Render) (v : TableState) (cs : List Node) (rb : RuleBody)
    (f : FMR) (hrb : v.Rb = some rb) (hf : rb.F = some f) (hfn : f.Fn ≠ "nf.I") :
    (((Node.mk v cs).Semantic R).2 = none ↔ ∀ a ∈ f.Args, (semStr R a cs).2 = none) ∧
    ((∀ a ∈ f.Args, (semStr R a cs).2 = none) →
      (Node.mk v cs).Semantic R =
        (f.Fn ++ "(" ++ ", ".intercalate (f.Args.map (fun a => (semStr R a cs).1)) ++ ")",
          none)) ∧
    (∀ (pre : List (Option Arg)) (a : Option Arg) (post : List (Option Arg)) (e : EvalError),
      f.Args = pre ++ a :: post → (∀ b ∈ pre, (semStr R b cs).2 = none) →
      (semStr R a cs).2 = some e → (Node.mk v cs).Semantic R = ("", some e)) := by
  have hok : (∀ a ∈ f.Args, (semStr R a cs).2 = none) →
      (Node.mk v cs).Semantic R =
        (f.Fn ++ "(" ++ ", ".intercalate (f.Args.map (fun a => (semStr R a cs).1)) ++ ")",
          none) := by
    intro h
    rw [Semantic_call_unfold R v cs rb f hrb hf hfn, semArgs_eq R cs f.Args [] h]
    simp
  have hfail : ∀ (pre : List (Option Arg)) (a : Option Arg) (post : List (Option Arg))
      (e : EvalError), f.Args = pre ++ a :: post → (∀ b ∈ pre, (semStr R b cs).2 = none) →
      (semStr R a cs).2 = some e → (Node.mk v cs).Semantic R = ("", some e) := by
    intro pre a post e hargs hpre ha
    rw [Semantic_call_unfold R v cs rb f hrb hf hfn, hargs]
    have := semArgs_fail R cs pre a post e [] hpre ha
    split
    · rename_i s err hs; rw [hs] at this; simp at this; rw [this]
    · rename_i s hs; rw [hs] at this; simp at this
  refine ⟨⟨?_, fun h => by rw [hok h]⟩, hok, hfail⟩
  intro hnone
  by_contra hex
  push_neg at hex
  -- take the first failing argument
  have : ∀ (l : List (Option Arg)), (∃ a ∈ l, (semStr R a cs).2 ≠ none) →
      ∃ pre a post e, l = pre ++ a :: post ∧ (∀ b ∈ pre, (semStr R b cs).2 = none) ∧
        (semStr R a cs).2 = some e := by
    intro l
    induction l with
    | nil => rintro ⟨a, ha, _⟩; simp at ha
    | cons b rest ih =>
      intro hl
      cases hb : (semStr R b cs).2 with
      | some e => exact ⟨[], b, rest, e, rfl, by simp, hb⟩
      | none =>
        obtain ⟨a, ha, hne⟩ := hl
        have ha' : a ∈ rest := by
          rcases List.mem_cons.mp ha with h | h
          · subst h; exact absurd hb hne
          · exact h
        obtain ⟨pre, a', post, e, hl', hpre, he⟩ := ih ⟨a, ha', hne⟩
        refine ⟨b :: pre, a', post, e, by rw [hl']; rfl, ?_, he⟩
        intro c hc
        rcases List.mem_cons.mp hc with h | h
        · subst h; exact hb
        · exact hpre c h
  obtain ⟨pre, a, post, e, hl, hpre, he⟩ := this f.Args hex
  rw [hfail pre a post e hl hpre he] at hnone
  simp at hnone

/-- Witness of C8: a node carrying `ɣ → S` over one child without action. -/
theorem Semantic_identity_transparent_witness :
    (Node.mk (gammaState "S") [Node.mk (gammaState "T") []]).Semantic plainRender =
      (Node.mk (gammaState "T") []).Semantic plainRender :=
  (Semantic_identity_transparent plainRender (gammaState "S") [Node.mk (gammaState "T") []]).2
    "S" (Node.mk (gammaState "T") []) [] rfl rfl

/-- Witness of C9: index `1` over one child resolves to that child. -/
theorem semStr_index_bounds_checked_witness :
    ∃ n, [Node.mk (gammaState "T") []].get? ((1 : Int) - 1).toNat = some n ∧
      semStr plainRender (some { Type_ := "index", Value := .int 1 })
        [Node.mk (gammaState "T") []] = n.Semantic plainRender :=
  (semStr_index_bounds_checked plainRender 1 [Node.mk (gammaState "T") []]).2.2.2.2
    (by decide) (by decide)

/-- Witness of C10: the action `sum("bar", g)` over no children. -/
theorem Semantic_call_rendering_witness :
    (Node.mk { Name := "items",
               Rb := some { Terms := [], F := some { Fn := "sum", Args :=
                 [some { Type_ := "string", Value := .str "bar" },
                  some { Type_ := "func", Value := .str "g" }] } },
               Start := 0, End := 0, dot := 0, isAny := false, meta := .nil } []).Semantic
        plainRender = ("sum(\"bar\", g)", none) := by
  have h := (Semantic_call_rendering plainRender
    { Name := "items",
      Rb := some { Terms := [], F := some { Fn := "sum", Args :=
        [some { Type_ := "string", Value := .str "bar" },
         some { Type_ := "func", Value := .str "g" }] } },
      Start := 0, End := 0, dot := 0, isAny := false, meta := .nil } []
    { Terms := [], F := some { Fn := "sum", Args :=
        [some { Type_ := "string", Value := .str "bar" },
         some { Type_ := "func", Value := .str "g" }] } }
    { Fn := "sum", Args :=
        [some { Type_ := "string", Value := .str "bar" },
         some { Type_ := "func", Value := .str "g" }] } rfl rfl (by decide)).2.1
    (by simp [semStr])
  rw [h]
  simp [semStr, plainRender]
  decide

/-! ### The chart: `insert` and the extension order -/

theorem insert_index (col : TableColumn) (s : TableState) :
    (col.insert s).1.index = col.index ∧ (col.insert s).1.token = col.token := by
  unfold TableColumn.insert
  dsimp only
  split <;> simp

theorem insert_states (col : TableColumn) (s : TableState) :
    ((col.insert s).1.states = col.states ∧ (col.insert s).2.2 = false ∧
        ∃ s1 ∈ col.states, sameState { s with End := col.index } s1 = true) ∨
    ((col.insert s).1.states = col.states ++ [{ s with End := col.index }] ∧
        (col.insert s).2.2 = true ∧
        ∀ s1 ∈ col.states, sameState { s with End := col.index } s1 = false) := by
  unfold TableColumn.insert
  dsimp only
  split
  · rename_i s1 h
    left
    refine ⟨rfl, rfl, s1, List.mem_of_find?_eq_some h, ?_⟩
    simpa using List.find?_some h
  · rename_i h
    right
    refine ⟨rfl, rfl, ?_⟩
    intro s1 hs1
    have := List.find?_eq_none.mp h s1 hs1
    simpa using this

theorem insertAt_spec {p q : Parse} {i : Nat} {s : TableState} {b : Bool}
    (h : p.insertAt i s = some (q, b)) :
    ∃ col, p.columns.get? i = some col ∧
      q = { p with columns := p.columns.set i (col.insert s).1 } ∧ b = (col.insert s).2.2 := by
  unfold Parse.insertAt at h
  split at h
  · simp at h
  · rename_i col hc
    simp only [Option.some.injEq, Prod.mk.injEq] at h
    exact ⟨col, hc, h.1.symm, h.2.symm⟩

theorem insertAt_isSome {p : Parse} {i : Nat} (s : TableState) (h : i < p.columns.length) :
    ∃ q b, p.insertAt i s = some (q, b) := by
  unfold Parse.insertAt
  rw [List.get?_eq_get h]
  exact ⟨_, _, rfl⟩

theorem Parse.Ext.refl (p : Parse) : p.Ext p :=
  ⟨rfl, rfl, rfl, fun _ col h => ⟨col, h, rfl, rfl, [], by simp⟩⟩

theorem Parse.Ext.etrans {p q r : Parse} (h1 : p.Ext q) (h2 : q.Ext r) : p.Ext r := by
  refine ⟨h2.grammars.trans h1.grammars, h2.starts.trans h1.starts,
    h2.length.trans h1.length, ?_⟩
  intro i col hc
  obtain ⟨c1, hc1, ht1, hi1, t1, hs1⟩ := h1.column i col hc
  obtain ⟨c2, hc2, ht2, hi2, t2, hs2⟩ := h2.column i c1 hc1
  exact ⟨c2, hc2, ht2.trans ht1, hi2.trans hi1, t1 ++ t2, by rw [hs2, hs1, List.append_assoc]⟩

theorem insertAt_ext {p q : Parse} {i : Nat} {s : TableState} {b : Bool}
    (h : p.insertAt i s = some (q, b)) : p.Ext q := by
  obtain ⟨col, hc, rfl, -⟩ := insertAt_spec h
  refine ⟨rfl, rfl, by simp, ?_⟩
  intro k c hk
  by_cases hki : k = i
  · subst hki
    rw [hc] at hk
    cases hk
    have hlt : k < p.columns.length := by
      by_contra hn
      rw [List.get?_eq_none.mpr (by omega)] at hc
      cases hc
    refine ⟨(col.insert s).1, by simp [List.getElem?_set, hlt], (insert_index col s).2,
      (insert_index col s).1, ?_⟩
    rcases insert_states col s with ⟨h1, -, -⟩ | ⟨h1, -, -⟩
    · exact ⟨[], by simp [h1]⟩
    · exact ⟨_, h1⟩
  · refine ⟨c, ?_, rfl, rfl, [], by simp⟩
    simp only [List.get?_eq_getElem?] at hk ⊢
    rw [List.getElem?_set_ne (Ne.symm hki)]
    exact hk

theorem insertAt_other {p q : Parse} {i k : Nat} {s : TableState} {b : Bool}
    (h : p.insertAt i s = some (q, b)) (hki : k ≠ i) : q.columns.get? k = p.columns.get? k := by
  obtain ⟨col, hc, rfl, -⟩ := insertAt_spec h
  simp only [List.get?_eq_getElem?]
  rw [List.getElem?_set_ne (Ne.symm hki)]

theorem insertAt_column {p q : Parse} {i : Nat} {s : TableState} {b : Bool}
    (h : p.insertAt i s = some (q, b)) :
    ∃ col, p.columns.get? i = some col ∧ q.columns.get? i = some (col.insert s).1 ∧
      b = (col.insert s).2.2 := by
  obtain ⟨col, hc, rfl, hb⟩ := insertAt_spec h
  have hlt : i < p.columns.length := by
    by_contra hn
    rw [List.get?_eq_none.mpr (by omega)] at hc
    cases hc
  exact ⟨col, hc, by simp [List.getElem?_set, hlt], hb⟩

theorem Parse.Ext.inCol {p q : Parse} (h : p.Ext q) {i : Nat} {s : TableState} (hs : p.InCol i s) :
    q.InCol i s := by
  obtain ⟨col, hc, hm⟩ := hs
  obtain ⟨c1, hc1, -, -, t, hst⟩ := h.column i col hc
  exact ⟨c1, hc1, by rw [hst]; exact List.mem_append_left _ hm⟩

theorem Parse.Ext.column_int {p q : Parse} (h : p.Ext q) {k : Int} {col : TableColumn}
    (hc : p.column k = some col) :
    ∃ col1, q.column k = some col1 ∧ col1.token = col.token ∧ col1.index = col.index ∧
      ∃ t, col1.states = col.states ++ t := by
  unfold Parse.column at hc ⊢
  split at hc
  · cases hc
  · rename_i hk
    simp only [hk, if_false]
    exact h.column _ col hc

theorem Gen.mono {p q : Parse} (h : p.Ext q) {i : Nat} {s : TableState} (hg : Gen p i s) :
    Gen q i s := by
  cases hg with
  | predictRule i col st term g r prod hc hm ht hty hg hr hp =>
    obtain ⟨c1, hc1, -, hi, t, hst⟩ := h.column i col hc
    rw [← hi]
    exact Gen.predictRule i c1 st term g r prod hc1 (by rw [hst]; exact List.mem_append_left _ hm)
      ht hty (by rw [h.grammars]; exact hg) hr hp
  | predictAny i col st term hc hm ha ht hty =>
    obtain ⟨c1, hc1, -, hi, t, hst⟩ := h.column i col hc
    rw [← hi]
    exact Gen.predictAny i c1 st term hc1 (by rw [hst]; exact List.mem_append_left _ hm) ha ht hty
  | scanAny i col st hc hm ha hmeta hlen =>
    obtain ⟨c1, hc1, -, hi, t, hst⟩ := h.column i col hc
    exact Gen.scanAny i c1 st hc1 (by rw [hst]; exact List.mem_append_left _ hm) ha hmeta
      (by rw [h.length]; exact hlen)
  | scanTerminal i col col1 st term hc hm ha ht hty hc1 htok =>
    obtain ⟨c, hc', -, hi, t, hst⟩ := h.column i col hc
    obtain ⟨c1, hc1', htk, -, -, -⟩ := h.column (i + 1) col1 hc1
    exact Gen.scanTerminal i c c1 st term hc' (by rw [hst]; exact List.mem_append_left _ hm)
      ha ht hty hc1' (by rw [htk]; exact htok)
  | complete i col state colk st term hc hm hdone hk hmk ht hty =>
    obtain ⟨c, hc', -, hi, t, hst⟩ := h.column i col hc
    obtain ⟨ck, hck, -, -, tk, hstk⟩ := h.column_int hk
    exact Gen.complete i c state ck st term hc' (by rw [hst]; exact List.mem_append_left _ hm)
      hdone hck (by rw [hstk]; exact List.mem_append_left _ hmk) ht hty

theorem Reach.toExt {C : Nat → Prop} {p q : Parse} (h : Reach C p q) : p.Ext q := by
  induction h with
  | refl => exact Parse.Ext.refl _
  | step q r i s b _ _ _ hins ih => exact ih.etrans (insertAt_ext hins)

theorem Reach.rtrans {C : Nat → Prop} {p q r : Parse} (h1 : Reach C p q) (h2 : Reach C q r) :
    Reach C p r := by
  induction h2 with
  | refl => exact h1
  | step q r i s b _ hlo hg hins ih => exact Reach.step _ _ _ i s b ih hlo hg hins

theorem Reach.weaken {C D : Nat → Prop} {p q : Parse} (h : Reach C p q)
    (hle : ∀ k, C k → D k) : Reach D p q := by
  induction h with
  | refl => exact Reach.refl _
  | step q r i s b _ hlo hg hins ih =>
    exact Reach.step _ _ _ i s b ih (hle _ hlo) hg hins

theorem Reach.single {C : Nat → Prop} {p q : Parse} {i : Nat} {s : TableState} {b : Bool}
    (hlo : C i) (hg : Gen p i s) (hins : p.insertAt i s = some (q, b)) : Reach C p q :=
  Reach.step _ _ _ i s b (Reach.refl _) hlo hg hins

theorem Reach.unchanged {C : Nat → Prop} {p q : Parse} (h : Reach C p q) {k : Nat}
    (hk : ¬ C k) : q.columns.get? k = p.columns.get? k := by
  induction h with
  | refl => rfl
  | step q r i s b _ hlo _ hins ih =>
    rw [insertAt_other hins (by rintro rfl; exact hk hlo), ih]

/-! ### Runs of `insert` -/

theorem Parse.Indexed.ofExt {p q : Parse} (hi : p.Indexed) (h : p.Ext q) : q.Indexed := by
  intro i col hc
  have hlt : i < p.columns.length := by
    rw [← h.length]
    by_contra hn
    rw [List.get?_eq_none.mpr (by omega)] at hc
    cases hc
  obtain ⟨c1, hc1, -, hidx, -⟩ := h.column i _ (List.get?_eq_get hlt)
  rw [hc] at hc1
  cases hc1
  rw [hidx]
  exact hi i _ (List.get?_eq_get hlt)

theorem insertAt_present {p q : Parse} {i : Nat} {s : TableState} {b : Bool}
    (hi : p.Indexed) (h : p.insertAt i s = some (q, b)) : q.Present i s := by
  obtain ⟨col, hc, hq, hb⟩ := insertAt_column h
  have hidx := hi i col hc
  rcases insert_states col s with ⟨h1, -, s1, hs1, hsame⟩ | ⟨h1, -, -⟩
  · refine ⟨s1, ⟨_, hq, by rw [h1]; exact hs1⟩, ?_⟩
    rw [hidx] at hsame
    exact hsame
  · refine ⟨stamp i s, ⟨_, hq, by rw [h1, hidx]; simp [stamp]⟩, ?_⟩
    simp [sameState]

theorem Parse.Present.extend {p q : Parse} {i : Nat} {s : TableState} (h : p.Present i s)
    (he : p.Ext q) : q.Present i s := by
  obtain ⟨s1, hs1, hsame⟩ := h
  exact ⟨s1, he.inCol hs1, hsame⟩

theorem insertAt_unchanged {p q : Parse} {i : Nat} {s : TableState} {b : Bool}
    (h : p.insertAt i s = some (q, b)) (hb : b = false) : q = p := by
  obtain ⟨col, hc, rfl, hb2⟩ := insertAt_spec h
  rcases insert_states col s with ⟨h1, -, -⟩ | ⟨-, h2, -⟩
  · have : (col.insert s).1 = col := by
      unfold TableColumn.insert at h1 ⊢
      dsimp only at h1 ⊢
      split
      · rfl
      · rename_i hf
        rw [hf] at h1
        simp at h1
    rw [this]
    have hset : p.columns.set i col = p.columns := by
      apply List.ext_get?
      intro k
      by_cases hk : k = i
      · subst hk
        have hlt : k < p.columns.length := by
          by_contra hn
          rw [List.get?_eq_none.mpr (by omega)] at hc
          cases hc
        simp only [List.get?_eq_getElem?] at hc ⊢
        rw [List.getElem?_set_self hlt, hc]
      · simp only [List.get?_eq_getElem?]
        rw [List.getElem?_set_ne (Ne.symm hk)]
    rw [hset]
  · rw [hb] at hb2
    rw [h2] at hb2
    cases hb2

theorem insertAt_fresh_iff {p q : Parse} {i : Nat} {s : TableState} {b : Bool}
    (hi : p.Indexed) (h : p.insertAt i s = some (q, b)) : b = false ↔ p.Present i s := by
  obtain ⟨col, hc, hq, hb⟩ := insertAt_column h
  have hidx := hi i col hc
  rcases insert_states col s with ⟨-, h2, s1, hs1, hsame⟩ | ⟨-, h2, hno⟩
  · rw [hb, h2]
    simp only [true_iff]
    refine ⟨s1, ⟨col, hc, hs1⟩, ?_⟩
    rw [hidx] at hsame
    exact hsame
  · rw [hb, h2]
    simp only [Bool.true_eq_false, false_iff]
    rintro ⟨s1, ⟨c, hc2, hm⟩, hsame⟩
    rw [hc] at hc2
    cases hc2
    have := hno s1 hm
    rw [hidx] at this
    unfold stamp at hsame
    rw [this] at hsame
    cases hsame

theorem insertAt_colLength {p q : Parse} {i : Nat} {s : TableState} {b : Bool}
    (h : p.insertAt i s = some (q, b)) :
    q.colLength i = p.colLength i + (if b then 1 else 0) := by
  obtain ⟨col, hc, hq, hb⟩ := insertAt_column h
  unfold Parse.colLength
  rw [hc, hq]
  rcases insert_states col s with ⟨h1, h2, -⟩ | ⟨h1, h2, -⟩
  · rw [hb, h2]; simp [h1]
  · rw [hb, h2]; simp [h1]

theorem insertAll_total (i : Nat) (l : List TableState) (p : Parse) (ch : Bool)
    (hlt : i < p.columns.length) : ∃ q c, insertAll i l p ch = some (q, c) := by
  induction l generalizing p ch with
  | nil => exact ⟨p, ch, rfl⟩
  | cons s rest ih =>
    obtain ⟨p1, b, h1⟩ := insertAt_isSome (p := p) s hlt
    have hlen := (insertAt_ext h1).length
    obtain ⟨q, c, h2⟩ := ih p1 (ch || b) (by omega)
    exact ⟨q, c, by simp [insertAll, h1, h2]⟩

theorem insertAll_reach {C : Nat → Prop} {i : Nat} (hlo : C i) (l : List TableState)
    (p q : Parse) (ch c : Bool) (hgen : ∀ s ∈ l, Gen p i s)
    (h : insertAll i l p ch = some (q, c)) : Reach C p q := by
  induction l generalizing p ch with
  | nil =>
    simp only [insertAll, Option.some.injEq, Prod.mk.injEq] at h
    rw [← h.1]
    exact Reach.refl _
  | cons s rest ih =>
    simp only [insertAll] at h
    split at h
    · cases h
    · rename_i p1 b h1
      have hr1 : Reach C p p1 := Reach.single hlo (hgen s (List.mem_cons_self _ _)) h1
      exact hr1.rtrans (ih p1 (ch || b)
        (fun s1 hs1 => (hgen s1 (List.mem_cons_of_mem _ hs1)).mono hr1.toExt) h)

theorem insertAll_post (i : Nat) (l : List TableState) (p q : Parse) (ch c : Bool)
    (hi : p.Indexed) (h : insertAll i l p ch = some (q, c)) :
    p.Ext q ∧ (∀ s ∈ l, q.Present i s) ∧ (c = false → q = p ∧ ch = false) ∧
      (ch = true → c = true) ∧
      (c = true → ch = false → p.colLength i < q.colLength i) ∧
      p.colLength i ≤ q.colLength i ∧
      ((∀ s ∈ l, p.Present i s) → q = p ∧ c = ch) := by
  induction l generalizing p ch with
  | nil =>
    simp only [insertAll, Option.some.injEq, Prod.mk.injEq] at h
    obtain ⟨rfl, rfl⟩ := h
    refine ⟨Parse.Ext.refl _, by simp, fun h => ⟨rfl, h⟩, fun h => h, ?_, le_refl _, fun _ => ⟨rfl, rfl⟩⟩
    intro h1 h2
    rw [h1] at h2
    cases h2
  | cons s rest ih =>
    simp only [insertAll] at h
    split at h
    · cases h
    · rename_i p1 b h1
      have he1 := insertAt_ext h1
      obtain ⟨he2, hpres, hfalse, htrue, hgrow, hle, hsame⟩ := ih p1 (ch || b) (hi.ofExt he1) h
      have hl1 := insertAt_colLength h1
      refine ⟨he1.etrans he2, ?_, ?_, ?_, ?_, ?_, ?_⟩
      · intro s1 hs1
        rcases List.mem_cons.mp hs1 with rfl | hs1
        · exact (insertAt_present hi h1).extend he2
        · exact hpres s1 hs1
      · intro hc
        obtain ⟨hq, hcb⟩ := hfalse hc
        simp only [Bool.or_eq_false_iff] at hcb
        rw [hq, insertAt_unchanged h1 hcb.2]
        exact ⟨rfl, hcb.1⟩
      · intro hch
        exact htrue (by simp [hch])
      · intro hc hch
        cases b with
        | true => simp at hl1; omega
        | false =>
          simp at hl1
          have := hgrow hc (by simp [hch])
          omega
      · cases b <;> simp at hl1 <;> omega
      · intro hall
        have hb : b = false := (insertAt_fresh_iff hi h1).mpr (hall s (List.mem_cons_self _ _))
        have hp1 : p1 = p := insertAt_unchanged h1 hb
        obtain ⟨hq, hc⟩ := hsame (fun s1 hs1 => by
          rw [hp1]; exact hall s1 (List.mem_cons_of_mem _ hs1))
        rw [hq, hp1, hc, hb]
        simp

/-! ### The chart invariant -/

theorem getNextTerm_nonwild {st : TableState} {term : Term} (ha : st.isAny = false)
    (h : st.getNextTerm = some (some term)) :
    ∃ rb, st.Rb = some rb ∧ 0 ≤ st.dot ∧ st.dot < (rb.Terms.length : Int) ∧
      rb.Terms.get? st.dot.toNat = some term ∧ st.isCompleted = some false := by
  unfold TableState.getNextTerm at h
  unfold TableState.isCompleted at h ⊢
  simp only [ha, Bool.false_eq_true, if_false] at h ⊢
  cases hrb : st.Rb with
  | none => simp [hrb] at h
  | some rb =>
    simp only [hrb] at h ⊢
    by_cases hd : st.dot ≥ (rb.Terms.length : Int)
    · simp [hd] at h
    · simp only [hd, decide_False] at h ⊢
      by_cases hneg : st.dot < 0
      · simp [hneg] at h
      · simp only [hneg, if_false] at h
        cases hg : rb.Terms.get? st.dot.toNat with
        | none => rw [hg] at h; cases h
        | some t =>
          rw [hg] at h
          simp only [Option.some.injEq] at h
          exact ⟨rb, rfl, by omega, by omega, by rw [← h]; exact hg, by simp⟩

theorem getNextTerm_wild {st : TableState} {term : Term} (ha : st.isAny = true)
    (h : st.getNextTerm = some (some term)) :
    term = { Value := "", Type_ := .Any, Meta := st.meta } ∧ st.isCompleted = some false := by
  unfold TableState.getNextTerm at h
  cases hc : st.isCompleted with
  | none => simp [hc] at h
  | some b =>
    cases b with
    | true => simp [hc] at h
    | false =>
      simp only [hc, ha, if_true, Option.some.injEq] at h
      exact ⟨h.symm, rfl⟩

theorem getNextTerm_nil_iff {st : TableState} :
    st.getNextTerm = some none ↔ st.isCompleted = some true := by
  unfold TableState.getNextTerm
  cases hc : st.isCompleted with
  | none => simp
  | some b =>
    cases b with
    | true => simp
    | false =>
      simp only [Option.some.injEq, Bool.false_eq_true, iff_false]
      split
      · simp
      · split
        · simp
        · split
          · simp
          · split <;> simp

theorem GoodState.isCompleted_isSome {i : Nat} {st : TableState} (h : GoodState i st) :
    ∃ b, st.isCompleted = some b := by
  unfold TableState.isCompleted
  by_cases ha : st.isAny = true
  · simp only [ha, if_true]
    split <;> exact ⟨_, rfl⟩
  · simp only [ha, if_false]
    obtain ⟨rb, hrb, -⟩ := h.2.2.2.2 (by simpa using ha)
    rw [hrb]
    exact ⟨_, rfl⟩

theorem GoodState.getNextTerm_cases {i : Nat} {st : TableState} (h : GoodState i st) :
    (st.isCompleted = some true ∧ st.getNextTerm = some none) ∨
    (st.isCompleted = some false ∧ ∃ term, st.getNextTerm = some (some term)) := by
  obtain ⟨b, hb⟩ := h.isCompleted_isSome
  cases b with
  | true => exact Or.inl ⟨hb, getNextTerm_nil_iff.mpr hb⟩
  | false =>
    refine Or.inr ⟨hb, ?_⟩
    unfold TableState.getNextTerm
    simp only [hb]
    by_cases ha : st.isAny = true
    · simp [ha]
    · have ha : st.isAny = false := by simpa using ha
      simp only [ha, Bool.false_eq_true, if_false]
      obtain ⟨rb, hrb, hle⟩ := h.2.2.2.2 ha
      have hd := h.2.2.2.1
      unfold TableState.isCompleted at hb
      simp only [ha, Bool.false_eq_true, if_false, hrb, Option.some.injEq,
        decide_eq_false_iff_not] at hb
      simp only [hrb]
      have hneg : ¬ st.dot < 0 := by omega
      simp only [hneg, if_false]
      have hlt : st.dot.toNat < rb.Terms.length := by omega
      rw [List.get?_eq_get hlt]
      exact ⟨_, rfl⟩

theorem Parse.column_of_nat {p : Parse} {k : Int} {i : Nat} (hk : k = (i : Int)) :
    p.column k = p.columns.get? i := by
  unfold Parse.column
  subst hk
  simp

theorem Parse.column_some {p : Parse} {k : Int} {col : TableColumn} (h : p.column k = some col) :
    0 ≤ k ∧ p.columns.get? k.toNat = some col := by
  unfold Parse.column at h
  split at h
  · cases h
  · exact ⟨by omega, h⟩

theorem get?_lt {α : Type} {l : List α} {i : Nat} {a : α} (h : l.get? i = some a) :
    i < l.length := by
  by_contra hn
  rw [List.get?_eq_none.mpr (by omega)] at h
  cases h

theorem Gen.good {p : Parse} (hwf : p.WF) {i : Nat} {s : TableState} (hg : Gen p i s) :
    i < p.columns.length ∧ GoodState i (stamp i s) := by
  cases hg with
  | predictRule i col st term g r prod hc hm ht hty hg hr hp =>
    refine ⟨get?_lt hc, ?_⟩
    have hidx := hwf.1 i col hc
    refine ⟨rfl, ?_, ?_, ?_, ?_⟩ <;> simp [stamp, hidx]
  | predictAny i col st term hc hm ha ht hty =>
    refine ⟨get?_lt hc, ?_⟩
    have hidx := hwf.1 i col hc
    refine ⟨rfl, ?_, ?_, ?_, ?_⟩ <;> simp [stamp, hidx]
  | scanAny i col st hc hm ha hmeta hlen =>
    refine ⟨hlen, ?_⟩
    have hgood := hwf.2 i col hc st hm
    refine ⟨rfl, ?_, ?_, ?_, ?_⟩
    · exact hgood.2.1
    · have := hgood.2.2.1
      simp only [stamp]; push_cast; omega
    · have := hgood.2.2.2.1
      simp only [stamp]; omega
    · intro hna
      simp only [stamp] at hna
      rw [ha] at hna
      cases hna
  | scanTerminal i col col1 st term hc hm ha ht hty hc1 htok =>
    refine ⟨get?_lt hc1, ?_⟩
    have hgood := hwf.2 i col hc st hm
    obtain ⟨rb, hrb, h0, hlt, -, -⟩ := getNextTerm_nonwild ha ht
    refine ⟨rfl, ?_, ?_, ?_, ?_⟩
    · exact hgood.2.1
    · have := hgood.2.2.1
      simp only [stamp]; push_cast; omega
    · simp only [stamp]; omega
    · intro _
      exact ⟨rb, hrb, by simp only [stamp]; omega⟩
  | complete i col state colk st term hc hm hdone hk hmk ht hty =>
    refine ⟨get?_lt hc, ?_⟩
    have hgs := hwf.2 i col hc state hm
    obtain ⟨hk0, hck⟩ := Parse.column_some hk
    have hgood := hwf.2 _ colk hck st hmk
    have h1 := hgood.2.2.1
    have h2 := hgs.2.2.1
    have h3 := hgood.2.2.2.1
    refine ⟨rfl, ?_, ?_, ?_, ?_⟩
    · exact hgood.2.1
    · simp only [stamp]; omega
    · simp only [stamp]; omega
    · intro hna
      simp only [stamp] at hna
      obtain ⟨rb, hrb, h0, hlt, -, -⟩ := getNextTerm_nonwild hna ht
      exact ⟨rb, hrb, by simp only [stamp]; omega⟩

theorem allStates_insertAt {P : Nat → TableState → Prop} {p q : Parse} {i : Nat}
    {s : TableState} {b : Bool} (hi : p.Indexed) (hP : p.AllStates P) (hs : P i (stamp i s))
    (h : p.insertAt i s = some (q, b)) : q.AllStates P := by
  intro k c hc s1 hs1
  by_cases hki : k = i
  · subst hki
    obtain ⟨col, hcol, hq, -⟩ := insertAt_column h
    rw [hq] at hc
    cases hc
    have hidx := hi k col hcol
    rcases insert_states col s with ⟨h1, -, -⟩ | ⟨h1, -, -⟩
    · rw [h1] at hs1
      exact hP k col hcol s1 hs1
    · rw [h1] at hs1
      rcases List.mem_append.mp hs1 with hm | hm
      · exact hP k col hcol s1 hm
      · simp only [List.mem_singleton] at hm
        rw [hm, hidx]
        exact hs
  · rw [insertAt_other h hki] at hc
    exact hP k c hc s1 hs1

theorem Parse.WF.insertAt {p q : Parse} {i : Nat} {s : TableState} {b : Bool} (hwf : p.WF)
    (hg : Gen p i s) (h : p.insertAt i s = some (q, b)) : q.WF :=
  ⟨hwf.1.ofExt (insertAt_ext h), allStates_insertAt hwf.1 hwf.2 (hg.good hwf).2 h⟩

theorem Reach.wf {C : Nat → Prop} {p q : Parse} (h : Reach C p q) (hwf : p.WF) : q.WF := by
  induction h with
  | refl => exact hwf
  | step q r i s b _ _ hg hins ih => exact ih.insertAt hg hins

theorem Reach.allStates {C : Nat → Prop} {P : Nat → TableState → Prop} {p q : Parse}
    (h : Reach C p q) (hwf : p.WF) (hP : p.AllStates P)
    (hstep : ∀ q1, p.Ext q1 → q1.WF → q1.AllStates P → ∀ i s, Gen q1 i s → P i (stamp i s)) :
    q.AllStates P := by
  induction h with
  | refl => exact hP
  | step q r i s b hr _ hg hins ih =>
    exact allStates_insertAt (hr.wf hwf).1 ih (hstep q hr.toExt (hr.wf hwf) ih i s hg) hins

/-! ### `predict` and `complete` as runs of `insert` -/

theorem predictBodies_eq (name : String) (i : Nat) (bodies : List RuleBody) (p : Parse)
    (ch : Bool) (col : TableColumn) (hc : p.columns.get? i = some col) :
    predictBodies name i bodies p ch =
      insertAll i (bodies.map (predictedState name col.index)) p ch := by
  induction bodies generalizing p ch col with
  | nil => rfl
  | cons prod rest ih =>
    simp only [predictBodies, hc, List.map, insertAll]
    have hfold : ({ Name := name, Rb := some prod, Start := col.index, End := 0, dot := 0, isAny := false, meta := .nil } : TableState) = predictedState name col.index prod := rfl
    rw [hfold]
    cases hins : p.insertAt i (predictedState name col.index prod) with
    | none => rfl
    | some r =>
      obtain ⟨p1, fresh⟩ := r
      obtain ⟨col0, hc0, hq, -⟩ := insertAt_column hins
      rw [hc] at hc0
      cases hc0
      simp only
      rw [ih p1 (ch || fresh) _ hq, (insert_index col _).1]

theorem completeLoop_eq (i : Nat) (state : TableState) (snapshot : List TableState) (p : Parse)
    (ch : Bool) (hs : ∀ st ∈ snapshot, st.getNextTerm ≠ none) :
    completeLoop i state snapshot p ch = insertAll i (completions state snapshot) p ch := by
  induction snapshot generalizing p ch with
  | nil => rfl
  | cons st rest ih =>
    have ih1 := fun p ch => ih p ch (fun s hs1 => hs s (List.mem_cons_of_mem _ hs1))
    have hst := hs st (List.mem_cons_self _ _)
    unfold completeLoop
    cases hn : st.getNextTerm with
    | none => exact absurd hn hst
    | some o =>
      cases o with
      | none =>
        simp only
        have hw : waitsFor state st = false := by simp [waitsFor, hn]
        rw [ih1]
        simp [completions, List.filter_cons, hw]
      | some term =>
        simp only
        by_cases hcond : term.Type_ = .Any ∨ (term.Type_ = .Nonterminal ∧ term.Value = state.Name)
        · have hw : waitsFor state st = true := by simp [waitsFor, hn, hcond]
          simp only [hcond, if_true]
          have : completions state (st :: rest) = advanced st :: completions state rest := by
            simp [completions, List.filter_cons, hw]
          rw [this]
          simp only [insertAll]
          have hfold : ({ Name := st.Name, Rb := st.Rb, Start := st.Start, End := 0, dot := st.dot + 1, isAny := st.isAny, meta := .nil } : TableState) = advanced st := rfl
          rw [hfold]
          cases hins : p.insertAt i (advanced st) with
          | none => rfl
          | some r =>
            obtain ⟨p1, fresh⟩ := r
            simp only
            rw [ih1]
        · have hw : waitsFor state st = false := by simp [waitsFor, hn, hcond]
          simp only [hcond, if_false]
          rw [ih1]
          simp [completions, List.filter_cons, hw]

theorem mem_completions {state s : TableState} {snapshot : List TableState}
    (h : s ∈ completions state snapshot) :
    ∃ st term, st ∈ snapshot ∧ s = advanced st ∧ st.getNextTerm = some (some term) ∧
      (term.Type_ = .Any ∨ (term.Type_ = .Nonterminal ∧ term.Value = state.Name)) := by
  simp only [completions, List.mem_map, List.mem_filter] at h
  obtain ⟨st, ⟨hm, hw⟩, rfl⟩ := h
  unfold waitsFor at hw
  split at hw
  · rename_i term ht
    exact ⟨st, term, hm, rfl, ht, by simpa using hw⟩
  · cases hw

theorem completions_mem {state st : TableState} {term : Term} {snapshot : List TableState}
    (hm : st ∈ snapshot) (ht : st.getNextTerm = some (some term))
    (hty : term.Type_ = .Any ∨ (term.Type_ = .Nonterminal ∧ term.Value = state.Name)) :
    advanced st ∈ completions state snapshot := by
  simp only [completions, List.mem_map, List.mem_filter]
  exact ⟨st, ⟨hm, by simp [waitsFor, ht, hty]⟩, rfl⟩

theorem gen_completions {p : Parse} {i : Nat} {col colk : TableColumn} {state : TableState}
    (hc : p.columns.get? i = some col) (hm : state ∈ col.states)
    (hdone : state.isCompleted = some true) (hk : p.column state.Start = some colk) :
    ∀ s ∈ completions state colk.states, Gen p i s := by
  intro s hs
  obtain ⟨st, term, hst, rfl, ht, hty⟩ := mem_completions hs
  exact Gen.complete i col state colk st term hc hm hdone hk hst ht hty

theorem gen_predictions {p : Parse} {i : Nat} {col : TableColumn} {st : TableState}
    {term : Term} {g : Grammar} {r : Rule} (hc : p.columns.get? i = some col)
    (hm : st ∈ col.states) (ht : st.getNextTerm = some (some term))
    (hty : term.Type_ = .Nonterminal) (hg : g ∈ p.grammars) (hr : g.rule term.Value = some r) :
    ∀ s ∈ r.Body.map (predictedState r.Name col.index), Gen p i s := by
  intro s hs
  simp only [List.mem_map] at hs
  obtain ⟨prod, hp, rfl⟩ := hs
  exact Gen.predictRule i col st term g r prod hc hm ht hty hg hr hp

/-- What a call of `complete` or `predict` on column `i` guarantees: the chart
`q` afterwards is reached by allowed inserts on column `i`, every state of
`targets` is then present; the result `c` is false exactly when nothing was
appended, which is the case exactly when every target was present before. -/
theorem insertAll_call {i : Nat} {targets : List TableState} {p q : Parse} {c : Bool}
    (hi : p.Indexed) (hgen : ∀ s ∈ targets, Gen p i s)
    (h : insertAll i targets p false = some (q, c)) :
    Reach (fun k => k = i) p q ∧ (∀ s ∈ targets, q.Present i s) ∧
      (c = false → q = p) ∧ (c = true → p.colLength i < q.colLength i) ∧
      ((∀ s ∈ targets, p.Present i s) → q = p ∧ c = false) := by
  obtain ⟨-, hpres, hfalse, -, hgrow, -, hsame⟩ := insertAll_post i targets p q false c hi h
  have hr : Reach (fun k => k = i) p q :=
    @insertAll_reach (fun k => k = i) i rfl targets p q false c hgen h
  exact ⟨hr, hpres, fun hc => (hfalse hc).1, fun hc => hgrow hc rfl, hsame⟩

theorem complete_eq {p : Parse} (hwf : p.WF) {i : Nat} {state : TableState}
    (hs : p.InCol i state) :
    ∃ colk, p.column state.Start = some colk ∧
      p.complete i state = insertAll i (completions state colk.states) p false := by
  obtain ⟨col, hc, hm⟩ := hs
  have hg := hwf.2 i col hc state hm
  have hlt := get?_lt hc
  have h0 := hg.2.1
  have h1 := hg.2.2.1
  have hklt : state.Start.toNat < p.columns.length := by omega
  have hk : p.column state.Start = some (p.columns.get ⟨_, hklt⟩) := by
    unfold Parse.column
    simp only [show ¬ state.Start < 0 by omega, if_false]
    exact List.get?_eq_get hklt
  refine ⟨_, hk, ?_⟩
  unfold Parse.complete
  rw [hk]
  simp only
  apply completeLoop_eq
  intro st hst
  have hgst := hwf.2 _ _ (Parse.column_some hk).2 st hst
  rcases hgst.getNextTerm_cases with ⟨-, h⟩ | ⟨-, t, h⟩ <;> simp [h]

theorem complete_post {p q : Parse} (hwf : p.WF) {i : Nat} {state : TableState} {c : Bool}
    (hs : p.InCol i state) (hdone : state.isCompleted = some true)
    (h : p.complete i state = some (q, c)) :
    ∃ colk, p.column state.Start = some colk ∧
      Reach (fun k => k = i) p q ∧ (∀ s ∈ completions state colk.states, q.Present i s) ∧
      (c = false → q = p) ∧ (c = true → p.colLength i < q.colLength i) ∧
      ((∀ s ∈ completions state colk.states, p.Present i s) → q = p ∧ c = false) := by
  obtain ⟨colk, hk, heq⟩ := complete_eq hwf hs
  obtain ⟨col, hc, hm⟩ := hs
  rw [heq] at h
  exact ⟨colk, hk, insertAll_call hwf.1 (gen_completions hc hm hdone hk) h⟩

theorem complete_total {p : Parse} (hwf : p.WF) {i : Nat} {state : TableState}
    (hs : p.InCol i state) : ∃ q c, p.complete i state = some (q, c) := by
  obtain ⟨colk, hk, heq⟩ := complete_eq hwf hs
  obtain ⟨col, hc, hm⟩ := hs
  rw [heq]
  exact insertAll_total _ _ _ _ (get?_lt hc)

theorem insertAll_ext {i : Nat} {l : List TableState} {p q : Parse} {ch c : Bool}
    (h : insertAll i l p ch = some (q, c)) : p.Ext q := by
  induction l generalizing p ch with
  | nil =>
    simp only [insertAll, Option.some.injEq, Prod.mk.injEq] at h
    rw [← h.1]
    exact Parse.Ext.refl _
  | cons s rest ih =>
    simp only [insertAll] at h
    split at h
    · cases h
    · rename_i p1 b h1
      exact (insertAt_ext h1).etrans (ih h)

theorem predictTargets_cons (g : Grammar) (gs : List Grammar) (key : String) (idx : Int) :
    predictTargets (g :: gs) key idx = predictTargets [g] key idx ++ predictTargets gs key idx := by
  simp [predictTargets]

theorem mem_predictTargets {gs : List Grammar} {key : String} {idx : Int} {s : TableState} :
    s ∈ predictTargets gs key idx ↔
      ∃ g ∈ gs, ∃ r, g.rule key = some r ∧ ∃ prod ∈ r.Body, s = predictedState r.Name idx prod := by
  simp only [predictTargets, List.mem_flatMap]
  constructor
  · rintro ⟨g, hg, hs⟩
    cases hr : g.rule key with
    | none => simp [hr] at hs
    | some r =>
      simp only [hr, List.mem_map] at hs
      obtain ⟨prod, hp, rfl⟩ := hs
      exact ⟨g, hg, r, hr, prod, hp, rfl⟩
  · rintro ⟨g, hg, r, hr, prod, hp, rfl⟩
    exact ⟨g, hg, by simp only [hr, List.mem_map]; exact ⟨prod, hp, rfl⟩⟩

theorem predictGrammar_eq (g : Grammar) (p : Parse) (i : Nat) (term : Term) (col : TableColumn)
    (hc : p.columns.get? i = some col) :
    predictGrammar g p i term = insertAll i (predictTargets [g] term.Value col.index) p false := by
  unfold predictGrammar
  cases hr : g.rule term.Value with
  | none => simp [predictTargets, hr, insertAll]
  | some r =>
    simp only
    rw [predictBodies_eq _ _ _ _ _ col hc]
    simp [predictTargets, hr]

theorem predictGrammars_true (i : Nat) (term : Term) (gs : List Grammar) (p : Parse) :
    predictGrammars i term gs p true = some (p, true) := by
  induction gs with
  | nil => rfl
  | cons g gs ih => simp [predictGrammars, ih]

theorem gen_predictTargets {p : Parse} {i : Nat} {col : TableColumn} {st : TableState}
    {term : Term} {gs : List Grammar} (hc : p.columns.get? i = some col)
    (hm : st ∈ col.states) (ht : st.getNextTerm = some (some term))
    (hty : term.Type_ = .Nonterminal) (hgs : ∀ g ∈ gs, g ∈ p.grammars) :
    ∀ s ∈ predictTargets gs term.Value col.index, Gen p i s := by
  intro s hs
  obtain ⟨g, hg, r, hr, prod, hp, rfl⟩ := mem_predictTargets.mp hs
  exact Gen.predictRule i col st term g r prod hc hm ht hty (hgs g hg) hr hp

theorem predictGrammars_total (i : Nat) (term : Term) (gs : List Grammar) (p : Parse) (ch : Bool)
    (hlt : i < p.columns.length) : ∃ q c, predictGrammars i term gs p ch = some (q, c) := by
  induction gs generalizing p ch with
  | nil => exact ⟨p, ch, rfl⟩
  | cons g gs ih =>
    cases ch with
    | true => exact ⟨p, true, predictGrammars_true _ _ _ _⟩
    | false =>
      simp only [predictGrammars, Bool.false_eq_true, if_false]
      rw [predictGrammar_eq g p i term _ (List.get?_eq_get hlt)]
      obtain ⟨p1, c1, h1⟩ := insertAll_total i (predictTargets [g] term.Value
        (p.columns.get ⟨i, hlt⟩).index) p false hlt
      rw [h1]
      simp only
      exact ih p1 c1 (by
        have := (insertAll_ext h1).length
        omega)


theorem predictGrammars_post {i : Nat} {st : TableState} {term : Term} {gs : List Grammar}
    {p q : Parse} {col : TableColumn} {c : Bool}
    (hi : p.Indexed) (hc : p.columns.get? i = some col) (hm : st ∈ col.states)
    (ht : st.getNextTerm = some (some term)) (hty : term.Type_ = .Nonterminal)
    (hgs : ∀ g ∈ gs, g ∈ p.grammars)
    (h : predictGrammars i term gs p false = some (q, c)) :
    Reach (fun k => k = i) p q ∧
    (c = false → q = p ∧ ∀ s ∈ predictTargets gs term.Value col.index, p.Present i s) ∧
    (c = true → p.colLength i < q.colLength i) ∧
    ((∀ s ∈ predictTargets gs term.Value col.index, p.Present i s) → q = p ∧ c = false) ∧
    (UniqueDef gs term.Value →
      ∀ s ∈ predictTargets gs term.Value col.index, q.Present i s) := by
  induction gs with
  | nil =>
    simp only [predictGrammars, Option.some.injEq, Prod.mk.injEq] at h
    obtain ⟨rfl, rfl⟩ := h
    refine ⟨Reach.refl _, fun _ => ⟨rfl, by simp [predictTargets]⟩, by simp,
      fun _ => ⟨rfl, rfl⟩, fun _ => by simp [predictTargets]⟩
  | cons g gs ih =>
    simp only [predictGrammars, Bool.false_eq_true, if_false] at h
    rw [predictGrammar_eq g p i term col hc] at h
    cases h1 : insertAll i (predictTargets [g] term.Value col.index) p false with
    | none => rw [h1] at h; cases h
    | some r1 =>
      obtain ⟨p1, c1⟩ := r1
      rw [h1] at h
      simp only at h
      have hgen1 : ∀ s ∈ predictTargets [g] term.Value col.index, Gen p i s :=
        gen_predictTargets hc hm ht hty (by
          intro g1 hg1
          simp only [List.mem_singleton] at hg1
          rw [hg1]
          exact hgs g (List.mem_cons_self _ _))
      obtain ⟨hr1, hpres1, hfalse1, hgrow1, hsame1⟩ := insertAll_call hi hgen1 h1
      cases c1 with
      | true =>
        rw [predictGrammars_true] at h
        simp only [Option.some.injEq, Prod.mk.injEq] at h
        obtain ⟨rfl, rfl⟩ := h
        refine ⟨hr1, by simp, fun _ => hgrow1 rfl, ?_, ?_⟩
        · intro hall
          have := hsame1 (fun s hs => hall s (by
            rw [predictTargets_cons]; exact List.mem_append_left _ hs))
          exact absurd this.2 (by simp)
        · intro huniq s hs
          rw [predictTargets_cons] at hs
          rcases List.mem_append.mp hs with hs | hs
          · exact hpres1 s hs
          · obtain ⟨g1, hg1, r, hr, prod, hp, rfl⟩ := mem_predictTargets.mp hs
            have hgdef : g.rule term.Value ≠ none := by
              intro hnone
              have : predictTargets [g] term.Value col.index = [] := by
                simp [predictTargets, hnone]
              rw [this] at h1
              simp [insertAll] at h1
            have hgg : g1 = g := huniq g1 (List.mem_cons_of_mem _ hg1) g
              (List.mem_cons_self _ _) (by rw [hr]; simp) hgdef
            subst hgg
            exact hpres1 _ (mem_predictTargets.mpr
              ⟨g1, List.mem_singleton_self _, r, hr, prod, hp, rfl⟩)
      | false =>
        have hp1 : p1 = p := hfalse1 rfl
        subst hp1
        obtain ⟨hr, hf, hgrow, hsame, hu⟩ := ih (fun g1 hg1 => hgs g1 (List.mem_cons_of_mem _ hg1)) h
        refine ⟨hr, ?_, hgrow, ?_, ?_⟩
        · intro hcf
          obtain ⟨hq, hall⟩ := hf hcf
          refine ⟨hq, ?_⟩
          intro s hs
          rw [predictTargets_cons] at hs
          rcases List.mem_append.mp hs with hs | hs
          · exact hpres1 s hs
          · exact hall s hs
        · intro hall
          exact hsame (fun s hs => hall s (by
            rw [predictTargets_cons]; exact List.mem_append_right _ hs))
        · intro huniq s hs
          rw [predictTargets_cons] at hs
          rcases List.mem_append.mp hs with hs | hs
          · exact (hpres1 s hs).extend hr.toExt
          · exact hu (fun g1 hg1 g2 hg2 => huniq g1 (List.mem_cons_of_mem _ hg1) g2
              (List.mem_cons_of_mem _ hg2)) s hs

theorem predict_nonterminal_post {i : Nat} {st : TableState} {term : Term}
    {p q : Parse} {col : TableColumn} {c : Bool}
    (hi : p.Indexed) (hc : p.columns.get? i = some col) (hm : st ∈ col.states)
    (ht : st.getNextTerm = some (some term)) (hty : term.Type_ = .Nonterminal)
    (h : p.predict i term = some (q, c)) :
    Reach (fun k => k = i) p q ∧
    (c = false → q = p ∧ ∀ s ∈ predictTargets p.grammars term.Value col.index, p.Present i s) ∧
    (c = true → p.colLength i < q.colLength i) ∧
    ((∀ s ∈ predictTargets p.grammars term.Value col.index, p.Present i s) →
      q = p ∧ c = false) ∧
    (UniqueDef p.grammars term.Value →
      ∀ s ∈ predictTargets p.grammars term.Value col.index, q.Present i s) := by
  unfold Parse.predict at h
  simp only [hty] at h
  exact predictGrammars_post hi hc hm ht hty (fun _ hg => hg) h

theorem predict_nonterminal_total {i : Nat} {term : Term} {p : Parse}
    (hlt : i < p.columns.length) (hty : term.Type_ = .Nonterminal) :
    ∃ q c, p.predict i term = some (q, c) := by
  unfold Parse.predict
  simp only [hty]
  exact predictGrammars_total i term p.grammars p false hlt

theorem predict_any_post {i : Nat} {st : TableState} {term : Term}
    {p : Parse} {col : TableColumn}
    (hc : p.columns.get? i = some col) (hm : st ∈ col.states) (ha : st.isAny = false)
    (ht : st.getNextTerm = some (some term)) (hty : term.Type_ = .Any) :
    ∃ q c, p.predict i term = some (q, c) ∧ Reach (fun k => k = i) p q := by
  unfold Parse.predict
  simp only [hty, hc]
  obtain ⟨q, c, h⟩ := insertAt_isSome (p := p) { Name := "any", Rb := none, Start := col.index, End := 0, dot := 0, isAny := true, meta := term.Meta } (get?_lt hc)
  exact ⟨q, c, h, @Reach.single (fun k => k = i) p q i _ c rfl
    (Gen.predictAny i col st term hc hm ha ht hty) h⟩

/-! ### The body of the work-list loop -/

theorem scan_any_post {p : Parse} {i : Nat} {col : TableColumn} {st : TableState}
    (hc : p.columns.get? i = some col) (hm : st ∈ col.states) (ha : st.isAny = true)
    (hmeta : st.meta = .nil ∨ ∃ m, st.meta = .intMap m ∧ st.dot + 1 ≤ lookupInt m "max")
    (hlen : i + 1 < p.columns.length) :
    ∃ q, p.scan (i + 1) st { Value := "", Type_ := .Any, Meta := st.meta } = some q ∧
      Reach (fun k => k = i + 1) p q := by
  unfold Parse.scan
  simp only [if_true]
  obtain ⟨q, c, h⟩ := insertAt_isSome (p := p) { Name := "any", Rb := st.Rb, Start := st.Start, End := 0, dot := st.dot + 1, isAny := st.isAny, meta := st.meta } hlen
  refine ⟨q, by rw [h]; rfl, ?_⟩
  exact @Reach.single (fun k => k = i + 1) p q (i + 1) _ c rfl
    (Gen.scanAny i col st hc hm ha hmeta hlen) h

theorem scan_terminal_post {p : Parse} {i : Nat} {col : TableColumn} {st : TableState}
    {term : Term} (hi : p.Indexed)
    (hc : p.columns.get? i = some col) (hm : st ∈ col.states) (ha : st.isAny = false)
    (ht : st.getNextTerm = some (some term)) (hty : term.Type_ = .Terminal)
    (hlen : i + 1 < p.columns.length) :
    ∃ q, p.scan (i + 1) st term = some q ∧ Reach (fun k => k = i + 1) p q ∧
      (∀ col1, p.columns.get? (i + 1) = some col1 → term.Value = col1.token →
        q.Present (i + 1) (advanced st)) := by
  unfold Parse.scan
  simp only [hty, if_false]
  have hc1 := List.get?_eq_get hlen
  rw [hc1]
  simp only [reduceCtorEq, if_false]
  by_cases htok : term.Value = (p.columns.get ⟨i + 1, hlen⟩).token
  · simp only [htok, if_true]
    have hadv : ({ Name := st.Name, Rb := st.Rb, Start := st.Start, End := 0, dot := st.dot + 1, isAny := false, meta := .nil } : TableState) = advanced st := by
      simp [advanced, ha]
    rw [hadv]
    obtain ⟨q, c, h⟩ := insertAt_isSome (p := p) (advanced st) hlen
    refine ⟨q, by rw [h]; rfl, ?_, ?_⟩
    · refine @Reach.single (fun k => k = i + 1) p q (i + 1) _ c rfl ?_ h
      rw [← hadv]
      exact Gen.scanTerminal i col _ st term hc hm ha ht hty hc1 htok
    · intro _ _ _
      exact insertAt_present hi h
  · simp only [htok, if_false]
    refine ⟨p, rfl, Reach.refl _, ?_⟩
    intro col1 hcol1 htk
    cases hcol1
    exact absurd htk htok

theorem processState_post {p : Parse} (hwf : p.WF) {i : Nat} {st : TableState}
    (hs : p.InCol i st) :
    ∃ q, p.processState i st = some q ∧ Reach (fun k => k = i ∨ k = i + 1) p q ∧
      ∀ colk, p.column st.Start = some colk → q.Processed i colk.states st := by
  obtain ⟨col, hc, hm⟩ := hs
  have hgood := hwf.2 i col hc st hm
  have hlt := get?_lt hc
  have hCi : ∀ k, k = i → (k = i ∨ k = i + 1) := fun k h => Or.inl h
  have hCi1 : ∀ k, k = i + 1 → (k = i ∨ k = i + 1) := fun k h => Or.inr h
  unfold Parse.processState
  by_cases ha : st.isAny = true
  · -- wildcard state
    simp only [ha, if_true]
    have hproc : ∀ q : Parse, ∀ colk : TableColumn, q.Processed i colk.states st := by
      intro q colk hna
      rw [ha] at hna
      cases hna
    -- the optional call of complete
    have hcompl : ∀ (b : Prop) [Decidable b], (b → st.isCompleted = some true) →
        ∃ p1, (if b then (p.complete i st).map Prod.fst else some p) = some p1 ∧
          Reach (fun k => k = i) p p1 := by
      intro b _ hb
      by_cases hbb : b
      · simp only [hbb, if_true]
        obtain ⟨q, c, hq⟩ := complete_total hwf ⟨col, hc, hm⟩
        obtain ⟨_, _, hr, -⟩ := complete_post hwf ⟨col, hc, hm⟩ (hb hbb) hq
        exact ⟨q, by rw [hq]; rfl, hr⟩
      · simp only [hbb, if_false]
        exact ⟨p, rfl, Reach.refl _⟩
    cases hmeta : st.meta with
    | nil =>
      simp only
      obtain ⟨p1, hp1, hr1⟩ := hcompl (st.dot > 0) (by
        intro hd
        simp [TableState.isCompleted, ha, hmeta, hd])
      rw [hp1]
      simp only
      by_cases hlen : i + 1 < p1.columns.length
      · simp only [hlen, if_true]
        obtain ⟨c1, hc1, -, -, t, hst⟩ := hr1.toExt.column i col hc
        obtain ⟨q, hq, hr2⟩ := scan_any_post hc1 (by rw [hst]; exact List.mem_append_left _ hm)
          ha (Or.inl hmeta) hlen
        rw [hmeta] at hq
        exact ⟨q, hq, (hr1.weaken hCi).rtrans (hr2.weaken hCi1), fun colk _ => hproc q colk⟩
      · simp only [hlen, if_false]
        exact ⟨p1, rfl, hr1.weaken hCi, fun colk _ => hproc p1 colk⟩
    | intMap m =>
      simp only
      obtain ⟨p1, hp1, hr1⟩ := hcompl
        (st.dot ≥ lookupInt m "min" ∧ st.dot ≤ lookupInt m "max") (by
        intro hd
        simp [TableState.isCompleted, ha, hmeta, hd])
      rw [hp1]
      simp only
      by_cases hlen : i + 1 < p1.columns.length ∧ st.dot + 1 ≤ lookupInt m "max"
      · simp only [hlen, and_self, if_true]
        obtain ⟨c1, hc1, -, -, t, hst⟩ := hr1.toExt.column i col hc
        obtain ⟨q, hq, hr2⟩ := scan_any_post hc1 (by rw [hst]; exact List.mem_append_left _ hm)
          ha (Or.inr ⟨m, hmeta, hlen.2⟩) hlen.1
        rw [hmeta] at hq
        exact ⟨q, hq, (hr1.weaken hCi).rtrans (hr2.weaken hCi1), fun colk _ => hproc q colk⟩
      · simp only [hlen, if_false]
        exact ⟨p1, rfl, hr1.weaken hCi, fun colk _ => hproc p1 colk⟩
    | other tag =>
      simp only
      exact ⟨p, rfl, Reach.refl _, fun colk _ => hproc p colk⟩
  · -- rule state
    have ha : st.isAny = false := by simpa using ha
    simp only [ha, Bool.false_eq_true, if_false]
    rcases hgood.getNextTerm_cases with ⟨hdone, hnext⟩ | ⟨hdone, term, hnext⟩
    · simp only [hdone]
      obtain ⟨q, c, hq⟩ := complete_total hwf ⟨col, hc, hm⟩
      obtain ⟨colk, hk, hr, hpres, -⟩ := complete_post hwf ⟨col, hc, hm⟩ hdone hq
      refine ⟨q, by rw [hq]; rfl, hr.weaken hCi, ?_⟩
      intro colk1 hk1 _
      rw [hk] at hk1
      cases hk1
      refine ⟨fun _ => hpres, ?_, ?_⟩
      · intro term ht
        rw [hnext] at ht
        cases ht
      · intro term ht
        rw [hnext] at ht
        cases ht
    · simp only [hdone, hnext]
      cases hty : term.Type_ with
      | Nonterminal =>
        simp only
        obtain ⟨q, c, hq⟩ := predict_nonterminal_total (p := p) hlt hty
        obtain ⟨hr, -, -, -, hu⟩ := predict_nonterminal_post hwf.1 hc hm hnext hty hq
        refine ⟨q, by rw [hq]; rfl, hr.weaken hCi, ?_⟩
        intro colk _ _
        refine ⟨?_, ?_, ?_⟩
        · intro hd
          rw [hd] at hdone
          cases hdone
        · intro term1 ht1 _ huniq col1 hcol1 s hs
          rw [hnext] at ht1
          cases ht1
          obtain ⟨c2, hc2, -, hidx, -⟩ := hr.toExt.column i col hc
          rw [hcol1] at hc2
          cases hc2
          rw [hr.toExt.grammars] at huniq hs
          rw [hidx] at hs
          exact hu huniq s hs
        · intro term1 ht1 hty1
          rw [hnext] at ht1
          cases ht1
          rw [hty] at hty1
          cases hty1
      | Any =>
        simp only
        obtain ⟨q, c, hq, hr⟩ := predict_any_post hc hm ha hnext hty
        refine ⟨q, by rw [hq]; rfl, hr.weaken hCi, ?_⟩
        intro colk _ _
        refine ⟨?_, ?_, ?_⟩
        · intro hd
          rw [hd] at hdone
          cases hdone
        · intro term1 ht1 hty1
          rw [hnext] at ht1
          cases ht1
          rw [hty] at hty1
          cases hty1
        · intro term1 ht1 hty1
          rw [hnext] at ht1
          cases ht1
          rw [hty] at hty1
          cases hty1
      | Terminal =>
        simp only
        by_cases hlen : i + 1 < p.columns.length
        · simp only [hlen, if_true]
          obtain ⟨q, hq, hr, hpres⟩ := scan_terminal_post hwf.1 hc hm ha hnext hty hlen
          refine ⟨q, hq, hr.weaken hCi1, ?_⟩
          intro colk _ _
          refine ⟨?_, ?_, ?_⟩
          · intro hd
            rw [hd] at hdone
            cases hdone
          · intro term1 ht1 hty1
            rw [hnext] at ht1
            cases ht1
            rw [hty] at hty1
            cases hty1
          · intro term1 ht1 _ col1 hcol1 htok
            rw [hnext] at ht1
            cases ht1
            obtain ⟨c0, hc0⟩ : ∃ c0, p.columns.get? (i + 1) = some c0 :=
              ⟨_, List.get?_eq_get hlen⟩
            obtain ⟨c2, hc2, htk, -, -⟩ := hr.toExt.column (i + 1) c0 hc0
            rw [hcol1] at hc2
            cases hc2
            exact hpres c0 hc0 (by rw [← htk]; exact htok)
        · simp only [hlen, if_false]
          refine ⟨p, rfl, Reach.refl _, ?_⟩
          intro colk _ _
          refine ⟨?_, ?_, ?_⟩
          · intro hd
            rw [hd] at hdone
            cases hdone
          · intro term1 ht1 hty1
            rw [hnext] at ht1
            cases ht1
            rw [hty] at hty1
            cases hty1
          · intro term1 ht1 _ col1 hcol1 _
            exact absurd (get?_lt hcol1) hlen

/-! ### The loops -/

theorem colLength_eq {p : Parse} {i : Nat} {col : TableColumn} (hc : p.columns.get? i = some col) :
    p.colLength i = col.states.length := by
  unfold Parse.colLength
  rw [hc]

theorem Parse.Ext.colLength_le {p q : Parse} (h : p.Ext q) (i : Nat) :
    p.colLength i ≤ q.colLength i := by
  cases hc : p.columns.get? i with
  | none =>
    unfold Parse.colLength
    rw [hc]
    exact Nat.zero_le _
  | some col =>
    obtain ⟨c1, hc1, -, -, t, hst⟩ := h.column i col hc
    rw [colLength_eq hc, colLength_eq hc1, hst]
    simp

theorem columnLoop_post {J : Parse → Nat → Prop} {i : Nat}
    (hJ : ∀ p j col st q, p.WF → J p j → p.columns.get? i = some col →
      col.states.get? j = some st → p.processState i st = some q →
      Reach (fun k => k = i ∨ k = i + 1) p q → J q (j + 1)) :
    ∀ fuel p j q, p.WF → J p j → Parse.columnLoop fuel p i j = .ok q →
      Reach (fun k => k = i ∨ k = i + 1) p q ∧ ∃ j1, q.colLength i ≤ j1 ∧ J q j1 := by
  intro fuel
  induction fuel with
  | zero => intro p j q _ _ h; simp [Parse.columnLoop] at h
  | succ fuel ih =>
    intro p j q hwf hj h
    unfold Parse.columnLoop at h
    cases hc : p.columns.get? i with
    | none => rw [hc] at h; cases h
    | some col =>
      simp only [hc] at h
      cases hst : col.states.get? j with
      | none =>
        simp only [hst, Outcome.ok.injEq] at h
        subst h
        refine ⟨Reach.refl _, j, ?_, hj⟩
        rw [colLength_eq hc]
        exact List.get?_eq_none.mp hst
      | some st =>
        simp only [hst] at h
        cases hps : p.processState i st with
        | none => simp [hps] at h
        | some p1 =>
          simp only [hps] at h
          obtain ⟨q1, hq1, hr1, -⟩ := processState_post hwf ⟨col, hc, List.get?_mem hst⟩
          rw [hps] at hq1
          cases hq1
          obtain ⟨hr2, hpost⟩ := ih p1 (j + 1) q (hr1.wf hwf) (hJ p j col st p1 hwf hj hc hst hps hr1) h
          exact ⟨hr1.rtrans hr2, hpost⟩

theorem columnLoop_total {i B : Nat} :
    ∀ fuel p j, p.WF → i < p.columns.length →
      (∀ q, Reach (fun k => k = i ∨ k = i + 1) p q → q.colLength i ≤ B) →
      j ≤ p.colLength i → B < fuel + j → ∃ q, Parse.columnLoop fuel p i j = .ok q := by
  intro fuel
  induction fuel with
  | zero =>
    intro p j _ _ hB hj hf
    have := hB p (Reach.refl _)
    omega
  | succ fuel ih =>
    intro p j hwf hlt hB hj hf
    unfold Parse.columnLoop
    have hc := List.get?_eq_get hlt
    rw [hc]
    simp only
    cases hst : (p.columns.get ⟨i, hlt⟩).states.get? j with
    | none => exact ⟨p, rfl⟩
    | some st =>
      simp only
      obtain ⟨p1, hp1, hr1, -⟩ := processState_post hwf ⟨_, hc, List.get?_mem hst⟩
      rw [hp1]
      simp only
      have hjlt : j < p.colLength i := by
        rw [colLength_eq hc]
        exact get?_lt hst
      have hle := hr1.toExt.colLength_le i
      exact ih p1 (j + 1) (hr1.wf hwf) (by rw [hr1.toExt.length]; exact hlt)
        (fun q hq => hB q (hr1.rtrans hq)) (by omega) (by omega)

theorem epsilonPass_post {i : Nat} :
    ∀ (snapshot : List TableState) (p : Parse) (ch : Bool), p.WF →
      (∀ st ∈ snapshot, p.InCol i st) →
      ∃ q c, epsilonPass i snapshot p ch = some (q, c) ∧ Reach (fun k => k = i) p q ∧
        (ch = true → c = true) ∧
        (c = false → q = p ∧ ∀ st ∈ snapshot, p.ClosedAt i st) ∧
        (c = true → ch = false → p.colLength i < q.colLength i) ∧
        ((∀ st ∈ snapshot, p.ClosedAt i st) → ch = false → q = p ∧ c = false) := by
  intro snapshot
  induction snapshot with
  | nil =>
    intro p ch _ _
    refine ⟨p, ch, rfl, Reach.refl _, fun h => h, fun _ => ⟨rfl, by simp⟩, ?_, fun _ h => ⟨rfl, h⟩⟩
    intro h1 h2
    rw [h1] at h2
    cases h2
  | cons state rest ih =>
    intro p ch hwf hin
    have hs := hin state (List.mem_cons_self _ _)
    obtain ⟨col, hc, hm⟩ := hs
    have hgood := hwf.2 i col hc state hm
    have hlt := get?_lt hc
    -- first stage: the call of complete
    have stage1 : ∃ p1 ch1 done, state.isCompleted = some done ∧
        (if done && !ch then p.complete i state else some (p, ch)) = some (p1, ch1) ∧
        Reach (fun k => k = i) p p1 ∧ (ch = true → ch1 = true) ∧
        (ch1 = false → p1 = p ∧ (state.isCompleted = some true → ∀ colk,
          p.column state.Start = some colk → ∀ s ∈ completions state colk.states,
          p.Present i s)) ∧
        (ch1 = true → ch = false → p.colLength i < p1.colLength i) ∧
        ((state.isCompleted = some true → ∀ colk, p.column state.Start = some colk →
          ∀ s ∈ completions state colk.states, p.Present i s) → ch = false →
          p1 = p ∧ ch1 = false) := by
      obtain ⟨done, hdone⟩ := hgood.isCompleted_isSome
      by_cases hcall : (done && !ch) = true
      · simp only [Bool.and_eq_true, Bool.not_eq_true'] at hcall
        obtain ⟨hd, hch⟩ := hcall
        subst hd
        subst hch
        obtain ⟨p1, c1, hq⟩ := complete_total hwf ⟨col, hc, hm⟩
        obtain ⟨colk, hk, hr, hpres, hfalse, hgrow, hsame⟩ :=
          complete_post hwf ⟨col, hc, hm⟩ hdone hq
        refine ⟨p1, c1, true, hdone, by simpa using hq, hr, by simp, ?_, fun h _ => hgrow h, ?_⟩
        · intro hc1
          have hp := hfalse hc1
          refine ⟨hp, ?_⟩
          intro _ colk1 hk1
          rw [hk] at hk1
          cases hk1
          rw [← hp]
          exact hpres
        · intro hall _
          exact hsame (hall hdone colk hk)
      · have hcall : (done && !ch) = false := by simpa using hcall
        refine ⟨p, ch, done, hdone, by simp [hcall], Reach.refl _, fun h => h, ?_, ?_, ?_⟩
        · intro hch
          refine ⟨rfl, ?_⟩
          intro hd
          rw [hdone] at hd
          cases hd
          rw [hch] at hcall
          simp at hcall
        · intro h1 h2
          rw [h1] at h2
          cases h2
        · intro _ h
          exact ⟨rfl, h⟩
    obtain ⟨p1, ch1, done, hdone, hcall, hr1, ht1, hf1, hg1, hs1⟩ := stage1
    have hwf1 := hr1.wf hwf
    obtain ⟨col1, hcol1, -, hidx1, t1, hst1⟩ := hr1.toExt.column i col hc
    have hm1 : state ∈ col1.states := by rw [hst1]; exact List.mem_append_left _ hm
    -- second stage: the call of predict
    have stage2 : ∃ p2 ch2,
        (match state.getNextTerm with
          | none => none
          | some none => epsilonPass i rest p1 ch1
          | some (some term) =>
            if term.Type_ = .Nonterminal ∧ ch1 = false then
              match p1.predict i term with
              | none => none
              | some (p2, changed2) => epsilonPass i rest p2 changed2
            else epsilonPass i rest p1 ch1) = epsilonPass i rest p2 ch2 ∧
        Reach (fun k => k = i) p1 p2 ∧ (ch1 = true → ch2 = true) ∧
        (ch2 = false → p2 = p1 ∧ (∀ term, state.getNextTerm = some (some term) →
          term.Type_ = .Nonterminal → ∀ col, p1.columns.get? i = some col →
          ∀ s ∈ predictTargets p1.grammars term.Value col.index, p1.Present i s)) ∧
        (ch2 = true → ch1 = false → p1.colLength i < p2.colLength i) ∧
        ((∀ term, state.getNextTerm = some (some term) →
          term.Type_ = .Nonterminal → ∀ col, p1.columns.get? i = some col →
          ∀ s ∈ predictTargets p1.grammars term.Value col.index, p1.Present i s) →
          ch1 = false → p2 = p1 ∧ ch2 = false) := by
      have hskip : ∀ (hno : ∀ term, state.getNextTerm = some (some term) →
          term.Type_ = .Nonterminal → ch1 = true), 
          Reach (fun k => k = i) p1 p1 ∧ (ch1 = true → ch1 = true) ∧
          (ch1 = false → p1 = p1 ∧ (∀ term, state.getNextTerm = some (some term) →
            term.Type_ = .Nonterminal → ∀ col, p1.columns.get? i = some col →
            ∀ s ∈ predictTargets p1.grammars term.Value col.index, p1.Present i s)) ∧
          (ch1 = true → ch1 = false → p1.colLength i < p1.colLength i) ∧
          ((∀ term, state.getNextTerm = some (some term) →
            term.Type_ = .Nonterminal → ∀ col, p1.columns.get? i = some col →
            ∀ s ∈ predictTargets p1.grammars term.Value col.index, p1.Present i s) →
            ch1 = false → p1 = p1 ∧ ch1 = false) := by
        intro hno
        refine ⟨Reach.refl _, fun h => h, ?_, ?_, fun _ h => ⟨rfl, h⟩⟩
        · intro hch
          refine ⟨rfl, ?_⟩
          intro term ht hty
          have := hno term ht hty
          rw [hch] at this
          cases this
        · intro h1 h2
          rw [h1] at h2
          cases h2
      rcases hgood.getNextTerm_cases with ⟨-, hnext⟩ | ⟨-, term, hnext⟩
      · refine ⟨p1, ch1, by simp only [hnext], hskip ?_⟩
        intro term ht
        rw [hnext] at ht
        cases ht
      · by_cases hcond : term.Type_ = .Nonterminal ∧ ch1 = false
        · obtain ⟨hty, hch1⟩ := hcond
          obtain ⟨p2, c2, hq⟩ := predict_nonterminal_total (p := p1)
            (by rw [hr1.toExt.length]; exact hlt) hty
          obtain ⟨hr, hf, hgrow, hsame, -⟩ :=
            predict_nonterminal_post hwf1.1 hcol1 hm1 hnext hty hq
          refine ⟨p2, c2, by simp only [hnext, hty, hch1, and_self, if_true, hq], hr,
            by simp [hch1], ?_, fun h _ => hgrow h, ?_⟩
          · intro hc2
            obtain ⟨hp2, hall⟩ := hf hc2
            refine ⟨hp2, ?_⟩
            intro term1 ht1 _ col2 hcol2
            rw [hnext] at ht1
            cases ht1
            rw [hcol1] at hcol2
            cases hcol2
            exact hall
          · intro hall _
            exact hsame (hall term hnext hty col1 hcol1)
        · refine ⟨p1, ch1, by simp only [hnext, hcond, if_false], hskip ?_⟩
          intro term1 ht1 hty1
          rw [hnext] at ht1
          cases ht1
          by_contra hne
          exact hcond ⟨hty1, by simpa using hne⟩
    obtain ⟨p2, ch2, heq2, hr2, ht2, hf2, hg2, hs2⟩ := stage2
    have hwf2 := hr2.wf hwf1
    have hr12 := hr1.rtrans hr2
    obtain ⟨q, c, hq, hr3, ht3, hf3, hg3, hs3⟩ := ih p2 ch2 hwf2
      (fun st hst => hr12.toExt.inCol (hin st (List.mem_cons_of_mem _ hst)))
    refine ⟨q, c, ?_, hr12.rtrans hr3, ?_, ?_, ?_, ?_⟩
    · unfold epsilonPass
      simp only [hdone, hcall]
      exact heq2.trans hq
    · intro h
      exact ht3 (ht2 (ht1 h))
    · intro hcf
      obtain ⟨hq3, hall3⟩ := hf3 hcf
      have hch2 : ch2 = false := by
        cases ch2 with
        | false => rfl
        | true => have := ht3 rfl; rw [hcf] at this; cases this
      obtain ⟨hp2, hpred⟩ := hf2 hch2
      have hch1 : ch1 = false := by
        cases ch1 with
        | false => rfl
        | true => have := ht2 rfl; rw [hch2] at this; cases this
      obtain ⟨hp1, hcompl⟩ := hf1 hch1
      subst hp2
      subst hp1
      refine ⟨hq3, ?_⟩
      intro st hst
      rcases List.mem_cons.mp hst with rfl | hst
      · exact ⟨hcompl, hpred⟩
      · exact hall3 st hst
    · intro hct hchf
      have l1 := hr1.toExt.colLength_le i
      have l2 := hr2.toExt.colLength_le i
      have l3 := hr3.toExt.colLength_le i
      cases hch1 : ch1 with
      | true =>
        have := hg1 hch1 hchf
        omega
      | false =>
        cases hch2 : ch2 with
        | true =>
          have := hg2 hch2 hch1
          omega
        | false =>
          have := hg3 hct hch2
          omega
    · intro hall hchf
      obtain ⟨hp1, hch1⟩ := hs1 (hall state (List.mem_cons_self _ _)).1 hchf
      subst hp1
      obtain ⟨hp2, hch2⟩ := hs2 (hall state (List.mem_cons_self _ _)).2 hch1
      subst hp2
      exact hs3 (fun st hst => hall st (List.mem_cons_of_mem _ hst)) hch2

theorem handleEpsilons_post {i : Nat} :
    ∀ fuel p q, p.WF → Parse.handleEpsilons fuel p i = .ok q →
      Reach (fun k => k = i) p q ∧ ∀ st, q.InCol i st → q.ClosedAt i st := by
  intro fuel
  induction fuel with
  | zero => intro p q _ h; simp [Parse.handleEpsilons] at h
  | succ fuel ih =>
    intro p q hwf h
    unfold Parse.handleEpsilons at h
    cases hc : p.columns.get? i with
    | none => rw [hc] at h; cases h
    | some col =>
      simp only [hc] at h
      obtain ⟨p1, c, hpass, hr, -, hf, -, -⟩ := epsilonPass_post col.states p false hwf
        (fun st hst => ⟨col, hc, hst⟩)
      rw [hpass] at h
      cases c with
      | true =>
        simp only at h
        obtain ⟨hr2, hcl⟩ := ih p1 q (hr.wf hwf) h
        exact ⟨hr.rtrans hr2, hcl⟩
      | false =>
        simp only [Outcome.ok.injEq] at h
        subst h
        obtain ⟨hp, hall⟩ := hf rfl
        subst hp
        refine ⟨Reach.refl _, ?_⟩
        rintro st ⟨c2, hc2, hm2⟩
        rw [hc] at hc2
        cases hc2
        exact hall st hm2

theorem handleEpsilons_total {i B : Nat} :
    ∀ fuel p, p.WF → i < p.columns.length →
      (∀ q, Reach (fun k => k = i) p q → q.colLength i ≤ B) →
      B < fuel + p.colLength i → ∃ q, Parse.handleEpsilons fuel p i = .ok q := by
  intro fuel
  induction fuel with
  | zero =>
    intro p _ _ hB hf
    have := hB p (Reach.refl _)
    omega
  | succ fuel ih =>
    intro p hwf hlt hB hf
    unfold Parse.handleEpsilons
    have hc := List.get?_eq_get hlt
    rw [hc]
    simp only
    obtain ⟨p1, c, hpass, hr, -, -, hg, -⟩ := epsilonPass_post
      (p.columns.get ⟨i, hlt⟩).states p false hwf (fun st hst => ⟨_, hc, hst⟩)
    rw [hpass]
    cases c with
    | false => exact ⟨p1, rfl⟩
    | true =>
      simp only
      have := hg rfl rfl
      exact ih p1 (hr.wf hwf) (by rw [hr.toExt.length]; exact hlt)
        (fun q hq => hB q (hr.rtrans hq)) (by omega)

theorem handleEpsilons_noop {i : Nat} (fuel : Nat) {p : Parse} (hwf : p.WF)
    (hlt : i < p.columns.length) (hcl : ∀ st, p.InCol i st → p.ClosedAt i st) :
    Parse.handleEpsilons (fuel + 1) p i = .ok p := by
  unfold Parse.handleEpsilons
  have hc := List.get?_eq_get hlt
  rw [hc]
  simp only
  obtain ⟨p1, c, hpass, -, -, -, -, hs⟩ := epsilonPass_post
    (p.columns.get ⟨i, hlt⟩).states p false hwf (fun st hst => ⟨_, hc, hst⟩)
  obtain ⟨hp, hcf⟩ := hs (fun st hst => hcl st ⟨_, hc, hst⟩) rfl
  rw [hpass, hp, hcf]

theorem sweepFrom_post {K : Parse → Nat → Prop} {fuel : Nat}
    (hK : ∀ p i q1 q2, p.WF → K p i → i < p.columns.length →
      Parse.columnLoop fuel p i 0 = .ok q1 → Parse.handleEpsilons fuel q1 i = .ok q2 →
      K q2 (i + 1)) :
    ∀ n p i q, p.WF → K p i → i + n = p.columns.length →
      Parse.sweepFrom fuel n p i = .ok q →
      Reach (fun k => i ≤ k) p q ∧ K q p.columns.length := by
  intro n
  induction n with
  | zero =>
    intro p i q _ hk hn h
    simp only [Parse.sweepFrom, Outcome.ok.injEq] at h
    subst h
    simp only [Nat.add_zero] at hn
    rw [← hn]
    exact ⟨Reach.refl _, hk⟩
  | succ n ih =>
    intro p i q hwf hk hn h
    unfold Parse.sweepFrom at h
    cases h1 : Parse.columnLoop fuel p i 0 with
    | panic => rw [h1] at h; cases h
    | outOfFuel => rw [h1] at h; cases h
    | ok q1 =>
      rw [h1] at h
      simp only at h
      cases h2 : Parse.handleEpsilons fuel q1 i with
      | panic => rw [h2] at h; cases h
      | outOfFuel => rw [h2] at h; cases h
      | ok q2 =>
        rw [h2] at h
        simp only at h
        obtain ⟨hr1, -⟩ := @columnLoop_post (fun _ _ => True) i
          (fun _ _ _ _ _ _ _ _ _ _ _ => trivial) fuel p 0 q1 hwf trivial h1
        have hwf1 := hr1.wf hwf
        obtain ⟨hr2, -⟩ := handleEpsilons_post fuel q1 q2 hwf1 h2
        have hwf2 := hr2.wf hwf1
        have hr12 : Reach (fun k => i ≤ k) p q2 :=
          (hr1.weaken (fun k hk => by rcases hk with rfl | rfl <;> omega)).rtrans
            (hr2.weaken (fun k hk => by rw [hk]))
        have hlen : q2.columns.length = p.columns.length := hr12.toExt.length
        obtain ⟨hr3, hk3⟩ := ih q2 (i + 1) q hwf2 (hK p i q1 q2 hwf hk (by omega) h1 h2)
          (by omega) h
        rw [hlen] at hk3
        exact ⟨hr12.rtrans (hr3.weaken (fun k hk => by omega)), hk3⟩

theorem sweepFrom_total {fuel B : Nat} :
    ∀ n p i, p.WF → i + n = p.columns.length →
      (∀ q k, Reach (fun _ => True) p q → q.colLength k ≤ B) → B < fuel →
      ∃ q, Parse.sweepFrom fuel n p i = .ok q := by
  intro n
  induction n with
  | zero => intro p i _ _ _ _; exact ⟨p, rfl⟩
  | succ n ih =>
    intro p i hwf hn hB hf
    unfold Parse.sweepFrom
    obtain ⟨q1, h1⟩ := @columnLoop_total i B fuel p 0 hwf (by omega)
      (fun q hq => hB q i (hq.weaken (fun _ _ => trivial))) (Nat.zero_le _) (by omega)
    rw [h1]
    simp only
    obtain ⟨hr1, -⟩ := @columnLoop_post (fun _ _ => True) i
      (fun _ _ _ _ _ _ _ _ _ _ _ => trivial) fuel p 0 q1 hwf trivial h1
    have hwf1 := hr1.wf hwf
    have hr1' : Reach (fun _ => True) p q1 := hr1.weaken (fun _ _ => trivial)
    obtain ⟨q2, h2⟩ := @handleEpsilons_total i B fuel q1 hwf1
      (by rw [hr1.toExt.length]; omega)
      (fun q hq => hB q i (hr1'.rtrans (hq.weaken (fun _ _ => trivial)))) (by omega)
    rw [h2]
    simp only
    obtain ⟨hr2, -⟩ := handleEpsilons_post fuel q1 q2 hwf1 h2
    have hr2' : Reach (fun _ => True) p q2 := hr1'.rtrans (hr2.weaken (fun _ _ => trivial))
    exact ih q2 (i + 1) (hr2.wf hwf1) (by rw [hr2'.toExt.length]; omega)
      (fun q k hq => hB q k (hr2'.rtrans hq)) hf

/-! ### The acceptance scan -/

theorem accepting_eq (s : TableState) (h : s.accepting ≠ none) :
    s.accepting = some (isAccepting s) := by
  unfold TableState.accepting isAccepting at *
  by_cases hn : s.Name = GAMMA_RULE
  · simp only [hn, if_true, decide_True, Bool.true_and] at h ⊢
    cases hc : s.isCompleted with
    | none => exact absurd hc h
    | some b => cases b <;> rfl
  · simp [hn]

theorem accepting_none_iff (s : TableState) :
    s.accepting = none ↔ s.Name = GAMMA_RULE ∧ s.isCompleted = none := by
  unfold TableState.accepting
  by_cases hn : s.Name = GAMMA_RULE <;> simp [hn]

theorem acceptStates_false (states ret : List TableState)
    (h : ∀ s ∈ states, s.accepting ≠ none) :
    acceptStates false states ret = some (ret ++ states.filter isAccepting, false) := by
  induction states generalizing ret with
  | nil => simp [acceptStates]
  | cons s rest ih =>
    have hs := accepting_eq s (h s (List.mem_cons_self _ _))
    have ih1 := fun ret => ih ret (fun s1 hs1 => h s1 (List.mem_cons_of_mem _ hs1))
    unfold acceptStates
    rw [hs]
    cases hb : isAccepting s with
    | true => simp [ih1, List.filter_cons, hb]
    | false => simp [ih1, List.filter_cons, hb]

theorem acceptStates_false_none (states ret : List TableState)
    (h : ∃ s ∈ states, s.accepting = none) : acceptStates false states ret = none := by
  induction states generalizing ret with
  | nil => obtain ⟨s, hs, _⟩ := h; simp at hs
  | cons s rest ih =>
    unfold acceptStates
    cases hs : s.accepting with
    | none => rfl
    | some b =>
      obtain ⟨s1, hs1, hn⟩ := h
      have hrest : ∃ s ∈ rest, s.accepting = none := by
        rcases List.mem_cons.mp hs1 with rfl | hm
        · rw [hs] at hn; cases hn
        · exact ⟨s1, hm, hn⟩
      cases b with
      | true => simp [ih _ hrest]
      | false => simp [ih _ hrest]

theorem acceptColumns_false (cols : List TableColumn) (ret : List TableState)
    (h : ∀ c ∈ cols, ∀ s ∈ c.states, s.accepting ≠ none) :
    acceptColumns false cols ret =
      some (ret ++ cols.flatMap (fun c => c.states.filter isAccepting)) := by
  induction cols generalizing ret with
  | nil => simp [acceptColumns]
  | cons c rest ih =>
    unfold acceptColumns
    rw [acceptStates_false _ _ (h c (List.mem_cons_self _ _))]
    simp only
    rw [ih _ (fun c1 hc1 => h c1 (List.mem_cons_of_mem _ hc1))]
    simp

theorem acceptColumns_false_none (cols : List TableColumn) (ret : List TableState)
    (h : ∃ c ∈ cols, ∃ s ∈ c.states, s.accepting = none) :
    acceptColumns false cols ret = none := by
  induction cols generalizing ret with
  | nil => obtain ⟨c, hc, _⟩ := h; simp at hc
  | cons c rest ih =>
    unfold acceptColumns
    by_cases hc : ∃ s ∈ c.states, s.accepting = none
    · rw [acceptStates_false_none _ _ hc]
    · push_neg at hc
      rw [acceptStates_false _ _ hc]
      simp only
      apply ih
      obtain ⟨c1, hc1, s, hs, hn⟩ := h
      rcases List.mem_cons.mp hc1 with rfl | hm
      · exact absurd hn (hc s hs)
      · exact ⟨c1, hm, s, hs, hn⟩

theorem acceptStates_true (states ret : List TableState)
    (h : ∀ s ∈ states, s.accepting ≠ none) :
    acceptStates true states ret =
      some (ret ++ (states.filter isAccepting).take 1,
        !(states.filter isAccepting).isEmpty) := by
  induction states generalizing ret with
  | nil => simp [acceptStates]
  | cons s rest ih =>
    have hs := accepting_eq s (h s (List.mem_cons_self _ _))
    have ih1 := fun ret => ih ret (fun s1 hs1 => h s1 (List.mem_cons_of_mem _ hs1))
    unfold acceptStates
    rw [hs]
    cases hb : isAccepting s with
    | true => simp [List.filter_cons, hb]
    | false => simp [ih1, List.filter_cons, hb]

theorem acceptColumns_true (cols : List TableColumn) (ret : List TableState)
    (h : ∀ c ∈ cols, ∀ s ∈ c.states, s.accepting ≠ none) :
    acceptColumns true cols ret =
      some (ret ++ (cols.flatMap (fun c => c.states.filter isAccepting)).take 1) := by
  induction cols generalizing ret with
  | nil => simp [acceptColumns]
  | cons c rest ih =>
    unfold acceptColumns
    rw [acceptStates_true _ _ (h c (List.mem_cons_self _ _))]
    cases hf : c.states.filter isAccepting with
    | nil =>
      simp only [List.take_nil, List.append_nil, List.isEmpty_nil, Bool.not_true]
      rw [ih _ (fun c1 hc1 => h c1 (List.mem_cons_of_mem _ hc1))]
      simp [hf]
    | cons s t =>
      simp [hf]

theorem Parse.WF.accepting_ne_none {p : Parse} (hwf : p.WF) :
    ∀ c ∈ p.columns.reverse, ∀ s ∈ c.states, s.accepting ≠ none := by
  intro c hc s hs hn
  rw [List.mem_reverse] at hc
  obtain ⟨i, hi⟩ := List.mem_iff_get?.mp hc
  obtain ⟨b, hb⟩ := (hwf.2 i c hi s hs).isCompleted_isSome
  rw [(accepting_none_iff s).mp hn |>.2] at hb
  cases hb

theorem gammaState_good (start : String) : GoodState 0 (gammaState start) := by
  refine ⟨rfl, ?_, ?_, ?_, ?_⟩ <;> simp [gammaState, gammaBody]

theorem addStarts_spec {p p0 : Parse} (h : p.addStarts = some p0) :
    ∃ col0 cols, p.columns = col0 :: cols ∧
      p0 = { p with columns :=
        { col0 with states := col0.states ++ p.starts.map gammaState } :: cols } := by
  unfold Parse.addStarts at h
  split at h
  · cases h
  · rename_i col0 cols hcols
    simp only [Option.some.injEq] at h
    exact ⟨col0, cols, hcols, h.symm⟩

theorem addStarts_allStates {P : Nat → TableState → Prop} {p p0 : Parse}
    (hP : p.AllStates P) (hg : ∀ start ∈ p.starts, P 0 (gammaState start))
    (h : p.addStarts = some p0) : p0.AllStates P := by
  obtain ⟨col0, cols, hcols, rfl⟩ := addStarts_spec h
  intro i c hc s hs
  cases i with
  | zero =>
    simp only [List.get?_cons_zero, Option.some.injEq] at hc
    subst hc
    simp only [List.mem_append, List.mem_map] at hs
    rcases hs with hs | ⟨start, hst, rfl⟩
    · exact hP 0 col0 (by rw [hcols]; rfl) s hs
    · exact hg start hst
  | succ i =>
    simp only [List.get?_cons_succ] at hc
    exact hP (i + 1) c (by rw [hcols]; simpa using hc) s hs

theorem addStarts_wf {p p0 : Parse} (hwf : p.WF) (h : p.addStarts = some p0) : p0.WF := by
  refine ⟨?_, addStarts_allStates hwf.2 (fun s _ => gammaState_good s) h⟩
  obtain ⟨col0, cols, hcols, rfl⟩ := addStarts_spec h
  intro i c hc
  cases i with
  | zero =>
    simp only [List.get?_cons_zero, Option.some.injEq] at hc
    subst hc
    exact hwf.1 0 col0 (by rw [hcols]; rfl)
  | succ i =>
    simp only [List.get?_cons_succ] at hc
    exact hwf.1 (i + 1) c (by rw [hcols]; simpa using hc)

theorem sweep_reach {p q : Parse} {fuel : Nat} (hwf : p.WF) (h : p.sweep fuel = .ok q) :
    ∃ p0, p.addStarts = some p0 ∧ p0.WF ∧ Reach (fun _ => True) p0 q ∧ q.WF := by
  unfold Parse.sweep at h
  cases h0 : p.addStarts with
  | none => rw [h0] at h; cases h
  | some p0 =>
    rw [h0] at h
    simp only at h
    have hwf0 := addStarts_wf hwf h0
    obtain ⟨hr, -⟩ := @sweepFrom_post (fun _ _ => True) fuel (fun _ _ _ _ _ _ _ _ _ => trivial)
      p0.columns.length p0 0 q hwf0 trivial (by omega) h
    have hr' : Reach (fun _ => True) p0 q := hr.weaken (fun _ _ => trivial)
    exact ⟨p0, rfl, hwf0, hr', hr'.wf hwf0⟩

theorem isAccepting_iff (s : TableState) :
    isAccepting s = true ↔ s.Name = GAMMA_RULE ∧ s.isCompleted = some true := by
  simp [isAccepting]

theorem parse_unfold (p : Parse) (fuel : Nat) (maxFlag : Bool) (hs : p.starts ≠ []) :
    p.parse fuel maxFlag =
      match p.sweep fuel with
      | .ok p1 =>
        match p1.accept maxFlag with
        | none => .panic
        | some ret => .ok ({ p1 with finalStates := ret }, ret)
      | .panic => .panic
      | .outOfFuel => .outOfFuel := by
  unfold Parse.parse
  have : ¬ p.starts.length = 0 := by
    intro h
    exact hs (List.length_eq_zero.mp h)
  simp only [this, if_false]
  try rfl

theorem accept_false_wf {q : Parse} (hwf : q.WF) : q.accept false = some q.allAccepting := by
  unfold Parse.accept Parse.allAccepting
  rw [acceptColumns_false _ _ hwf.accepting_ne_none]
  simp

theorem accept_true_wf {q : Parse} (hwf : q.WF) :
    q.accept true = some (q.allAccepting.take 1) := by
  unfold Parse.accept Parse.allAccepting
  rw [acceptColumns_true _ _ hwf.accepting_ne_none]
  simp

theorem allAccepting_head_max (cols : List TableColumn)
    (hend : ∀ i c, cols.get? i = some c → ∀ s ∈ c.states, s.End = (i : Int)) :
    ∀ s, (cols.reverse.flatMap (fun c => c.states.filter isAccepting)).head? = some s →
      ∀ s1 ∈ cols.reverse.flatMap (fun c => c.states.filter isAccepting), s1.End ≤ s.End := by
  induction cols using List.reverseRecOn with
  | nil => intro s hs; simp at hs
  | append_singleton init last ih =>
    have hinit : ∀ i c, init.get? i = some c → ∀ s ∈ c.states, s.End = (i : Int) := by
      intro i c hc
      apply hend i c
      simp only [List.get?_eq_getElem?] at hc ⊢
      rw [List.getElem?_append_left (by
        by_contra hn
        rw [List.getElem?_eq_none (by omega)] at hc
        cases hc)]
      exact hc
    have hlast : ∀ s ∈ last.states, s.End = (init.length : Int) :=
      hend init.length last (by simp)
    have hle : ∀ s1 ∈ init.reverse.flatMap (fun c => c.states.filter isAccepting),
        s1.End < (init.length : Int) := by
      intro s1 hs1
      simp only [List.mem_flatMap, List.mem_reverse, List.mem_filter] at hs1
      obtain ⟨c, hc, hm, -⟩ := hs1
      obtain ⟨i, hi⟩ := List.mem_iff_get?.mp hc
      have := hinit i c hi s1 hm
      have := get?_lt hi
      omega
    intro s hs s1 hs1
    simp only [List.reverse_append, List.reverse_cons, List.reverse_nil, List.nil_append,
      List.singleton_append, List.flatMap_cons] at hs hs1
    cases hf : last.states.filter isAccepting with
    | nil =>
      rw [hf] at hs hs1
      simp only [List.nil_append] at hs hs1
      exact ih hinit s hs s1 hs1
    | cons a t =>
      rw [hf] at hs hs1
      simp only [List.cons_append, List.head?_cons, Option.some.injEq] at hs
      subst hs
      have ha : a ∈ last.states := by
        have : a ∈ last.states.filter isAccepting := by rw [hf]; exact List.mem_cons_self _ _
        exact (List.mem_filter.mp this).1
      rw [hlast a ha]
      rcases List.mem_append.mp hs1 with h1 | h1
      · have : s1 ∈ last.states := by
          rw [← hf] at h1
          exact (List.mem_filter.mp h1).1
        rw [hlast s1 this]
      · exact le_of_lt (hle s1 h1)

/-! ### Fresh charts -/

theorem freshColumns_get? (k : Int) (toks : List String) (i : Nat) (c : TableColumn)
    (h : (freshColumns k toks).get? i = some c) :
    c.index = k + i ∧ c.states = [] ∧ toks.get? i = some c.token := by
  induction toks generalizing k i with
  | nil => simp [freshColumns] at h
  | cons t ts ih =>
    cases i with
    | zero =>
      simp only [freshColumns, List.get?_cons_zero, Option.some.injEq] at h
      subst h
      simp [emptyColumn]
    | succ i =>
      simp only [freshColumns, List.get?_cons_succ] at h
      obtain ⟨h1, h2, h3⟩ := ih (k + 1) i h
      refine ⟨by rw [h1]; push_cast; omega, h2, by simpa using h3⟩

theorem freshColumns_length (k : Int) (toks : List String) :
    (freshColumns k toks).length = toks.length := by
  induction toks generalizing k with
  | nil => rfl
  | cons t ts ih => simp [freshColumns, ih]

theorem freshChart_column (gs : List Grammar) (starts toks : List String) (i : Nat)
    (c : TableColumn) (h : (freshChart gs starts toks).columns.get? i = some c) :
    c.index = (i : Int) ∧ c.states = [] := by
  cases i with
  | zero =>
    simp only [freshChart, List.get?_cons_zero, Option.some.injEq] at h
    subst h
    simp [emptyColumn]
  | succ i =>
    simp only [freshChart, List.get?_cons_succ] at h
    obtain ⟨h1, h2, -⟩ := freshColumns_get? 1 toks i c h
    exact ⟨by rw [h1]; push_cast; omega, h2⟩

theorem freshChart_wf (gs : List Grammar) (starts toks : List String) :
    (freshChart gs starts toks).WF := by
  constructor
  · intro i c h
    exact (freshChart_column gs starts toks i c h).1
  · intro i c h s hs
    rw [(freshChart_column gs starts toks i c h).2] at hs
    cases hs

/-- Counterexample to C5: with the start symbols `A` and `B` both spanning the
input `x`, the last column holds two completed `GAMMA_RULE` states (one per
start symbol) and first-match mode returns only the one for `A`. -/
theorem parse_first_match_counterexample :
    ∃ q, twoStartChart.parse 10 true =
        .ok (q, [{ Name := GAMMA_RULE, Rb := some (gammaBody "A"), Start := 0, End := 1,
                   dot := 1, isAny := false, meta := .nil }]) ∧
      (q.columns.getLast?.map (fun c => c.states.filter isAccepting)) =
        some [{ Name := GAMMA_RULE, Rb := some (gammaBody "A"), Start := 0, End := 1,
                dot := 1, isAny := false, meta := .nil },
              { Name := GAMMA_RULE, Rb := some (gammaBody "B"), Start := 0, End := 1,
                dot := 1, isAny := false, meta := .nil }] :=
  ⟨_, by rfl, by rfl⟩

/-! ### Wildcard bounds -/

theorem withinMax_step {q : Parse} {i : Nat} {s : TableState} (hg : Gen q i s) :
    WithinMax i (stamp i s) := by
  intro ha m hm hmax
  cases hg with
  | predictRule i col st term g r prod hc hmem ht hty hg hr hp => simp [stamp] at ha
  | predictAny i col st term hc hmem hna ht hty => simpa [stamp] using hmax
  | scanAny i col st hc hmem hst hmeta hlen =>
    simp only [stamp] at hm ⊢
    rcases hmeta with hnil | ⟨m1, hm1, hle⟩
    · rw [hnil] at hm; cases hm
    · rw [hm1] at hm
      cases hm
      exact hle
  | scanTerminal i col col1 st term hc hmem hna ht hty hc1 htok => simp [stamp] at ha
  | complete i col state colk st term hc hmem hdone hk hmk ht hty => simp [stamp] at hm

theorem freshChart_allStates (P : Nat → TableState → Prop) (gs : List Grammar)
    (starts toks : List String) : (freshChart gs starts toks).AllStates P := by
  intro i c h s hs
  rw [(freshChart_column gs starts toks i c h).2] at hs
  cases hs

theorem parse_chart {p q : Parse} {fuel : Nat} {maxFlag : Bool} {ret : List TableState}
    (h : p.parse fuel maxFlag = .ok (q, ret)) :
    (p.starts = [] ∧ q = p ∧ ret = []) ∨
    (p.starts ≠ [] ∧ ∃ q1, p.sweep fuel = .ok q1 ∧ q1.accept maxFlag = some ret ∧
      q = { q1 with finalStates := ret }) := by
  by_cases hs : p.starts = []
  · left
    unfold Parse.parse at h
    simp only [hs, List.length_nil, if_true, Outcome.ok.injEq, Prod.mk.injEq] at h
    exact ⟨hs, h.1.symm, h.2.symm⟩
  · right
    refine ⟨hs, ?_⟩
    rw [parse_unfold p fuel maxFlag hs] at h
    cases hsw : p.sweep fuel with
    | panic => rw [hsw] at h; cases h
    | outOfFuel => rw [hsw] at h; cases h
    | ok q1 =>
      rw [hsw] at h
      simp only at h
      cases hacc : q1.accept maxFlag with
      | none => rw [hacc] at h; cases h
      | some r =>
        rw [hacc] at h
        simp only [Outcome.ok.injEq, Prod.mk.injEq] at h
        exact ⟨q1, rfl, by rw [← h.2]; exact hacc, by rw [← h.1, ← h.2]⟩

/-! ### Charts over grammars without wildcard terms -/

theorem lookup_mem {α β : Type} [BEq α] [LawfulBEq α] {l : List (α × β)} {a : α} {b : β}
    (h : l.lookup a = some b) : (a, b) ∈ l := by
  induction l with
  | nil => simp at h
  | cons x xs ih =>
    obtain ⟨k, v⟩ := x
    by_cases hk : a = k
    · subst hk
      simp only [List.lookup_cons, beq_self_eq_true, Option.some.injEq] at h
      subst h
      exact List.mem_cons_self _ _
    · have : (a == k) = false := by simpa using hk
      simp only [List.lookup_cons, this] at h
      exact List.mem_cons_of_mem _ (ih h)

theorem item_next_not_any {gs : List Grammar} {starts : List String} (hw : WildcardFree gs)
    {i : Nat} {st : TableState} {term : Term} (hitem : ItemState gs starts i st)
    (ht : st.getNextTerm = some (some term)) : term.Type_ ≠ .Any := by
  obtain ⟨ha, -, rb, hrb, hcase⟩ := hitem
  obtain ⟨rb1, hrb1, -, -, hget, -⟩ := getNextTerm_nonwild ha ht
  rw [hrb] at hrb1
  cases hrb1
  have hmem : term ∈ rb.Terms := List.get?_mem hget
  rcases hcase with ⟨-, -, start, -, rfl⟩ | ⟨g, hg, key, r, hr, -, hbody⟩
  · simp only [gammaBody, List.mem_singleton] at hmem
    rw [hmem]
    simp
  · exact hw g hg key r hr rb hbody term hmem

theorem item_step {gs : List Grammar} {starts : List String} (hw : WildcardFree gs)
    {q : Parse} (hgs : q.grammars = gs) (hP : q.AllStates (ItemState gs starts))
    {i : Nat} {s : TableState} (hg : Gen q i s) : ItemState gs starts i (stamp i s) := by
  cases hg with
  | predictRule i col st term g r prod hc hmem ht hty hg hr hp =>
    exact ⟨rfl, rfl, prod, rfl, Or.inr ⟨g, by rw [← hgs]; exact hg, term.Value, r, hr, rfl, hp⟩⟩
  | predictAny i col st term hc hmem hna ht hty =>
    exact absurd hty (item_next_not_any hw (hP i col hc st hmem) ht)
  | scanAny i col st hc hmem hst hmeta hlen =>
    have := (hP i col hc st hmem).1
    rw [hst] at this
    cases this
  | scanTerminal i col col1 st term hc hmem hna ht hty hc1 htok =>
    obtain ⟨-, -, rb, hrb, hcase⟩ := hP i col hc st hmem
    exact ⟨rfl, rfl, rb, hrb, hcase⟩
  | complete i col state colk st term hc hmem hdone hk hmk ht hty =>
    obtain ⟨hk0, hck⟩ := Parse.column_some hk
    obtain ⟨ha, -, rb, hrb, hcase⟩ := hP _ colk hck st hmk
    exact ⟨ha, rfl, rb, hrb, hcase⟩

theorem gammaState_item (gs : List Grammar) (starts : List String) (start : String)
    (h : start ∈ starts) : ItemState gs starts 0 (gammaState start) :=
  ⟨rfl, rfl, gammaBody start, rfl, Or.inl ⟨rfl, rfl, start, h, rfl⟩⟩

theorem Reach.items {C : Nat → Prop} {gs : List Grammar} {starts : List String} {p q : Parse}
    (hw : WildcardFree gs) (hgs : p.grammars = gs) (h : Reach C p q) (hwf : p.WF)
    (hP : p.AllStates (ItemState gs starts)) : q.AllStates (ItemState gs starts) :=
  h.allStates hwf hP (fun q1 he _ hP1 _ _ hg => item_step hw (by rw [he.grammars, hgs]) hP1 hg)

theorem item_mem_universe {gs : List Grammar} {starts : List String} {i : Nat}
    {s : TableState} (hgood : GoodState i s) (hitem : ItemState gs starts i s) :
    s ∈ itemUniverse gs starts i := by
  obtain ⟨hend, h0, hle, hd0, hrbg⟩ := hgood
  obtain ⟨ha, hmeta, rb, hrb, hcase⟩ := hitem
  obtain ⟨rb1, hrb1, hdle⟩ := hrbg ha
  rw [hrb] at hrb1
  cases hrb1
  have hpair : (s.Name, rb) ∈ rulePairs gs starts := by
    simp only [rulePairs, List.mem_append, List.mem_map, List.mem_flatMap]
    rcases hcase with ⟨hn, -, start, hst, rfl⟩ | ⟨g, hg, key, r, hr, hname, hbody⟩
    · left
      exact ⟨start, hst, by rw [hn]⟩
    · right
      exact ⟨g, hg, (key, r), lookup_mem hr, rb, hbody, by rw [hname]⟩
  unfold itemUniverse
  refine List.mem_flatMap.mpr ⟨(s.Name, rb), hpair, ?_⟩
  refine List.mem_flatMap.mpr ⟨s.Start.toNat, List.mem_range.mpr (show s.Start.toNat < i + 1 by omega), ?_⟩
  refine List.mem_map.mpr ⟨s.dot.toNat, List.mem_range.mpr (show s.dot.toNat < rb.Terms.length + 1 by omega), ?_⟩
  cases s
  simp only at hend h0 hd0 hrb ha hmeta
  simp only [TableState.mk.injEq]
  refine ⟨trivial, hrb.symm, ?_, hend.symm, ?_, ha.symm, hmeta.symm⟩
  · simp only [Int.ofNat_eq_coe]; omega
  · simp only [Int.ofNat_eq_coe]; omega

theorem lenBound_insertAt {L : Nat} {p q : Parse} {i : Nat} {s : TableState} {b : Bool}
    (hL : p.LenBound L) (h : p.insertAt i s = some (q, b)) : q.LenBound L := by
  intro k c hc
  by_cases hki : k = i
  · subst hki
    obtain ⟨col, hcol, hq, -⟩ := insertAt_column h
    rw [hq] at hc
    cases hc
    have hb := hL k col hcol
    rcases insert_states col s with ⟨h1, -, -⟩ | ⟨h1, -, hno⟩
    · rw [h1]; exact hb
    · rw [h1]
      have hnot : ({ s with End := col.index } : TableState) ∉ col.states := by
        intro hm
        have := hno _ hm
        simp [sameState] at this
      rw [List.toFinset_append, List.length_append]
      have hdisj : Disjoint col.states.toFinset [({ s with End := col.index } : TableState)].toFinset := by
        simp [hnot]
      rw [Finset.card_union_of_disjoint hdisj]
      simp only [List.length_singleton, List.toFinset_cons, List.toFinset_nil,
        insert_emptyc_eq, Finset.card_singleton]
      omega
  · rw [insertAt_other h hki] at hc
    exact hL k c hc

theorem Reach.lenBound {C : Nat → Prop} {L : Nat} {p q : Parse} (h : Reach C p q)
    (hL : p.LenBound L) : q.LenBound L := by
  induction h with
  | refl => exact hL
  | step q r i s b _ _ _ hins ih => exact lenBound_insertAt ih hins

theorem colLength_bound {gs : List Grammar} {starts : List String} {L : Nat} {q : Parse}
    (hwf : q.WF) (hP : q.AllStates (ItemState gs starts)) (hL : q.LenBound L) (k : Nat) :
    q.colLength k ≤ L + (allItems gs starts q.columns.length).length := by
  cases hc : q.columns.get? k with
  | none =>
    unfold Parse.colLength
    rw [hc]
    exact Nat.zero_le _
  | some col =>
    rw [colLength_eq hc]
    have hsub : col.states.toFinset ⊆ (allItems gs starts q.columns.length).toFinset := by
      intro s hs
      rw [List.mem_toFinset] at hs ⊢
      simp only [allItems, List.mem_flatMap, List.mem_range]
      exact ⟨k, get?_lt hc, item_mem_universe (hwf.2 k col hc s hs) (hP k col hc s hs)⟩
    have h1 := Finset.card_le_card hsub
    have h2 := List.toFinset_card_le (allItems gs starts q.columns.length)
    have h3 := hL k col hc
    omega

/-! ### Closed charts contain what the grammar derives -/

theorem present_inCol {q : Parse} {i : Nat} {s : TableState} (h : q.Present i s)
    (ha : s.isAny = false) : q.InCol i (stamp i s) := by
  obtain ⟨s1, hs1, hsame⟩ := h
  have : stamp i s = s1 := by
    simp only [sameState, Bool.or_eq_true, decide_eq_true_eq, Bool.and_eq_true] at hsame
    rcases hsame with h | ⟨⟨⟨h, -⟩, -⟩, -⟩
    · exact h
    · simp [stamp, ha] at h
  rw [this]
  exact hs1

theorem item_getNextTerm {name : String} {rb : RuleBody} {k i d : Nat} {t : Term}
    (h : rb.Terms.get? d = some t) : (item name rb k i d).getNextTerm = some (some t) := by
  have hlt := get?_lt h
  unfold TableState.getNextTerm TableState.isCompleted
  simp only [item, Bool.false_eq_true, if_false, Int.ofNat_eq_coe]
  have h1 : ¬ ((d : Int) ≥ (rb.Terms.length : Int)) := by omega
  simp only [h1, decide_False]
  have h2 : ¬ ((d : Int) < 0) := by omega
  simp only [h2, if_false, Int.toNat_ofNat, h]

theorem item_isCompleted {name : String} {rb : RuleBody} {k i d : Nat}
    (h : rb.Terms.length ≤ d) : (item name rb k i d).isCompleted = some true := by
  unfold TableState.isCompleted
  simp only [item, Bool.false_eq_true, if_false, Int.ofNat_eq_coe]
  have h1 : ((d : Int) ≥ (rb.Terms.length : Int)) := by omega
  simp [h1]

theorem stamp_advanced_item (name : String) (rb : RuleBody) (k i j d : Nat) :
    stamp j (advanced (item name rb k i d)) = item name rb k j (d + 1) := by
  simp [stamp, advanced, item]

theorem stamp_predicted (name : String) (body : RuleBody) (i : Nat) :
    stamp i (predictedState name (Int.ofNat i) body) = item name body i i 0 := by
  simp [stamp, predictedState, item]

theorem derives_advance {gs : List Grammar} {starts : List String} {q : Parse}
    (hw : WildcardFree gs) (hn : NamesMatch gs) (hgs : q.grammars = gs)
    (hitems : q.AllStates (ItemState gs starts)) (hcl : ∀ i, ColumnClosed q i)
    {terms : List Term} {w : List String} (hder : Derives gs terms w) :
    ∀ (j : Nat) (name : String) (rb : RuleBody) (k d : Nat) (post : List Term),
      q.InCol j (item name rb k j d) →
      rb.Terms.drop d = terms ++ post → d ≤ rb.Terms.length →
      (∀ n tok, w.get? n = some tok →
        ∃ col, q.columns.get? (j + n + 1) = some col ∧ col.token = tok) →
      q.InCol (j + w.length) (item name rb k (j + w.length) (d + terms.length)) := by
  induction hder with
  | nil =>
    intro j name rb k d post hin _ _ _
    simpa using hin
  | terminal t ts v hty _ ih =>
    intro j name rb k d post hin hdrop hd htok
    have hget : rb.Terms.get? d = some t := by
      have := congrArg List.head? hdrop
      simpa [List.head?_drop] using this
    have hnext := @item_getNextTerm name rb k j d t hget
    obtain ⟨col1, hc1, htk⟩ := htok 0 t.Value (by simp)
    have hscan := (hcl j).scan _ t col1 hin rfl hnext hty hc1 htk.symm
    rw [stamp_advanced_item] at hscan
    have := ih (j + 1) name rb k (d + 1) post hscan (by
      rw [← List.drop_drop, hdrop]
      simp) (by have := get?_lt hget; omega) (by
      intro n tok hnt
      obtain ⟨c, hc, hct⟩ := htok (n + 1) tok (by simpa using hnt)
      exact ⟨c, by rw [← hc]; congr 1; omega, hct⟩)
    simp only [List.length_cons]
    rw [show j + (v.length + 1) = j + 1 + v.length by omega,
      show d + (ts.length + 1) = d + 1 + ts.length by omega]
    exact this
  | nonterminal t ts g r body u v hty hg hr hbody _ _ ih1 ih2 =>
    intro j name rb k d post hin hdrop hd htok
    have hget : rb.Terms.get? d = some t := by
      have := congrArg List.head? hdrop
      simpa [List.head?_drop] using this
    have hnext := @item_getNextTerm name rb k j d t hget
    have hpred := (hcl j).predict _ t g r body hin rfl hnext hty (by rw [hgs]; exact hg) hr hbody
    rw [stamp_predicted] at hpred
    have hdone := ih1 j r.Name body j 0 [] hpred (by simp) (Nat.zero_le _) (by
      intro n tok hnt
      exact htok n tok (by
        simp only [List.get?_eq_getElem?] at hnt ⊢
        rw [List.getElem?_append_left (by
          by_contra hcon
          rw [List.getElem?_eq_none (by omega)] at hnt
          cases hnt)]
        exact hnt))
    simp only [Nat.zero_add] at hdone
    have hcompl := (hcl (j + u.length)).complete _ (item name rb k j d) t hdone rfl
      (item_isCompleted (le_refl _)) (by simpa [item] using hin) rfl hnext hty
      (by rw [hn g hg t.Value r hr]; rfl)
    rw [stamp_advanced_item] at hcompl
    have := ih2 (j + u.length) name rb k (d + 1) post hcompl (by
      rw [← List.drop_drop, hdrop]
      simp) (by have := get?_lt hget; omega) (by
      intro n tok hnt
      obtain ⟨c, hc, hct⟩ := htok (u.length + n) tok (by
        simp only [List.get?_eq_getElem?] at hnt ⊢
        rw [List.getElem?_append_right (by omega)]
        simpa using hnt)
      exact ⟨c, by rw [← hc]; congr 1; omega, hct⟩)
    simp only [List.length_cons, List.length_append]
    rw [show j + (u.length + v.length) = j + u.length + v.length by omega,
      show d + (ts.length + 1) = d + 1 + ts.length by omega]
    exact this
  | anyUnbounded t ts u v hty _ _ _ _ =>
    intro j name rb k d post hin hdrop _ _
    exfalso
    have hget : rb.Terms.get? d = some t := by
      have := congrArg List.head? hdrop
      simpa [List.head?_drop] using this
    obtain ⟨col, hc, hm⟩ := hin
    exact item_next_not_any hw (hitems j col hc _ hm) (item_getNextTerm hget) hty
  | anyBounded t ts m u v hty _ _ _ _ _ =>
    intro j name rb k d post hin hdrop _ _
    exfalso
    have hget : rb.Terms.get? d = some t := by
      have := congrArg List.head? hdrop
      simpa [List.head?_drop] using this
    obtain ⟨col, hc, hm⟩ := hin
    exact item_next_not_any hw (hitems j col hc _ hm) (item_getNextTerm hget) hty

/-! ### The swept chart is closed under `complete` and `predict` -/

theorem closedAt_stable {C : Nat → Prop} {p q : Parse} {i : Nat} {st : TableState}
    (hr : Reach C p q) (hC : ∀ k, C k → i < k) (hwf : p.WF) (hin : p.InCol i st)
    (hcl : p.ClosedAt i st) : q.ClosedAt i st := by
  obtain ⟨col, hc, hm⟩ := hin
  have hgood := hwf.2 i col hc st hm
  have hnot : ∀ k, k ≤ i → ¬ C k := fun k hk hck => by have := hC k hck; omega
  constructor
  · intro hdone colk hk s hs
    have hk' : p.column st.Start = some colk := by
      obtain ⟨h0, hget⟩ := Parse.column_some hk
      unfold Parse.column
      simp only [show ¬ st.Start < 0 by omega, if_false]
      rw [← hr.unchanged (hnot _ (by have := hgood.2.2.1; omega))]
      exact hget
    exact (hcl.1 hdone colk hk' s hs).extend hr.toExt
  · intro term ht hty col1 hc1 s hs
    rw [hr.unchanged (hnot i (le_refl _))] at hc1
    rw [hr.toExt.grammars] at hs
    exact (hcl.2 term ht hty col1 hc1 s hs).extend hr.toExt

theorem sweepFrom_closed {fuel : Nat} {n : Nat} {p q : Parse} {i : Nat} (hwf : p.WF)
    (hK : ∀ i1 < i, ∀ st, p.InCol i1 st → p.ClosedAt i1 st)
    (hn : i + n = p.columns.length) (h : Parse.sweepFrom fuel n p i = .ok q) :
    ∀ i1 st, q.InCol i1 st → q.ClosedAt i1 st := by
  obtain ⟨hr, hk⟩ := @sweepFrom_post
    (fun q i => ∀ i1 < i, ∀ st, q.InCol i1 st → q.ClosedAt i1 st) fuel
    (by
      intro p i q1 q2 hwf hK hlt h1 h2 i1 hi1 st hin
      obtain ⟨hr1, -⟩ := @columnLoop_post (fun _ _ => True) i
        (fun _ _ _ _ _ _ _ _ _ _ _ => trivial) fuel p 0 q1 hwf trivial h1
      have hwf1 := hr1.wf hwf
      obtain ⟨hr2, hcl2⟩ := handleEpsilons_post fuel q1 q2 hwf1 h2
      by_cases hlast : i1 = i
      · subst hlast
        exact hcl2 st hin
      · have hlt1 : i1 < i := by omega
        have hr12 : Reach (fun k => i ≤ k) p q2 :=
          (hr1.weaken (fun k hk => by rcases hk with rfl | rfl <;> omega)).rtrans
            (hr2.weaken (fun k hk => by rw [hk]))
        have hsame := hr12.unchanged (k := i1) (by omega)
        have hin0 : p.InCol i1 st := by
          obtain ⟨c, hc, hm⟩ := hin
          exact ⟨c, by rw [← hsame]; exact hc, hm⟩
        exact closedAt_stable hr12 (fun k hk => by omega) hwf hin0 (hK i1 hlt1 st hin0))
    n p i q hwf hK hn h
  intro i1 st hin
  have hlen : q.columns.length = p.columns.length := hr.toExt.length
  obtain ⟨c, hc, hm⟩ := hin
  exact hk i1 (by rw [← hlen]; exact get?_lt hc) st ⟨c, hc, hm⟩

theorem sweep_closed {fuel : Nat} {p q : Parse} (hwf : p.WF) (h : p.sweep fuel = .ok q) :
    ∀ i st, q.InCol i st → q.ClosedAt i st := by
  unfold Parse.sweep at h
  cases h0 : p.addStarts with
  | none => rw [h0] at h; cases h
  | some p0 =>
    rw [h0] at h
    simp only at h
    exact sweepFrom_closed (addStarts_wf hwf h0) (fun i1 hi1 => by omega) (by omega) h

/-! ### Termination of the sweep without wildcard terms -/

theorem freshChart_lenBound (L : Nat) (gs : List Grammar) (starts toks : List String) :
    (freshChart gs starts toks).LenBound L := by
  intro i c h
  rw [(freshChart_column gs starts toks i c h).2]
  simp

theorem addStarts_lenBound {L : Nat} {p p0 : Parse} (hL : p.LenBound L)
    (h : p.addStarts = some p0) : p0.LenBound (L + p.starts.length) := by
  obtain ⟨col0, cols, hcols, rfl⟩ := addStarts_spec h
  intro i c hc
  cases i with
  | zero =>
    simp only [List.get?_cons_zero, Option.some.injEq] at hc
    subst hc
    have h0 := hL 0 col0 (by rw [hcols]; rfl)
    simp only [List.length_append, List.length_map]
    have hmono : col0.states.toFinset.card ≤
        (col0.states ++ List.map gammaState p.starts).toFinset.card := by
      apply Finset.card_le_card
      intro s hs
      rw [List.mem_toFinset] at hs ⊢
      exact List.mem_append_left _ hs
    omega
  | succ i =>
    simp only [List.get?_cons_succ] at hc
    have := hL (i + 1) c (by rw [hcols]; simpa using hc)
    omega

theorem addStarts_isSome {p : Parse} (h : p.columns ≠ []) : ∃ p0, p.addStarts = some p0 := by
  unfold Parse.addStarts
  cases hc : p.columns with
  | nil => exact absurd hc h
  | cons c cs => exact ⟨_, rfl⟩

theorem addStarts_fields {p p0 : Parse} (h : p.addStarts = some p0) :
    p0.grammars = p.grammars ∧ p0.starts = p.starts ∧ p0.columns.length = p.columns.length := by
  obtain ⟨col0, cols, hcols, rfl⟩ := addStarts_spec h
  simp [hcols]

theorem sweep_total {gs : List Grammar} {starts : List String} {L : Nat} {p : Parse}
    (hw : WildcardFree gs) (hgs : p.grammars = gs) (hst : p.starts = starts) (hwf : p.WF)
    (hP : p.AllStates (ItemState gs starts)) (hL : p.LenBound L) (hne : p.columns ≠ [])
    (fuel : Nat)
    (hfuel : L + starts.length + (allItems gs starts p.columns.length).length < fuel) :
    ∃ p0 q, p.addStarts = some p0 ∧ p.sweep fuel = .ok q ∧ Reach (fun _ => True) p0 q ∧
      q.WF ∧ q.AllStates (ItemState gs starts) := by
  obtain ⟨p0, h0⟩ := addStarts_isSome hne
  obtain ⟨hg0, hs0, hl0⟩ := addStarts_fields h0
  have hwf0 := addStarts_wf hwf h0
  have hP0 : p0.AllStates (ItemState gs starts) := addStarts_allStates hP
    (fun s hs => gammaState_item gs starts s (by rw [← hst]; exact hs)) h0
  have hL0 := addStarts_lenBound hL h0
  rw [hst] at hL0
  have hB : ∀ q k, Reach (fun _ => True) p0 q →
      q.colLength k ≤ L + starts.length + (allItems gs starts p.columns.length).length := by
    intro q k hr
    have := colLength_bound (hr.wf hwf0) (hr.items hw (by rw [hg0, hgs]) hwf0 hP0)
      (hr.lenBound hL0) k
    rw [hr.toExt.length, hl0] at this
    exact this
  obtain ⟨q, hq⟩ := @sweepFrom_total fuel _ p0.columns.length p0 0 hwf0 (by omega) hB hfuel
  have hsw : p.sweep fuel = .ok q := by
    unfold Parse.sweep
    rw [h0]
    exact hq
  obtain ⟨p0', h0', -, hr, hwfq⟩ := sweep_reach hwf hsw
  rw [h0] at h0'
  cases h0'
  exact ⟨p0, q, h0, hsw, hr, hwfq, hr.items hw (by rw [hg0, hgs]) hwf0 hP0⟩

/-! ### Empty input and nullable start symbols -/

theorem columnClosed_of_closedAt {q : Parse} {i : Nat} (hwf : q.WF)
    (hcl : ∀ st, q.InCol i st → q.ClosedAt i st)
    (hscan : ∀ st term col1, q.InCol i st → st.isAny = false →
      st.getNextTerm = some (some term) → term.Type_ = .Terminal →
      q.columns.get? (i + 1) = some col1 → term.Value = col1.token →
      q.InCol (i + 1) (stamp (i + 1) (advanced st))) : ColumnClosed q i := by
  refine ⟨?_, ?_, hscan⟩
  · intro state st term hin ha hdone hst hsta hnext hty hval
    obtain ⟨col, hc, hm⟩ := hin
    have hgood := hwf.2 i col hc state hm
    obtain ⟨colk, hck, hmk⟩ := hst
    have hk : q.column state.Start = some colk := by
      unfold Parse.column
      simp only [show ¬ state.Start < 0 by have := hgood.2.1; omega, if_false]
      exact hck
    have hp := (hcl state ⟨col, hc, hm⟩).1 hdone colk hk (advanced st)
      (completions_mem hmk hnext (Or.inr ⟨hty, hval⟩))
    exact present_inCol hp (by simpa [advanced] using hsta)
  · intro st term g r body hin ha hnext hty hg hr hbody
    obtain ⟨col, hc, hm⟩ := hin
    have hidx := hwf.1 i col hc
    have hp := (hcl st ⟨col, hc, hm⟩).2 term hnext hty col hc
      (predictedState r.Name col.index body)
      (mem_predictTargets.mpr ⟨g, hg, r, hr, body, hbody, rfl⟩)
    rw [hidx] at hp
    exact present_inCol hp rfl

theorem gammaState_inCol {p p0 : Parse} (h : p.addStarts = some p0) {start : String}
    (hs : start ∈ p.starts) : p0.InCol 0 (gammaState start) := by
  obtain ⟨col0, cols, hcols, rfl⟩ := addStarts_spec h
  refine ⟨_, rfl, ?_⟩
  simp only [List.mem_append, List.mem_map]
  exact Or.inr ⟨start, hs, rfl⟩

theorem mem_allAccepting {q : Parse} {s : TableState} :
    s ∈ q.allAccepting ↔ ∃ i, q.InCol i s ∧ isAccepting s = true := by
  simp only [Parse.allAccepting, List.mem_flatMap, List.mem_reverse, List.mem_filter]
  constructor
  · rintro ⟨c, hc, hm, hacc⟩
    obtain ⟨i, hi⟩ := List.mem_iff_get?.mp hc
    exact ⟨i, ⟨c, hi, hm⟩, hacc⟩
  · rintro ⟨i, ⟨c, hc, hm⟩, hacc⟩
    exact ⟨c, List.get?_mem hc, hm, hacc⟩

theorem wildcardFree_of_check (gs : List Grammar) (h : wildcardFreeCheck gs = true) :
    WildcardFree gs := by
  intro g hg key r hr body hb t ht
  simp only [wildcardFreeCheck, List.all_eq_true, decide_eq_true_eq] at h
  exact h g hg (key, r) (lookup_mem hr) body hb t ht

theorem namesMatch_of_check (gs : List Grammar) (h : namesMatchCheck gs = true) :
    NamesMatch gs := by
  intro g hg key r hr
  simp only [namesMatchCheck, List.all_eq_true, decide_eq_true_eq] at h
  exact h g hg (key, r) (lookup_mem hr)

/-- C6, all-matches mode and first-match mode: over grammars without wildcard
terms whose rules are stored under their own names, for a start symbol `S`
deriving the empty sequence, `parse` on the fresh chart for the empty input
returns (for every large enough fuel) in all-matches mode the completed state
`ɣ → S` with `Start = End = 0`, and in first-match mode exactly one state, a
completed `GAMMA_RULE` state with `Start = End = 0`. -/
theorem parse_nullable_start (gs : List Grammar) (starts : List String) (S : String)
    (hw : WildcardFree gs) (hn : NamesMatch gs) (hS : S ∈ starts)
    (hder : Derives gs [nTerm S] []) :
    ∃ B, ∀ fuel, B < fuel →
      (∃ q ret, (freshChart gs starts []).parse fuel false = .ok (q, ret) ∧
        ({ Name := GAMMA_RULE, Rb := some (gammaBody S), Start := 0, End := 0, dot := 1,
           isAny := false, meta := .nil } : TableState) ∈ ret) ∧
      (∃ q s, (freshChart gs starts []).parse fuel true = .ok (q, [s]) ∧
        s.Name = GAMMA_RULE ∧ s.isCompleted = some true ∧ s.Start = 0 ∧ s.End = 0) := by
  refine ⟨0 + starts.length + (allItems gs starts (freshChart gs starts []).columns.length).length,
    ?_⟩
  intro fuel hfuel
  have hwf := freshChart_wf gs starts []
  have hne : starts ≠ [] := fun h => by rw [h] at hS; cases hS
  obtain ⟨p0, q, h0, hsw, hr, hwfq, hitems⟩ := sweep_total hw rfl rfl hwf
    (freshChart_allStates _ gs starts []) (freshChart_lenBound 0 gs starts [])
    (by simp [freshChart]) fuel hfuel
  have hlen : q.columns.length = 1 := by
    rw [hr.toExt.length, (addStarts_fields h0).2.2]
    rfl
  have hgsq : q.grammars = gs := by
    rw [hr.toExt.grammars, (addStarts_fields h0).1]
    rfl
  have hclosed := sweep_closed hwf hsw
  have hcc : ∀ i, ColumnClosed q i := by
    intro i
    apply columnClosed_of_closedAt hwfq (hclosed i)
    intro st term col1 hin _ _ _ hc1 _
    obtain ⟨c, hc, -⟩ := hin
    have h1 := get?_lt hc
    have h2 := get?_lt hc1
    omega
  have hg0 : q.InCol 0 (item GAMMA_RULE (gammaBody S) 0 0 0) :=
    hr.toExt.inCol (gammaState_inCol h0 hS)
  have hfin := derives_advance hw hn hgsq hitems hcc hder 0 GAMMA_RULE (gammaBody S) 0 0 []
    hg0 (by simp [gammaBody, nTerm]) (Nat.zero_le _) (by intro n tok h; simp at h)
  simp only [List.length_nil, Nat.add_zero, List.length_singleton, Nat.zero_add] at hfin
  have hacc : item GAMMA_RULE (gammaBody S) 0 0 1 ∈ q.allAccepting :=
    mem_allAccepting.mpr ⟨0, hfin, by
      rw [isAccepting_iff]
      exact ⟨rfl, item_isCompleted (by simp [gammaBody])⟩⟩
  constructor
  · refine ⟨{ q with finalStates := q.allAccepting }, q.allAccepting, ?_, hacc⟩
    rw [parse_unfold _ fuel false hne, hsw]
    simp only [accept_false_wf hwfq]
  · cases hall : q.allAccepting with
    | nil => rw [hall] at hacc; cases hacc
    | cons s t =>
      have hs : s ∈ q.allAccepting := by rw [hall]; exact List.mem_cons_self _ _
      obtain ⟨i, ⟨c, hc, hm⟩, hsacc⟩ := mem_allAccepting.mp hs
      have hi : i = 0 := by have := get?_lt hc; omega
      subst hi
      have hgood := hwfq.2 0 c hc s hm
      have hpf : (freshChart gs starts []).parse fuel true =
          .ok ({ q with finalStates := q.allAccepting.take 1 }, q.allAccepting.take 1) := by
        rw [parse_unfold _ fuel true hne, hsw]
        simp only [accept_true_wf hwfq]
      rw [hall] at hpf
      refine ⟨_, s, hpf, ((isAccepting_iff s).mp hsacc).1, ((isAccepting_iff s).mp hsacc).2, ?_,
        hgood.1⟩
      have := hgood.2.1
      have := hgood.2.2.1
      omega

/-- Witness of C6: `S → A A`, `A → ε` over the empty input. -/
theorem parse_nullable_start_witness :
    ∃ B, ∀ fuel, B < fuel →
      (∃ q ret, nullableChart.parse fuel false = .ok (q, ret) ∧
        ({ Name := GAMMA_RULE, Rb := some (gammaBody "S"), Start := 0, End := 0, dot := 1,
           isAny := false, meta := .nil } : TableState) ∈ ret) ∧
      (∃ q s, nullableChart.parse fuel true = .ok (q, [s]) ∧
        s.Name = GAMMA_RULE ∧ s.isCompleted = some true ∧ s.Start = 0 ∧ s.End = 0) :=
  parse_nullable_start _ ["S"] "S" (wildcardFree_of_check _ (by decide))
    (namesMatch_of_check _ (by decide))
    (by simp)
    (by
      have hA : Derives [{ Rules := [plainRule "S" [[nTerm "A", nTerm "A"]],
          plainRule "A" [[]]] }] [nTerm "A", nTerm "A"] ([] ++ ([] ++ [])) :=
        Derives.nonterminal _ _ _ { Name := "A", Body := [{ Terms := [], F := none }] }
          { Terms := [], F := none } [] _ rfl (List.mem_singleton_self _) (by rfl)
          (List.mem_singleton_self _) Derives.nil
          (Derives.nonterminal _ _ _ { Name := "A", Body := [{ Terms := [], F := none }] }
            { Terms := [], F := none } [] _ rfl (List.mem_singleton_self _) (by rfl)
            (List.mem_singleton_self _) Derives.nil Derives.nil)
      exact Derives.nonterminal (nTerm "S") [] _
        { Name := "S", Body := [{ Terms := [nTerm "A", nTerm "A"], F := none }] }
        { Terms := [nTerm "A", nTerm "A"], F := none } [] [] rfl (List.mem_singleton_self _)
        (by rfl) (List.mem_singleton_self _) hA Derives.nil)

/-- Counterexample to C6 as stated for either mode: with the start symbols
`A → ε` and `B → ε` and the empty input, `B` derives the empty sequence and
first-match mode returns only the accepting state for `A`. -/
theorem parse_nullable_start_counterexample :
    Derives twoNullableChart.grammars [nTerm "B"] [] ∧
    ∃ q, twoNullableChart.parse 10 true =
      .ok (q, [{ Name := GAMMA_RULE, Rb := some (gammaBody "A"), Start := 0, End := 0,
                 dot := 1, isAny := false, meta := .nil }]) :=
  ⟨Derives.nonterminal (nTerm "B") [] _ { Name := "B", Body := [{ Terms := [], F := none }] }
      { Terms := [], F := none } [] [] rfl (List.mem_singleton_self _) (by rfl)
      (List.mem_singleton_self _) Derives.nil Derives.nil,
    _, by rfl⟩

/-! ### Soundness without wildcard terms -/

theorem gammaReserved_of_check (gs : List Grammar) (starts : List String)
    (h : gammaReservedCheck gs starts = true) : GammaReserved gs starts := by
  simp only [gammaReservedCheck, Bool.and_eq_true, decide_eq_true_eq, List.all_eq_true] at h
  refine ⟨h.1, ?_⟩
  intro g hg key r hr
  have := h.2 g hg (key, r) (lookup_mem hr)
  exact ⟨this.1, fun body hb t ht => this.2 body hb t ht⟩

theorem Derives.append {gs : List Grammar} {ts1 ts2 : List Term} {w1 w2 : List String}
    (h1 : Derives gs ts1 w1) (h2 : Derives gs ts2 w2) : Derives gs (ts1 ++ ts2) (w1 ++ w2) := by
  induction h1 with
  | nil => simpa using h2
  | terminal t ts v hty _ ih => exact Derives.terminal t _ _ hty ih
  | nonterminal t ts g r body u v hty hg hr hb hd _ _ ih2 =>
    rw [List.cons_append, List.append_assoc]
    exact Derives.nonterminal t _ g r body u _ hty hg hr hb hd ih2
  | anyUnbounded t ts u v hty hm hl _ ih =>
    rw [List.cons_append, List.append_assoc]
    exact Derives.anyUnbounded t _ u _ hty hm hl ih
  | anyBounded t ts m u v hty hm h1 h2 _ ih =>
    rw [List.cons_append, List.append_assoc]
    exact Derives.anyBounded t _ m u _ hty hm h1 h2 ih

theorem span_self (toks : List String) (k : Nat) : span toks k k = [] := by
  simp [span]

theorem span_append (toks : List String) {k j i : Nat} (hkj : k ≤ j) (hji : j ≤ i) :
    span toks k j ++ span toks j i = span toks k i := by
  unfold span
  have h1 : i - k = (j - k) + (i - j) := by omega
  rw [h1, List.take_add, List.drop_drop]
  congr 3
  omega

theorem span_succ (toks : List String) {k i : Nat} {tok : String} (hki : k ≤ i)
    (h : toks.get? i = some tok) : span toks k (i + 1) = span toks k i ++ [tok] := by
  rw [← span_append toks hki (Nat.le_succ i)]
  congr 1
  unfold span
  have hlt := get?_lt h
  simp only [List.get?_eq_getElem?] at h
  rw [List.getElem?_eq_getElem hlt] at h
  cases h
  rw [show i + 1 - i = 1 by omega, List.drop_eq_getElem_cons hlt]
  rfl

theorem take_succ_of_get? {α : Type} {l : List α} {d : Nat} {a : α} (h : l.get? d = some a) :
    l.take (d + 1) = l.take d ++ [a] := by
  simp only [List.get?_eq_getElem?] at h
  rw [List.take_succ, h]
  rfl

theorem sound_step {gs : List Grammar} {starts toks : List String} (hw : WildcardFree gs)
    (hn : NamesMatch gs) (hres : GammaReserved gs starts) {q : Parse} (hgs : q.grammars = gs)
    (hwf : q.WF) (htok : q.HasTokens toks) (hP : q.AllStates (SoundItem gs starts toks))
    {i : Nat} {s : TableState} (hg : Gen q i s) : SoundItem gs starts toks i (stamp i s) := by
  have hitems : q.AllStates (ItemState gs starts) := fun i c hc s hs => (hP i c hc s hs).1
  refine ⟨item_step hw hgs hitems hg, ?_⟩
  cases hg with
  | predictRule i col st term g r prod hc hmem ht hty hg hr hp =>
    refine ⟨prod, rfl, ?_⟩
    have hidx := hwf.1 i col hc
    simp only [stamp, hidx, Int.toNat_zero, List.take_zero, Int.toNat_ofNat, span_self]
    exact Derives.nil
  | predictAny i col st term hc hmem hna ht hty =>
    exact absurd hty (item_next_not_any hw (hitems i col hc st hmem) ht)
  | scanAny i col st hc hmem hst hmeta hlen =>
    have := (hitems i col hc st hmem).1
    rw [hst] at this
    cases this
  | scanTerminal i col col1 st term hc hmem hna ht hty hc1 htk =>
    obtain ⟨-, rb, hrb, hder⟩ := hP i col hc st hmem
    obtain ⟨rb1, hrb1, hd0, hdlt, hget, -⟩ := getNextTerm_nonwild hna ht
    rw [hrb] at hrb1
    cases hrb1
    have hgood := hwf.2 i col hc st hmem
    refine ⟨rb, hrb, ?_⟩
    simp only [stamp]
    have hdot : (st.dot + 1).toNat = st.dot.toNat + 1 := by omega
    rw [hdot, take_succ_of_get? hget,
      span_succ toks (by have := hgood.2.2.1; omega) (htok i col1 hc1)]
    apply hder.append
    rw [← htk]
    exact Derives.terminal term [] [] hty Derives.nil
  | complete i col state colk st term hc hmem hdone hk hmk ht hty =>
    obtain ⟨hk0, hck⟩ := Parse.column_some hk
    obtain ⟨hitem_st, rb, hrb, hder⟩ := hP _ colk hck st hmk
    obtain ⟨hitem_state, rbs, hrbs, hders⟩ := hP i col hc state hmem
    have hna := hitem_st.1
    obtain ⟨rb1, hrb1, hd0, hdlt, hget, -⟩ := getNextTerm_nonwild hna ht
    rw [hrb] at hrb1
    cases hrb1
    have hgood_st := hwf.2 _ colk hck st hmk
    have hgood_state := hwf.2 i col hc state hmem
    have htynt : term.Type_ = .Nonterminal ∧ term.Value = state.Name := by
      rcases hty with hany | h
      · exact absurd hany (item_next_not_any hw hitem_st ht)
      · exact h
    have hmem_term : term ∈ rb.Terms := List.get?_mem hget
    -- the completed state is a grammar rule of the name the waiting state expects
    obtain ⟨-, -, rbs1, hrbs1, hcase⟩ := hitem_state
    rw [hrbs] at hrbs1
    cases hrbs1
    have hrule : ∃ g ∈ gs, ∃ key r, g.rule key = some r ∧ r.Name = state.Name ∧ rbs ∈ r.Body := by
      rcases hcase with ⟨hname, -, -⟩ | h
      · exfalso
        have hval : term.Value = GAMMA_RULE := by rw [htynt.2, hname]
        obtain ⟨-, -, rb2, hrb2, hcase2⟩ := hitem_st
        rw [hrb] at hrb2
        cases hrb2
        rcases hcase2 with ⟨-, -, start, hstart, rfl⟩ | ⟨g, hg, key, r, hr, -, hbody⟩
        · simp only [gammaBody, List.mem_singleton] at hmem_term
          rw [hmem_term] at hval
          simp only at hval
          rw [hval] at hstart
          exact hres.1 hstart
        · exact (hres.2 g hg key r hr).2 rb hbody term hmem_term htynt.1 hval
      · exact h
    obtain ⟨g, hg, key, r, hr, hname, hbody⟩ := hrule
    have hkey : key = term.Value := by rw [htynt.2, ← hname, hn g hg key r hr]
    subst hkey
    -- the completed state derives its whole body
    have hfull : Derives gs rbs.Terms (span toks state.Start.toNat i) := by
      have hcompl : state.dot ≥ (rbs.Terms.length : Int) := by
        unfold TableState.isCompleted at hdone
        simp only [(hP i col hc state hmem).1.1, Bool.false_eq_true, if_false, hrbs,
          Option.some.injEq, decide_eq_true_eq] at hdone
        exact hdone
      have : rbs.Terms.take state.dot.toNat = rbs.Terms := List.take_of_length_le (by omega)
      rw [this] at hders
      exact hders
    refine ⟨rb, hrb, ?_⟩
    simp only [stamp, advanced]
    have hdot : (st.dot + 1).toNat = st.dot.toNat + 1 := by omega
    rw [hdot, take_succ_of_get? hget,
      ← span_append toks (k := st.Start.toNat) (j := state.Start.toNat) (i := i)
        (by have := hgood_st.2.2.1; have := hgood_st.2.1; omega)
        (by have := hgood_state.2.2.1; omega)]
    apply hder.append
    have := Derives.nonterminal term [] g r rbs _ [] htynt.1 hg hr hbody hfull Derives.nil
    simpa using this

theorem Parse.HasTokens.carry {p q : Parse} {toks : List String} (h : p.HasTokens toks)
    (he : p.Ext q) : q.HasTokens toks := by
  intro j col hc
  have hlt : j + 1 < p.columns.length := by rw [← he.length]; exact get?_lt hc
  obtain ⟨c1, hc1, htk, -, -⟩ := he.column (j + 1) _ (List.get?_eq_get hlt)
  rw [hc] at hc1
  cases hc1
  rw [htk]
  exact h j _ (List.get?_eq_get hlt)

theorem freshChart_hasTokens (gs : List Grammar) (starts toks : List String) :
    (freshChart gs starts toks).HasTokens toks := by
  intro j col hc
  simp only [freshChart, List.get?_cons_succ] at hc
  exact (freshColumns_get? 1 toks j col hc).2.2

theorem addStarts_hasTokens {p p0 : Parse} {toks : List String} (h : p.HasTokens toks)
    (h0 : p.addStarts = some p0) : p0.HasTokens toks := by
  obtain ⟨col0, cols, hcols, rfl⟩ := addStarts_spec h0
  intro j col hc
  simp only [List.get?_cons_succ] at hc
  exact h j col (by rw [hcols]; simpa using hc)

theorem gammaState_soundItem (gs : List Grammar) (starts toks : List String) (start : String)
    (h : start ∈ starts) : SoundItem gs starts toks 0 (gammaState start) := by
  refine ⟨gammaState_item gs starts start h, gammaBody start, rfl, ?_⟩
  simp only [gammaState, Int.toNat_zero, List.take_zero, span_self]
  exact Derives.nil

theorem sweep_sound {gs : List Grammar} {starts toks : List String} (hw : WildcardFree gs)
    (hn : NamesMatch gs) (hres : GammaReserved gs starts) {fuel : Nat} {q : Parse}
    (h : (freshChart gs starts toks).sweep fuel = .ok q) :
    q.WF ∧ q.AllStates (SoundItem gs starts toks) := by
  have hwf := freshChart_wf gs starts toks
  obtain ⟨p0, h0, hwf0, hr, hwfq⟩ := sweep_reach hwf h
  have hP0 : p0.AllStates (SoundItem gs starts toks) :=
    addStarts_allStates (freshChart_allStates _ gs starts toks)
      (fun s hs => gammaState_soundItem gs starts toks s hs) h0
  have htok0 := addStarts_hasTokens (freshChart_hasTokens gs starts toks) h0
  refine ⟨hwfq, hr.allStates hwf0 hP0 ?_⟩
  intro q1 he hwf1 hP1 i s hg
  exact sound_step hw hn hres (by rw [he.grammars, (addStarts_fields h0).1]; rfl) hwf1
    (htok0.carry he) hP1 hg

/-- C2, for grammars without wildcard terms: over grammars without wildcard
terms whose rules are stored under their own names, with the name `GAMMA_RULE`
reserved, `parse` in all-matches mode on the fresh chart for the tokens `toks`
returns (for every large enough fuel), and every state it returns is the
completed state `ɣ → S` of a start symbol `S`, starting at `0`, whose `End = e`
is such that the first `e` tokens are derivable from `S`. -/
theorem parse_sound_without_wildcards (gs : List Grammar) (starts toks : List String)
    (hw : WildcardFree gs) (hn : NamesMatch gs) (hres : GammaReserved gs starts) :
    (∃ B, ∀ fuel, B < fuel →
      ∃ q ret, (freshChart gs starts toks).parse fuel false = .ok (q, ret)) ∧
    (∀ fuel q ret, (freshChart gs starts toks).parse fuel false = .ok (q, ret) →
      ∀ s ∈ ret, ∃ S ∈ starts, ∃ e : Nat, e ≤ toks.length ∧
        s = { Name := GAMMA_RULE, Rb := some (gammaBody S), Start := 0, End := (e : Int),
              dot := 1, isAny := false, meta := .nil } ∧
        Derives gs [nTerm S] (toks.take e)) := by
  have hwf := freshChart_wf gs starts toks
  constructor
  · refine ⟨0 + starts.length +
      (allItems gs starts (freshChart gs starts toks).columns.length).length, ?_⟩
    intro fuel hfuel
    by_cases hne : starts = []
    · exact ⟨freshChart gs starts toks, [], by simp [Parse.parse, freshChart, hne]⟩
    · obtain ⟨p0, q, h0, hsw, hr, hwfq, hitems⟩ := sweep_total hw rfl rfl hwf
        (freshChart_allStates _ gs starts toks) (freshChart_lenBound 0 gs starts toks)
        (by simp [freshChart]) fuel hfuel
      refine ⟨{ q with finalStates := q.allAccepting }, q.allAccepting, ?_⟩
      rw [parse_unfold _ fuel false hne, hsw]
      simp only [accept_false_wf hwfq]
  · intro fuel q ret h s hs
    rcases parse_chart h with ⟨-, -, rfl⟩ | ⟨-, q1, hsw, hacc, -⟩
    · cases hs
    · obtain ⟨hwfq, hsound⟩ := sweep_sound hw hn hres hsw
      rw [accept_false_wf hwfq] at hacc
      cases hacc
      obtain ⟨i, ⟨col, hc, hm⟩, hsacc⟩ := mem_allAccepting.mp hs
      obtain ⟨hname, hdone⟩ := (isAccepting_iff s).mp hsacc
      obtain ⟨⟨ha, hmeta, rb, hrb, hcase⟩, rb1, hrb1, hder⟩ := hsound i col hc s hm
      rw [hrb] at hrb1
      cases hrb1
      obtain ⟨hend, hs0, hsi, hd0, hrbg⟩ := hwfq.2 i col hc s hm
      have hlen : q1.columns.length = toks.length + 1 := by
        obtain ⟨p0, h0, -, hr, -⟩ := sweep_reach hwf hsw
        rw [hr.toExt.length, (addStarts_fields h0).2.2]
        simp [freshChart, freshColumns_length]
      have hi := get?_lt hc
      rcases hcase with ⟨-, hstart, S, hS, rfl⟩ | ⟨g, hg, key, r, hr, hrname, -⟩
      · refine ⟨S, hS, i, by omega, ?_, ?_⟩
        · obtain ⟨rb2, hrb2, hdle⟩ := hrbg ha
          rw [hrb] at hrb2
          cases hrb2
          have hdge : s.dot ≥ 1 := by
            unfold TableState.isCompleted at hdone
            simp only [ha, Bool.false_eq_true, if_false, hrb, Option.some.injEq,
              decide_eq_true_eq] at hdone
            simpa [gammaBody] using hdone
          have hdle1 : s.dot ≤ 1 := by simpa [gammaBody] using hdle
          cases s
          simp only at hname hrb hstart hend ha hmeta hdge hdle1
          simp only [TableState.mk.injEq]
          exact ⟨hname, hrb, hstart, hend, by omega, ha, hmeta⟩
        · have hdot : s.dot.toNat ≥ 1 := by
            unfold TableState.isCompleted at hdone
            simp only [ha, Bool.false_eq_true, if_false, hrb, Option.some.injEq,
              decide_eq_true_eq] at hdone
            have : s.dot ≥ 1 := by simpa [gammaBody] using hdone
            omega
          have htake : (gammaBody S).Terms.take s.dot.toNat = [nTerm S] := by
            rw [List.take_of_length_le (by simpa [gammaBody] using hdot)]
            rfl
          rw [htake, hstart] at hder
          simpa [span] using hder
      · exact absurd (hrname.trans hname) (hres.2 g hg key r hr).1

theorem derives_any_positive {gs : List Grammar} {ts : List Term} {w : List String}
    (h : Derives gs ts w) :
    ∀ t ∈ ts, t.Type_ = .Any → t.Meta = .nil → 0 < w.length := by
  induction h with
  | nil => intro t ht; cases ht
  | terminal t ts v hty _ ih =>
    intro t1 ht1 hany hmeta
    simp only [List.length_cons]
    omega
  | nonterminal t ts g r body u v hty hg hr hb _ _ _ ih2 =>
    intro t1 ht1 hany hmeta
    rcases List.mem_cons.mp ht1 with rfl | hmem
    · rw [hty] at hany; cases hany
    · have := ih2 t1 hmem hany hmeta
      simp only [List.length_append]
      omega
  | anyUnbounded t ts u v hty hm hl _ ih =>
    intro t1 ht1 hany hmeta
    simp only [List.length_append]
    omega
  | anyBounded t ts m u v hty hm h1 h2 _ ih =>
    intro t1 ht1 hany hmeta
    rcases List.mem_cons.mp ht1 with rfl | hmem
    · rw [hm] at hmeta; cases hmeta
    · have := ih t1 hmem hany hmeta
      simp only [List.length_append]
      omega

theorem derives_single_nonterminal {gs : List Grammar} {t : Term} {w : List String}
    (h : Derives gs [t] w) (hty : t.Type_ = .Nonterminal) :
    ∃ g ∈ gs, ∃ r body, g.rule t.Value = some r ∧ body ∈ r.Body ∧ Derives gs body.Terms w := by
  cases h with
  | terminal _ _ v hty1 _ => rw [hty] at hty1; cases hty1
  | nonterminal _ _ g r body u v _ hg hr hb hd hrest =>
    cases hrest
    exact ⟨g, hg, r, body, hr, hb, by simpa using hd⟩
  | anyUnbounded _ _ u v hty1 _ _ _ => rw [hty] at hty1; cases hty1
  | anyBounded _ _ m u v hty1 _ _ _ _ => rw [hty] at hty1; cases hty1

/-- Counterexample to C2: with `S → E any`, `E → ε` and the empty input,
all-matches mode returns the completed state `ɣ → S` with `End = 0`, although
`S` does not derive the empty sequence (its wildcard needs one token). -/
theorem parse_sound_counterexample :
    (∃ q, emptyAnyChart.parse 10 false =
      .ok (q, [{ Name := GAMMA_RULE, Rb := some (gammaBody "S"), Start := 0, End := 0,
                 dot := 1, isAny := false, meta := .nil }])) ∧
    ¬ Derives emptyAnyChart.grammars [nTerm "S"] (([] : List String).take 0) := by
  refine ⟨⟨_, by rfl⟩, ?_⟩
  intro h
  obtain ⟨g, hg, r, body, hr, hb, hd⟩ := derives_single_nonterminal h rfl
  simp only [emptyAnyChart, freshChart, List.mem_singleton] at hg
  subst hg
  have hr' : r = (plainRule "S" [[nTerm "E", anyTerm .nil]]).2 := by
    have : Grammar.rule { Rules := [plainRule "S" [[nTerm "E", anyTerm .nil]],
        plainRule "E" [[]]] } (nTerm "S").Value =
        some (plainRule "S" [[nTerm "E", anyTerm .nil]]).2 := by rfl
    rw [this] at hr
    cases hr
    rfl
  subst hr'
  simp only [plainRule, List.map, List.mem_singleton] at hb
  subst hb
  have := derives_any_positive hd (anyTerm .nil) (by simp) rfl rfl
  simp at this

/-- Witness of C2 as amended: `S → "a" S | "a"` over the input `a a`. -/
theorem parse_sound_without_wildcards_witness :
    (∃ B, ∀ fuel, B < fuel → ∃ q ret, repeatChart.parse fuel false = .ok (q, ret)) ∧
    (∀ fuel q ret, repeatChart.parse fuel false = .ok (q, ret) →
      ∀ s ∈ ret, ∃ S ∈ ["S"], ∃ e : Nat, e ≤ ["a", "a"].length ∧
        s = { Name := GAMMA_RULE, Rb := some (gammaBody S), Start := 0, End := (e : Int),
              dot := 1, isAny := false, meta := .nil } ∧
        Derives repeatChart.grammars [nTerm S] (["a", "a"].take e)) :=
  parse_sound_without_wildcards _ ["S"] ["a", "a"] (wildcardFree_of_check _ (by decide))
    (namesMatch_of_check _ (by decide)) (gammaReserved_of_check _ _ (by decide))

/-! ### Completeness without wildcard terms and empty bodies -/

theorem epsilonFree_of_check (gs : List Grammar) (h : epsilonFreeCheck gs = true) :
    EpsilonFree gs := by
  intro g hg key r hr body hb
  simp only [epsilonFreeCheck, List.all_eq_true, decide_eq_true_eq] at h
  exact h g hg (key, r) (lookup_mem hr) body hb

theorem uniqueDef_of_check (gs : List Grammar) (h : uniqueDefCheck gs = true) :
    ∀ key, UniqueDef gs key := by
  intro key g1 hg1 g2 hg2 h1 h2
  simp only [uniqueDefCheck, List.all_eq_true, Bool.or_eq_true, decide_eq_true_eq,
    Option.isNone_iff_eq_none] at h
  rcases h g1 hg1 g2 hg2 with heq | hnone
  · exact heq
  · cases hr : g1.rule key with
    | none => exact absurd hr h1
    | some r => exact absurd (hnone (key, r) (lookup_mem hr)) h2

theorem item_completed_pos {gs : List Grammar} {starts : List String} (he : EpsilonFree gs)
    {i : Nat} {s : TableState} (hitem : ItemState gs starts i s)
    (hdone : s.isCompleted = some true) : 0 < s.dot := by
  obtain ⟨ha, -, rb, hrb, hcase⟩ := hitem
  unfold TableState.isCompleted at hdone
  simp only [ha, Bool.false_eq_true, if_false, hrb, Option.some.injEq,
    decide_eq_true_eq] at hdone
  have hne : rb.Terms ≠ [] := by
    rcases hcase with ⟨-, -, start, -, rfl⟩ | ⟨g, hg, key, r, hr, -, hbody⟩
    · simp [gammaBody]
    · exact he g hg key r hr rb hbody
  have : 0 < rb.Terms.length := List.length_pos.mpr hne
  omega

theorem pos_step {gs : List Grammar} {starts : List String} (hw : WildcardFree gs)
    (he : EpsilonFree gs) {q : Parse} (hgs : q.grammars = gs) (hwf : q.WF)
    (hP : q.AllStates (PosItem gs starts)) {i : Nat} {s : TableState} (hg : Gen q i s) :
    PosItem gs starts i (stamp i s) := by
  have hitems : q.AllStates (ItemState gs starts) := fun i c hc s hs => (hP i c hc s hs).1
  refine ⟨item_step hw hgs hitems hg, ?_⟩
  cases hg with
  | predictRule i col st term g r prod hc hmem ht hty hg hr hp =>
    intro h
    simp [stamp] at h
  | predictAny i col st term hc hmem hna ht hty =>
    intro h
    simp [stamp] at h
  | scanAny i col st hc hmem hst hmeta hlen =>
    intro _
    have := (hwf.2 i col hc st hmem).2.2.1
    simp only [stamp]
    push_cast
    omega
  | scanTerminal i col col1 st term hc hmem hna ht hty hc1 htok =>
    intro _
    have := (hwf.2 i col hc st hmem).2.2.1
    simp only [stamp]
    push_cast
    omega
  | complete i col state colk st term hc hmem hdone hk hmk ht hty =>
    intro _
    obtain ⟨hk0, hck⟩ := Parse.column_some hk
    have hgst := (hwf.2 _ colk hck st hmk).2.2.1
    have hpos := (hP i col hc state hmem).2
      (item_completed_pos he (hP i col hc state hmem).1 hdone)
    simp only [stamp, advanced]
    omega

theorem doneState_stable {p q : Parse} {i : Nat} {st : TableState}
    (hr : Reach (fun k => k = i ∨ k = i + 1) p q) (hd : p.DoneState i st) :
    q.DoneState i st := by
  intro ha
  obtain ⟨h1, h2, h3⟩ := hd ha
  refine ⟨?_, ?_, ?_⟩
  · intro hdone hlt colk hk s hs
    have hk' : p.column st.Start = some colk := by
      obtain ⟨h0, hget⟩ := Parse.column_some hk
      unfold Parse.column
      simp only [show ¬ st.Start < 0 by omega, if_false]
      rw [← hr.unchanged (k := st.Start.toNat) (by omega)]
      exact hget
    exact (h1 hdone hlt colk hk' s hs).extend hr.toExt
  · intro term ht hty col hc s hs
    have hlt : i < p.columns.length := by rw [← hr.toExt.length]; exact get?_lt hc
    obtain ⟨c1, hc1, -, hidx, -⟩ := hr.toExt.column i _ (List.get?_eq_get hlt)
    rw [hc] at hc1
    cases hc1
    rw [hr.toExt.grammars, hidx] at hs
    exact (h2 term ht hty _ (List.get?_eq_get hlt) s hs).extend hr.toExt
  · intro term ht hty col1 hc1 htok
    have hlt : i + 1 < p.columns.length := by rw [← hr.toExt.length]; exact get?_lt hc1
    obtain ⟨c1, hc1', htk, -, -⟩ := hr.toExt.column (i + 1) _ (List.get?_eq_get hlt)
    rw [hc1] at hc1'
    cases hc1'
    exact (h3 term ht hty _ (List.get?_eq_get hlt) (by rw [← htk]; exact htok)).extend hr.toExt

theorem processState_done {p q : Parse} (hwf : p.WF) (hu : ∀ key, UniqueDef p.grammars key)
    {i : Nat} {st : TableState} (hs : p.InCol i st) (h : p.processState i st = some q) :
    Reach (fun k => k = i ∨ k = i + 1) p q ∧ q.DoneState i st := by
  obtain ⟨q1, hq1, hr, hproc⟩ := processState_post hwf hs
  rw [h] at hq1
  cases hq1
  refine ⟨hr, ?_⟩
  intro ha
  obtain ⟨col, hc, hm⟩ := hs
  have hgood := hwf.2 i col hc st hm
  have hklt : st.Start.toNat < p.columns.length := by
    have := hgood.2.1
    have := hgood.2.2.1
    have := get?_lt hc
    omega
  have hk : p.column st.Start = some (p.columns.get ⟨_, hklt⟩) := by
    unfold Parse.column
    simp only [show ¬ st.Start < 0 by have := hgood.2.1; omega, if_false]
    exact List.get?_eq_get hklt
  obtain ⟨h1, h2, h3⟩ := hproc _ hk ha
  refine ⟨?_, ?_, h3⟩
  · intro hdone hlt colk hkq
    have : colk = p.columns.get ⟨_, hklt⟩ := by
      obtain ⟨h0, hget⟩ := Parse.column_some hkq
      rw [hr.unchanged (k := st.Start.toNat) (by omega), List.get?_eq_get hklt] at hget
      cases hget
      rfl
    rw [this]
    exact h1 hdone
  · intro term ht hty col1 hc1
    exact h2 term ht hty (by rw [hr.toExt.grammars]; exact hu term.Value) col1 hc1

theorem columnLoop_done {p q : Parse} {fuel i : Nat} (hwf : p.WF)
    (hu : ∀ key, UniqueDef p.grammars key) (h : Parse.columnLoop fuel p i 0 = .ok q) :
    Reach (fun k => k = i ∨ k = i + 1) p q ∧ ∀ st, q.InCol i st → q.DoneState i st := by
  obtain ⟨hr, j1, hj1, hJ⟩ := @columnLoop_post
    (fun q j => p.Ext q ∧ ∀ j1 < j, ∀ col st, q.columns.get? i = some col →
      col.states.get? j1 = some st → q.DoneState i st) i
    (by
      intro p1 j col st q1 hwf1 hJ hc hst hps hr1
      obtain ⟨hext, hJ⟩ := hJ
      refine ⟨hext.etrans hr1.toExt, ?_⟩
      intro j1 hj1 col1 st1 hc1 hst1
      obtain ⟨c2, hc2, -, -, t, hstates⟩ := hr1.toExt.column i col hc
      rw [hc1] at hc2
      cases hc2
      by_cases hlast : j1 = j
      · subst hlast
        have : st1 = st := by
          simp only [List.get?_eq_getElem?] at hst hst1
          rw [hstates, List.getElem?_append_left (by
            by_contra hcon
            rw [List.getElem?_eq_none (by omega)] at hst
            cases hst), hst] at hst1
          cases hst1
          rfl
        subst this
        exact (processState_done hwf1 (by rw [hext.grammars]; exact hu)
          ⟨col, hc, List.get?_mem hst⟩ hps).2
      · have hlt : j1 < j := by omega
        have hold : col.states.get? j1 = some st1 := by
          have hjlt := get?_lt hst
          simp only [List.get?_eq_getElem?] at hst1 ⊢
          rw [hstates, List.getElem?_append_left (by omega)] at hst1
          exact hst1
        exact doneState_stable hr1 (hJ j1 hlt col st1 hc hold))
    fuel p 0 q hwf ⟨Parse.Ext.refl _, fun j1 hj1 => by omega⟩ h
  refine ⟨hr, ?_⟩
  rintro st ⟨col, hc, hm⟩
  obtain ⟨n, hn⟩ := List.mem_iff_get?.mp hm
  have hlt := get?_lt hn
  rw [← colLength_eq hc] at hlt
  exact hJ.2 n (by omega) col st hc hn

theorem closedAt_of_done {gs : List Grammar} {starts : List String} (he : EpsilonFree gs)
    {q : Parse} {i : Nat} {st : TableState} (hpos : PosItem gs starts i st)
    (hd : q.DoneState i st) : q.ClosedAt i st := by
  obtain ⟨h1, h2, -⟩ := hd hpos.1.1
  exact ⟨fun hdone => h1 hdone (hpos.2 (item_completed_pos he hpos.1 hdone)), h2⟩

theorem columnClosed_stable {C : Nat → Prop} {p q : Parse} {i : Nat}
    (hr : Reach C p q) (hC : ∀ k, C k → i < k) (hwf : p.WF) (hcc : ColumnClosed p i) :
    ColumnClosed q i := by
  have hnot : ∀ k, k ≤ i → ¬ C k := fun k hk hck => by have := hC k hck; omega
  have hback : ∀ k, k ≤ i → ∀ s, q.InCol k s → p.InCol k s := by
    rintro k hk s ⟨c, hc, hm⟩
    exact ⟨c, by rw [← hr.unchanged (hnot k hk)]; exact hc, hm⟩
  refine ⟨?_, ?_, ?_⟩
  · intro state st term hin ha hdone hst hsta hnext hty hval
    have hin' := hback i (le_refl _) state hin
    obtain ⟨col, hc, hm⟩ := hin'
    have hgood := hwf.2 i col hc state hm
    have hst' := hback state.Start.toNat (by have := hgood.2.2.1; omega) st hst
    exact hr.toExt.inCol (hcc.complete state st term ⟨col, hc, hm⟩ ha hdone hst' hsta hnext
      hty hval)
  · intro st term g r body hin ha hnext hty hg hr1 hbody
    exact hr.toExt.inCol (hcc.predict st term g r body (hback i (le_refl _) st hin) ha hnext hty
      (by rw [← hr.toExt.grammars]; exact hg) hr1 hbody)
  · intro st term col1 hin ha hnext hty hc1 htok
    have hlt : i + 1 < p.columns.length := by rw [← hr.toExt.length]; exact get?_lt hc1
    obtain ⟨c1, hc1', htk, -, -⟩ := hr.toExt.column (i + 1) _ (List.get?_eq_get hlt)
    rw [hc1] at hc1'
    cases hc1'
    exact hr.toExt.inCol (hcc.scan st term _ (hback i (le_refl _) st hin) ha hnext hty
      (List.get?_eq_get hlt) (by rw [← htk]; exact htok))

theorem Reach.posItems {C : Nat → Prop} {gs : List Grammar} {starts : List String}
    {p q : Parse} (hw : WildcardFree gs) (he : EpsilonFree gs) (hgs : p.grammars = gs)
    (h : Reach C p q) (hwf : p.WF) (hP : p.AllStates (PosItem gs starts)) :
    q.AllStates (PosItem gs starts) :=
  h.allStates hwf hP (fun q1 hext hwf1 hP1 _ _ hg =>
    pos_step hw he (by rw [hext.grammars, hgs]) hwf1 hP1 hg)

theorem sweepInv_step {gs : List Grammar} {starts : List String} (hw : WildcardFree gs)
    (he : EpsilonFree gs) (hu : ∀ key, UniqueDef gs key) {fuel : Nat} {p q1 q2 : Parse}
    {i : Nat} (hwf : p.WF) (hK : SweepInv gs starts p i)
    (h1 : Parse.columnLoop fuel p i 0 = .ok q1) (h2 : Parse.handleEpsilons fuel q1 i = .ok q2) :
    SweepInv gs starts q2 (i + 1) := by
  obtain ⟨hgs, hP, hprev⟩ := hK
  obtain ⟨hr1, hdone⟩ := columnLoop_done hwf (by rw [hgs]; exact hu) h1
  have hwf1 := hr1.wf hwf
  have hP1 := hr1.posItems hw he hgs hwf hP
  have hgs1 : q1.grammars = gs := by rw [hr1.toExt.grammars, hgs]
  have hclosed : ∀ st, q1.InCol i st → q1.ClosedAt i st := by
    rintro st ⟨c, hc, hm⟩
    exact closedAt_of_done he (hP1 i c hc st hm) (hdone st ⟨c, hc, hm⟩)
  have hq2 : q2 = q1 := by
    cases fuel with
    | zero => simp [Parse.handleEpsilons] at h2
    | succ f =>
      have hlt : i < q1.columns.length := by
        by_contra hcon
        unfold Parse.handleEpsilons at h2
        rw [List.get?_eq_none.mpr (by omega)] at h2
        cases h2
      rw [handleEpsilons_noop f hwf1 hlt hclosed] at h2
      cases h2
      rfl
  subst hq2
  refine ⟨hgs1, hP1, ?_⟩
  intro i1 hi1
  by_cases hlast : i1 = i
  · subst hlast
    apply columnClosed_of_closedAt hwf1 hclosed
    intro st term col1 hin ha hnext hty hc1 htok
    exact present_inCol ((hdone st hin ha).2.2 term hnext hty col1 hc1 htok)
      (by simpa [advanced] using ha)
  · exact columnClosed_stable hr1 (fun k hk => by rcases hk with rfl | rfl <;> omega) hwf
      (hprev i1 (by omega))

theorem gammaState_posItem (gs : List Grammar) (starts : List String) (start : String)
    (h : start ∈ starts) : PosItem gs starts 0 (gammaState start) :=
  ⟨gammaState_item gs starts start h, fun hd => by simp [gammaState] at hd⟩

/-- C1, for grammars the work-list loop handles completely: over grammars
without wildcard terms and without empty rule bodies, whose rules are stored
under their own names and of which no two define the same nonterminal, if the
token sequence `toks` is derivable from a start symbol `S`, then `parse` in
all-matches mode on the fresh chart returns (for every large enough fuel) the
completed state `ɣ → S` with `Start = 0` and `End = len(toks)`. -/
theorem parse_complete_restricted (gs : List Grammar) (starts toks : List String) (S : String)
    (hw : WildcardFree gs) (he : EpsilonFree gs) (hn : NamesMatch gs)
    (hu : ∀ key, UniqueDef gs key) (hS : S ∈ starts) (hder : Derives gs [nTerm S] toks) :
    ∃ B, ∀ fuel, B < fuel →
      ∃ q ret, (freshChart gs starts toks).parse fuel false = .ok (q, ret) ∧
        ({ Name := GAMMA_RULE, Rb := some (gammaBody S), Start := 0,
           End := (toks.length : Int), dot := 1, isAny := false, meta := .nil } : TableState)
          ∈ ret := by
  refine ⟨0 + starts.length +
    (allItems gs starts (freshChart gs starts toks).columns.length).length, ?_⟩
  intro fuel hfuel
  have hwf := freshChart_wf gs starts toks
  have hne : starts ≠ [] := fun h => by rw [h] at hS; cases hS
  obtain ⟨p0, q, h0, hsw, hr, hwfq, hitems⟩ := sweep_total hw rfl rfl hwf
    (freshChart_allStates _ gs starts toks) (freshChart_lenBound 0 gs starts toks)
    (by simp [freshChart]) fuel hfuel
  have hwf0 := addStarts_wf hwf h0
  obtain ⟨hg0, hs0, hl0⟩ := addStarts_fields h0
  have hlen : q.columns.length = toks.length + 1 := by
    rw [hr.toExt.length, hl0]
    simp [freshChart, freshColumns_length]
  -- the sweep invariant
  have hinv : SweepInv gs starts q p0.columns.length := by
    have hsw' : Parse.sweepFrom fuel p0.columns.length p0 0 = .ok q := by
      unfold Parse.sweep at hsw
      rw [h0] at hsw
      exact hsw
    exact (@sweepFrom_post (SweepInv gs starts) fuel
      (fun p i q1 q2 hwfp hK _ h1 h2 => sweepInv_step hw he hu hwfp hK h1 h2)
      p0.columns.length p0 0 q hwf0
      ⟨by rw [hg0]; rfl,
        addStarts_allStates (freshChart_allStates _ gs starts toks)
          (fun s hs => gammaState_posItem gs starts s hs) h0,
        fun i1 hi1 => by omega⟩
      (by omega) hsw').2
  obtain ⟨hgsq, -, hclosed⟩ := hinv
  have hcc : ∀ i, ColumnClosed q i := by
    intro i
    by_cases hi : i < p0.columns.length
    · exact hclosed i hi
    · have hno : ∀ s, ¬ q.InCol i s := by
        rintro s ⟨c, hc, -⟩
        have := get?_lt hc
        rw [hr.toExt.length] at this
        exact hi this
      exact ⟨fun state _ _ hin => absurd hin (hno state),
        fun st _ _ _ _ hin => absurd hin (hno st),
        fun st _ _ hin => absurd hin (hno st)⟩
  have htoks : q.HasTokens toks :=
    (addStarts_hasTokens (freshChart_hasTokens gs starts toks) h0).carry hr.toExt
  have hgam : q.InCol 0 (item GAMMA_RULE (gammaBody S) 0 0 0) :=
    hr.toExt.inCol (gammaState_inCol h0 hS)
  have hfin := derives_advance hw hn hgsq hitems hcc hder 0 GAMMA_RULE (gammaBody S) 0 0 []
    hgam (by simp [gammaBody, nTerm]) (Nat.zero_le _) (by
      intro n tok hn
      have hlt : n + 1 < q.columns.length := by
        have := get?_lt hn
        omega
      refine ⟨q.columns.get ⟨n + 1, hlt⟩, by rw [Nat.zero_add]; exact List.get?_eq_get hlt, ?_⟩
      have := htoks n _ (List.get?_eq_get hlt)
      rw [hn] at this
      exact (Option.some.inj this).symm)
  simp only [Nat.zero_add, List.length_singleton] at hfin
  refine ⟨{ q with finalStates := q.allAccepting }, q.allAccepting, ?_, ?_⟩
  · rw [parse_unfold _ fuel false hne, hsw]
    simp only [accept_false_wf hwfq]
  · have hacc : item GAMMA_RULE (gammaBody S) 0 toks.length 1 ∈ q.allAccepting :=
      mem_allAccepting.mpr ⟨toks.length, hfin, by
        rw [isAccepting_iff]
        exact ⟨rfl, item_isCompleted (by simp [gammaBody])⟩⟩
    simpa [item] using hacc

/-! ### The result does not depend on the fuel -/

theorem columnLoop_fuel {fuel : Nat} {p q : Parse} {i j : Nat}
    (h : Parse.columnLoop fuel p i j = .ok q) (k : Nat) :
    Parse.columnLoop (fuel + k) p i j = .ok q := by
  induction fuel generalizing p j with
  | zero => simp [Parse.columnLoop] at h
  | succ fuel ih =>
    rw [show fuel + 1 + k = (fuel + k) + 1 by omega]
    unfold Parse.columnLoop at h ⊢
    cases hc : p.columns.get? i with
    | none => rw [hc] at h; cases h
    | some col =>
      rw [hc] at h
      simp only at h ⊢
      cases hst : col.states.get? j with
      | none => rw [hst] at h; exact h
      | some st =>
        rw [hst] at h
        simp only at h ⊢
        cases hps : p.processState i st with
        | none => rw [hps] at h; cases h
        | some p1 =>
          rw [hps] at h
          simp only at h ⊢
          exact ih h

theorem handleEpsilons_fuel {fuel : Nat} {p q : Parse} {i : Nat}
    (h : Parse.handleEpsilons fuel p i = .ok q) (k : Nat) :
    Parse.handleEpsilons (fuel + k) p i = .ok q := by
  induction fuel generalizing p with
  | zero => simp [Parse.handleEpsilons] at h
  | succ fuel ih =>
    rw [show fuel + 1 + k = (fuel + k) + 1 by omega]
    unfold Parse.handleEpsilons at h ⊢
    cases hc : p.columns.get? i with
    | none => rw [hc] at h; cases h
    | some col =>
      rw [hc] at h
      simp only at h ⊢
      cases hp : epsilonPass i col.states p false with
      | none => rw [hp] at h; cases h
      | some r =>
        obtain ⟨p1, c⟩ := r
        rw [hp] at h
        cases c with
        | true => simp only at h ⊢; exact ih h
        | false => exact h

theorem sweepFrom_fuel {fuel n : Nat} {p q : Parse} {i : Nat}
    (h : Parse.sweepFrom fuel n p i = .ok q) (k : Nat) :
    Parse.sweepFrom (fuel + k) n p i = .ok q := by
  induction n generalizing p i with
  | zero => exact h
  | succ n ih =>
    unfold Parse.sweepFrom at h ⊢
    cases h1 : Parse.columnLoop fuel p i 0 with
    | panic => rw [h1] at h; cases h
    | outOfFuel => rw [h1] at h; cases h
    | ok q1 =>
      rw [h1] at h
      rw [columnLoop_fuel h1 k]
      simp only at h ⊢
      cases h2 : Parse.handleEpsilons fuel q1 i with
      | panic => rw [h2] at h; cases h
      | outOfFuel => rw [h2] at h; cases h
      | ok q2 =>
        rw [h2] at h
        rw [handleEpsilons_fuel h2 k]
        simp only at h ⊢
        exact ih h

theorem parse_fuel {fuel : Nat} {p : Parse} {maxFlag : Bool} {r : Parse × List TableState}
    (h : p.parse fuel maxFlag = .ok r) (k : Nat) : p.parse (fuel + k) maxFlag = .ok r := by
  unfold Parse.parse at h ⊢
  by_cases hs : p.starts.length = 0
  · simp only [hs, if_true] at h ⊢
    exact h
  · simp only [hs, if_false] at h ⊢
    have hsw : ∀ q, p.sweep fuel = .ok q → p.sweep (fuel + k) = .ok q := by
      intro q hq
      unfold Parse.sweep at hq ⊢
      cases h0 : p.addStarts with
      | none => rw [h0] at hq; cases hq
      | some p0 =>
        rw [h0] at hq
        exact sweepFrom_fuel hq k
    cases hq : p.sweep fuel with
    | panic => rw [hq] at h; cases h
    | outOfFuel => rw [hq] at h; cases h
    | ok q =>
      rw [hq] at h
      rw [hsw q hq]
      exact h

theorem parse_deterministic {f1 f2 : Nat} {p : Parse} {maxFlag : Bool}
    {r1 r2 : Parse × List TableState} (h1 : p.parse f1 maxFlag = .ok r1)
    (h2 : p.parse f2 maxFlag = .ok r2) : r1 = r2 := by
  have e1 := parse_fuel h1 f2
  have e2 := parse_fuel h2 f1
  rw [Nat.add_comm] at e2
  rw [e1] at e2
  cases e2
  rfl

/-- Counterexample to C1: with `S → any{1,1} | any{2,2}` the input `a b` is
derivable from `S` (second alternative), but the column keeps one wildcard
state per start offset, the one with the bounds `{1,1}`, and whatever the fuel
`parse` returns in all-matches mode only the prefix parse with `End = 1`. -/
theorem parse_complete_counterexample :
    Derives mergedAnyChart.grammars [nTerm "S"] ["a", "b"] ∧
    (∃ q ret, mergedAnyChart.parse 10 false = .ok (q, ret)) ∧
    (∀ fuel q ret, mergedAnyChart.parse fuel false = .ok (q, ret) →
      ret = [{ Name := GAMMA_RULE, Rb := some (gammaBody "S"), Start := 0, End := 1,
               dot := 1, isAny := false, meta := .nil }]) := by
  refine ⟨?_, ⟨_, _, by rfl⟩, ?_⟩
  · have hbody : Derives mergedAnyChart.grammars
        [anyTerm (.intMap [("max", 2), ("min", 2)])] (["a", "b"] ++ []) :=
      Derives.anyBounded _ [] [("max", 2), ("min", 2)] ["a", "b"] [] rfl rfl (by decide)
        (by decide) Derives.nil
    exact Derives.nonterminal (nTerm "S") [] _
      (plainRule "S" [[anyTerm (.intMap [("max", 1), ("min", 1)])],
                      [anyTerm (.intMap [("max", 2), ("min", 2)])]]).2
      { Terms := [anyTerm (.intMap [("max", 2), ("min", 2)])], F := none } ["a", "b"] [] rfl
      (List.mem_singleton_self _) (by rfl) (by simp [plainRule]) hbody Derives.nil
  · intro fuel q ret h
    have h10 : mergedAnyChart.parse 10 false =
        .ok ((mergedAnyChart.parse 10 false).getD (mergedAnyChart, [])) := by rfl
    have := congrArg Prod.snd (parse_deterministic h h10)
    simp only at this
    rw [this]
    rfl

/-- Witness of C1 as amended: the grammar of the spec over `< bar   baz >`. -/
theorem parse_complete_restricted_witness :
    ∃ B, ∀ fuel, B < fuel →
      ∃ q ret, listChart.parse fuel false = .ok (q, ret) ∧
        ({ Name := GAMMA_RULE, Rb := some (gammaBody "list"), Start := 0,
           End := ((["<", "bar", " ", "baz", ">"] : List String).length : Int), dot := 1,
           isAny := false, meta := .nil } : TableState) ∈ ret := by
  have hitem : ∀ w, w = "bar" ∨ w = "baz" →
      Derives listChart.grammars [nTerm "item"] ([w] ++ []) := by
    intro w hw
    refine Derives.nonterminal (nTerm "item") [] _
      (plainRule "item" [[tTerm "f"], [tTerm "bar"], [tTerm "baz"]]).2
      { Terms := [tTerm w], F := none } [w] [] rfl (List.mem_singleton_self _) (by rfl)
      (by rcases hw with rfl | rfl <;> simp [plainRule])
      (Derives.terminal (tTerm w) [] [] rfl Derives.nil) Derives.nil
  have hitems1 : Derives listChart.grammars [nTerm "items"] (["bar"] ++ []) :=
    Derives.nonterminal (nTerm "items") [] _
      (plainRule "items" [[nTerm "items", tTerm " ", nTerm "item"], [nTerm "item"]]).2
      { Terms := [nTerm "item"], F := none } ["bar"] [] rfl (List.mem_singleton_self _)
      (by rfl) (by simp [plainRule]) (hitem "bar" (Or.inl rfl)) Derives.nil
  have hbody2 : Derives listChart.grammars [nTerm "items", tTerm " ", nTerm "item"]
      (["bar"] ++ (" " :: (["baz"] ++ []))) :=
    Derives.nonterminal (nTerm "items") _ _
      (plainRule "items" [[nTerm "items", tTerm " ", nTerm "item"], [nTerm "item"]]).2
      { Terms := [nTerm "item"], F := none } ["bar"] _ rfl (List.mem_singleton_self _)
      (by rfl) (by simp [plainRule]) (hitem "bar" (Or.inl rfl))
      (Derives.terminal (tTerm " ") _ _ rfl (hitem "baz" (Or.inr rfl)))
  have hitems2 : Derives listChart.grammars [nTerm "items", tTerm ">"]
      (["bar", " ", "baz"] ++ [">"]) :=
    Derives.nonterminal (nTerm "items") _ _
      (plainRule "items" [[nTerm "items", tTerm " ", nTerm "item"], [nTerm "item"]]).2
      { Terms := [nTerm "items", tTerm " ", nTerm "item"], F := none } ["bar", " ", "baz"] _
      rfl (List.mem_singleton_self _) (by rfl) (by simp [plainRule]) hbody2
      (Derives.terminal (tTerm ">") [] [] rfl Derives.nil)
  have hlist : Derives listChart.grammars [nTerm "list"]
      (["<", "bar", " ", "baz", ">"] ++ []) :=
    Derives.nonterminal (nTerm "list") [] _
      (plainRule "list" [[tTerm "<", nTerm "items", tTerm ">"]]).2
      { Terms := [tTerm "<", nTerm "items", tTerm ">"], F := none } _ [] rfl
      (List.mem_singleton_self _) (by rfl) (by simp [plainRule])
      (Derives.terminal (tTerm "<") _ _ rfl hitems2) Derives.nil
  exact parse_complete_restricted _ ["list"] ["<", "bar", " ", "baz", ">"] "list"
    (wildcardFree_of_check _ (by decide)) (epsilonFree_of_check _ (by decide))
    (namesMatch_of_check _ (by decide)) (uniqueDef_of_check _ (by decide)) (by simp) hlist

/-! ### Two inputs on which the sweep loses a parse -/

/-- With `S → E E "x"`, `E → ε` the state `S → E E • "x"` enters column `0`
only during `handleEpsilons`, after the work-list loop, and is never scanned:
the input `x` is not accepted. -/
theorem nullableScanChart_rejected :
    ∃ q, nullableScanChart.parse 10 false = .ok (q, []) :=
  ⟨_, by rfl⟩

/-- With the grammars `S → "a"` and `S → "b"`, `Parse.predict` stops at the
first grammar that changes the column; the rule of the second grammar enters
column `0` only during `handleEpsilons` and is never scanned: the input `b` is
not accepted. -/
theorem twoGrammarChart_rejected :
    ∃ q, twoGrammarChart.parse 10 false = .ok (q, []) :=
  ⟨_, by rfl⟩

/-! ### Termination of the sweep on every well-formed chart -/

theorem gen_meta {q : Parse} {i : Nat} {s : TableState} (hg : Gen q i s)
    (ha : s.isAny = false) : s.meta = .nil := by
  cases hg with
  | predictRule => rfl
  | predictAny => simp at ha
  | scanAny i col st hc hmem hst hmeta hlen => simp [hst] at ha
  | scanTerminal => rfl
  | complete => rfl

theorem pair_step {P : List (String × RuleBody)} {q : Parse}
    (hP : q.AllStates (PairState P))
    (hrules : ∀ pr, pr ∈ rulePairs q.grammars q.starts → pr ∈ P)
    {i : Nat} {s : TableState} (hg : Gen q i s) : PairState P i (stamp i s) := by
  intro ha
  cases hg with
  | predictRule i col st term g r prod hc hmem ht hty hg hr hp =>
    refine ⟨prod, rfl, hrules _ ?_⟩
    simp only [rulePairs, List.mem_append, List.mem_map, List.mem_flatMap]
    exact Or.inr ⟨g, hg, (term.Value, r), lookup_mem hr, prod, hp, rfl⟩
  | predictAny => simp [stamp] at ha
  | scanAny i col st hc hmem hst hmeta hlen => simp [stamp, hst] at ha
  | scanTerminal i col col1 st term hc hmem hna ht hty hc1 htok =>
    exact hP i col hc st hmem hna
  | complete i col state colk st term hc hmem hdone hk hmk ht hty =>
    obtain ⟨hk0, hck⟩ := Parse.column_some hk
    exact hP _ colk hck st hmk (by simpa [stamp, advanced] using ha)

theorem key_ne_of_not_same {i : Nat} {s s1 : TableState} (hs : s.End = (i : Int))
    (hs1 : s1.End = (i : Int)) (hm : s.isAny = false → s.meta = .nil)
    (hm1 : s1.isAny = false → s1.meta = .nil) (hsame : sameState s s1 = false) :
    stateKey s ≠ stateKey s1 := by
  intro hkey
  simp only [sameState, Bool.or_eq_false_iff, decide_eq_false_iff_not,
    Bool.and_eq_false_iff] at hsame
  obtain ⟨hne, hw⟩ := hsame
  unfold stateKey at hkey
  by_cases ha : s.isAny = true
  · by_cases ha1 : s1.isAny = true
    · simp only [ha, ha1, if_true, Prod.mk.injEq, true_and] at hkey
      rcases hw with ((h | h) | h) | h
      · exact absurd ha (by simpa using h)
      · exact absurd ha1 (by simpa using h)
      · exact h hkey
      · exact h (hs.trans hs1.symm)
    · simp [ha, ha1] at hkey
  · by_cases ha1 : s1.isAny = true
    · simp [ha, ha1] at hkey
    · have haf : s.isAny = false := by simpa using ha
      have ha1f : s1.isAny = false := by simpa using ha1
      simp only [haf, ha1f, Bool.false_eq_true, if_false, Prod.mk.injEq, Option.some.injEq] at hkey
      apply hne
      cases s
      cases s1
      simp only at hs hs1 hm hm1 haf ha1f hkey
      simp only [TableState.mk.injEq]
      exact ⟨hkey.1.1, hkey.1.2.1, hkey.2, hs.trans hs1.symm, hkey.1.2.2, haf.trans ha1f.symm,
        (hm haf).trans (hm1 ha1f).symm⟩

theorem added_insertAt {p q r : Parse} {i : Nat} {s : TableState} {b : Bool}
    (hadd : p.Added q) (hwf : q.WF) (hg : Gen q i s) (h : q.insertAt i s = some (r, b)) :
    p.Added r := by
  intro k col0 col hc0 hc
  by_cases hki : k = i
  · subst hki
    obtain ⟨colq, hcq, hr, -⟩ := insertAt_column h
    rw [hr] at hc
    cases hc
    obtain ⟨t, hst, hnd, hmeta⟩ := hadd k col0 colq hc0 hcq
    have hidx := hwf.1 k colq hcq
    rcases insert_states colq s with ⟨h1, -, -⟩ | ⟨h1, -, hno⟩
    · exact ⟨t, by rw [h1]; exact hst, hnd, hmeta⟩
    · refine ⟨t ++ [stamp k s], by rw [h1, hst, hidx, List.append_assoc]; rfl, ?_, ?_⟩
      · rw [List.map_append, List.nodup_append]
        refine ⟨hnd, by simp, ?_⟩
        intro key hk1 hk2
        simp only [List.map, List.mem_singleton] at hk2
        subst hk2
        obtain ⟨s1, hs1, hkeq⟩ := List.mem_map.mp hk1
        have hs1col : s1 ∈ colq.states := by rw [hst]; exact List.mem_append_right _ hs1
        have hsame := hno s1 hs1col
        rw [hidx] at hsame
        exact key_ne_of_not_same (s := stamp k s) (i := k) rfl (hwf.2 k colq hcq s1 hs1col).1
          (fun ha => by simpa [stamp] using gen_meta hg (by simpa [stamp] using ha))
          (hmeta s1 hs1) hsame hkeq.symm
      · intro s1 hs1 ha
        rcases List.mem_append.mp hs1 with hm | hm
        · exact hmeta s1 hm ha
        · simp only [List.mem_singleton] at hm
          subst hm
          simpa [stamp] using gen_meta hg (by simpa [stamp] using ha)
  · rw [insertAt_other h hki] at hc
    exact hadd k col0 col hc0 hc

theorem Reach.added {C : Nat → Prop} {p q : Parse} (h : Reach C p q) (hwf : p.WF) :
    p.Added q := by
  induction h with
  | refl =>
    intro i col0 col hc0 hc
    rw [hc0] at hc
    cases hc
    exact ⟨[], by simp, by simp, by simp⟩
  | step q r i s b hr _ hg hins ih => exact added_insertAt ih (hr.wf hwf) hg hins

theorem key_mem_universe {P : List (String × RuleBody)} {n i : Nat} {s : TableState}
    (hi : i < n) (hgood : GoodState i s) (hpair : PairState P i s) :
    stateKey s ∈ keyUniverse P n := by
  obtain ⟨hend, h0, hle, hd0, hrbg⟩ := hgood
  unfold keyUniverse stateKey
  by_cases ha : s.isAny = true
  · simp only [ha, if_true]
    apply List.mem_append_left
    refine List.mem_map.mpr ⟨s.Start.toNat, List.mem_range.mpr (by omega), ?_⟩
    simp only [Int.ofNat_eq_coe, Prod.mk.injEq, true_and]
    omega
  · have haf : s.isAny = false := by simpa using ha
    simp only [haf, Bool.false_eq_true, if_false]
    obtain ⟨rb, hrb, hmem⟩ := hpair haf
    obtain ⟨rb1, hrb1, hdle⟩ := hrbg haf
    rw [hrb] at hrb1
    cases hrb1
    apply List.mem_append_right
    refine List.mem_flatMap.mpr ⟨(s.Name, rb), hmem, ?_⟩
    refine List.mem_flatMap.mpr ⟨s.Start.toNat, List.mem_range.mpr (by omega), ?_⟩
    refine List.mem_map.mpr ⟨s.dot.toNat,
      List.mem_range.mpr (show s.dot.toNat < rb.Terms.length + 1 by omega), ?_⟩
    simp only [Int.ofNat_eq_coe, Prod.mk.injEq, Option.some.injEq, true_and]
    exact ⟨⟨hrb.symm, by omega⟩, by omega⟩

theorem length_le_sum_of_get? {cols : List TableColumn} {i : Nat} {c : TableColumn}
    (h : cols.get? i = some c) : c.states.length ≤ (cols.map (fun c => c.states.length)).sum := by
  induction cols generalizing i with
  | nil => simp at h
  | cons x xs ih =>
    cases i with
    | zero =>
      simp only [List.get?_cons_zero, Option.some.injEq] at h
      subst h
      simp
    | succ i =>
      simp only [List.get?_cons_succ] at h
      have := ih h
      simp only [List.map_cons, List.sum_cons]
      omega

theorem colLength_added_bound {P : List (String × RuleBody)} {p q : Parse}
    (hext : p.Ext q) (hadd : p.Added q) (hwf : q.WF) (hP : q.AllStates (PairState P))
    (k : Nat) :
    q.colLength k ≤ (p.columns.map (fun c => c.states.length)).sum +
      (keyUniverse P p.columns.length).length := by
  cases hc : q.columns.get? k with
  | none =>
    unfold Parse.colLength
    rw [hc]
    exact Nat.zero_le _
  | some col =>
    rw [colLength_eq hc]
    have hk : k < p.columns.length := by rw [← hext.length]; exact get?_lt hc
    obtain ⟨t, hst, hnd, -⟩ := hadd k _ col (List.get?_eq_get hk) hc
    have hsub : t.map stateKey ⊆ keyUniverse P p.columns.length := by
      intro key hkey
      obtain ⟨s, hs, rfl⟩ := List.mem_map.mp hkey
      have hscol : s ∈ col.states := by rw [hst]; exact List.mem_append_right _ hs
      exact key_mem_universe hk (hwf.2 k col hc s hscol) (hP k col hc s hscol)
    have h1 := (List.subperm_of_subset hnd hsub).length_le
    have h2 := length_le_sum_of_get? (List.get?_eq_get hk)
    rw [hst, List.length_append]
    simp only [List.length_map] at h1
    omega

theorem addStarts_sum {p p0 : Parse} (h : p.addStarts = some p0) :
    (p0.columns.map (fun c => c.states.length)).sum =
      (p.columns.map (fun c => c.states.length)).sum + p.starts.length := by
  obtain ⟨col0, cols, hcols, rfl⟩ := addStarts_spec h
  rw [hcols]
  simp only [List.map_cons, List.sum_cons, List.length_append, List.length_map]
  omega

theorem sweep_terminates {p : Parse} (hwf : p.WF) (hne : p.columns ≠ []) (fuel : Nat)
    (hfuel : p.stateBound < fuel) : ∃ q, p.sweep fuel = .ok q := by
  obtain ⟨p0, h0⟩ := addStarts_isSome hne
  obtain ⟨hg0, hs0, hl0⟩ := addStarts_fields h0
  have hwf0 := addStarts_wf hwf h0
  have hP0 : p0.AllStates (PairState p.pairs) := by
    apply addStarts_allStates (P := PairState p.pairs) ?_ ?_ h0
    · intro i c hc s hs _
      cases hrb : s.Rb with
      | none =>
        have := (hwf.2 i c hc s hs).2.2.2.2 (by assumption)
        rw [hrb] at this
        obtain ⟨_, h, _⟩ := this
        cases h
      | some rb =>
        refine ⟨rb, rfl, ?_⟩
        simp only [Parse.pairs, List.mem_append, List.mem_flatMap, List.mem_filterMap]
        exact Or.inr ⟨c, List.get?_mem hc, s, hs, by simp [hrb]⟩
    · intro start hstart _
      refine ⟨gammaBody start, rfl, ?_⟩
      simp only [Parse.pairs, rulePairs, List.mem_append, List.mem_map]
      exact Or.inl (Or.inl ⟨start, hstart, rfl⟩)
  have hB : ∀ q k, Reach (fun _ => True) p0 q → q.colLength k ≤ p.stateBound := by
    intro q k hr
    have hPq : q.AllStates (PairState p.pairs) :=
      hr.allStates hwf0 hP0 (fun q1 hext _ hP1 _ _ hg => pair_step hP1 (by
        intro pr hpr
        rw [hext.grammars, hext.starts, hg0, hs0] at hpr
        simp only [Parse.pairs, List.mem_append]
        exact Or.inl hpr) hg)
    have := colLength_added_bound hr.toExt (hr.added hwf0) (hr.wf hwf0) hPq k
    rw [addStarts_sum h0, hl0] at this
    unfold Parse.stateBound
    exact this
  obtain ⟨q, hq⟩ := @sweepFrom_total fuel _ p0.columns.length p0 0 hwf0 (by omega) hB hfuel
  exact ⟨q, by unfold Parse.sweep; rw [h0]; exact hq⟩

theorem parse_total_wf {p : Parse} (hwf : p.WF) (hne : p.columns ≠ []) (fuel : Nat)
    (hfuel : p.stateBound < fuel) (maxFlag : Bool) :
    ∃ q ret, p.parse fuel maxFlag = .ok (q, ret) := by
  by_cases hs : p.starts = []
  · exact ⟨p, [], by unfold Parse.parse; simp [hs]⟩
  · obtain ⟨q, hq⟩ := sweep_terminates hwf hne fuel hfuel
    obtain ⟨_, _, _, _, hwfq⟩ := sweep_reach hwf hq
    rw [parse_unfold p fuel maxFlag hs, hq]
    cases maxFlag with
    | false => simp only [accept_false_wf hwfq]; exact ⟨_, _, rfl⟩
    | true => simp only [accept_true_wf hwfq]; exact ⟨_, _, rfl⟩

/-! ### The claims on the acceptance scan -/

/-- C3: in all-matches mode, when the sweep ran (there is a start symbol),
`parse` returns exactly the completed `GAMMA_RULE` states of the chart left by
the sweep, from every column, column by column from the last to the first and
in column order within a column; it panics only if `isCompleted` does on a
`GAMMA_RULE` state. On a well-formed chart with at least one column the sweep
ends with enough fuel, no panic occurs and that list is returned. -/
theorem parse_all_matches_exact (p : Parse) (hs : p.starts ≠ []) :
    (∀ fuel q1 ret, p.parse fuel false = .ok (q1, ret) ↔
      ∃ q, p.sweep fuel = .ok q ∧
        (∀ c ∈ q.columns, ∀ s ∈ c.states, s.Name = GAMMA_RULE → s.isCompleted ≠ none) ∧
        ret = q.columns.reverse.flatMap (fun c => c.states.filter (fun s =>
          decide (s.Name = GAMMA_RULE) && (s.isCompleted == some true))) ∧
        q1 = { q with finalStates := ret }) ∧
    (p.WF → p.columns ≠ [] → ∀ fuel, p.stateBound < fuel →
      ∃ q, p.sweep fuel = .ok q ∧
        p.parse fuel false =
          .ok ({ q with finalStates := q.allAccepting }, q.allAccepting) ∧
        q.allAccepting = q.columns.reverse.flatMap (fun c => c.states.filter (fun s =>
          decide (s.Name = GAMMA_RULE) && (s.isCompleted == some true)))) := by
  constructor
  · intro fuel q1 ret
    rw [parse_unfold p fuel false hs]
    cases hsw : p.sweep fuel with
    | panic => simp
    | outOfFuel => simp
    | ok q =>
      simp only [Outcome.ok.injEq, exists_eq_left']
      by_cases hp : ∃ c ∈ q.columns.reverse, ∃ s ∈ c.states, s.accepting = none
      · have hnone : q.accept false = none := acceptColumns_false_none _ _ hp
        rw [hnone]
        simp only [false_iff, not_and, reduceCtorEq]
        intro hno
        obtain ⟨c, hc, s, hsm, hn⟩ := hp
        have := (accepting_none_iff s).mp hn
        exact absurd this.2 (hno c (List.mem_reverse.mp hc) s hsm this.1)
      · push_neg at hp
        have hsome : q.accept false = some q.allAccepting := by
          unfold Parse.accept Parse.allAccepting
          rw [acceptColumns_false _ _ hp]
          simp
        rw [hsome]
        simp only [Outcome.ok.injEq, Prod.mk.injEq]
        constructor
        · rintro ⟨rfl, rfl⟩
          refine ⟨?_, rfl, rfl⟩
          intro c hc s hsm hname hn
          exact hp c (List.mem_reverse.mpr hc) s hsm ((accepting_none_iff s).mpr ⟨hname, hn⟩)
        · rintro ⟨-, hret, hq1⟩
          have : ret = q.allAccepting := hret
          subst this
          exact ⟨hq1.symm, rfl⟩
  · intro hwf hne fuel hfuel
    obtain ⟨q, hsw⟩ := sweep_terminates hwf hne fuel hfuel
    refine ⟨q, hsw, ?_, rfl⟩
    rw [parse_unfold p fuel false hs, hsw]
    obtain ⟨_, _, _, _, hwfq⟩ := sweep_reach hwf hsw
    simp only [accept_false_wf hwfq]

/-- C4: on a well-formed chart with a start symbol and at least one column,
with enough fuel the sweep ends and first-match mode returns exactly one state
when the chart holds a completed `GAMMA_RULE` state: a completed `GAMMA_RULE`
state whose `End` is the greatest `End` among the states all-matches mode
returns; and the empty list when the chart holds none. -/
theorem parse_first_match_longest (p : Parse) (hwf : p.WF) (hs : p.starts ≠ [])
    (hne : p.columns ≠ []) (fuel : Nat) (hfuel : p.stateBound < fuel) :
    ∃ q ret retAll, p.sweep fuel = .ok q ∧
      p.parse fuel true = .ok ({ q with finalStates := ret }, ret) ∧
      p.parse fuel false = .ok ({ q with finalStates := retAll }, retAll) ∧
      ((∃ c ∈ q.columns, ∃ s ∈ c.states, s.Name = GAMMA_RULE ∧ s.isCompleted = some true) →
        ∃ s, ret = [s] ∧ s.Name = GAMMA_RULE ∧ s.isCompleted = some true ∧ s ∈ retAll ∧
          ∀ s1 ∈ retAll, s1.End ≤ s.End) ∧
      ((∀ c ∈ q.columns, ∀ s ∈ c.states,
          ¬ (s.Name = GAMMA_RULE ∧ s.isCompleted = some true)) → ret = []) := by
  obtain ⟨q, h⟩ := sweep_terminates hwf hne fuel hfuel
  obtain ⟨_, _, _, _, hwfq⟩ := sweep_reach hwf h
  refine ⟨q, q.allAccepting.take 1, q.allAccepting, h, ?_, ?_, ?_, ?_⟩
  · rw [parse_unfold p fuel true hs, h]
    simp only [accept_true_wf hwfq]
  · rw [parse_unfold p fuel false hs, h]
    simp only [accept_false_wf hwfq]
  · rintro ⟨c, hc, s, hsm, hacc⟩
    have hmem : s ∈ q.allAccepting := by
      simp only [Parse.allAccepting, List.mem_flatMap, List.mem_reverse, List.mem_filter]
      exact ⟨c, hc, hsm, (isAccepting_iff s).mpr hacc⟩
    cases hall : q.allAccepting with
    | nil => rw [hall] at hmem; simp at hmem
    | cons a t =>
      have ha : a ∈ q.allAccepting := by rw [hall]; exact List.mem_cons_self _ _
      have ha2 := ha
      simp only [Parse.allAccepting, List.mem_flatMap, List.mem_reverse, List.mem_filter] at ha2
      obtain ⟨c1, -, -, hacc1⟩ := ha2
      have hacc1 := (isAccepting_iff a).mp hacc1
      refine ⟨a, by simp, hacc1.1, hacc1.2, List.mem_cons_self _ _, ?_⟩
      have := allAccepting_head_max q.columns (fun i c hci s1 hs1 => (hwfq.2 i c hci s1 hs1).1) a
        (by
          have : q.allAccepting.head? = some a := by rw [hall]; rfl
          exact this)
      intro s1 hs1
      exact this s1 (by
        have : s1 ∈ q.allAccepting := by rw [hall]; exact hs1
        exact this)
  · intro hno
    have : q.allAccepting = [] := by
      apply List.eq_nil_iff_forall_not_mem.mpr
      intro s hsm
      simp only [Parse.allAccepting, List.mem_flatMap, List.mem_reverse, List.mem_filter] at hsm
      obtain ⟨c, hc, hm, hacc⟩ := hsm
      exact hno c hc s hm ((isAccepting_iff s).mp hacc)
    rw [this]
    rfl

/-- C5, as the code has it: on a well-formed chart with a start symbol and at
least one column, with enough fuel the sweep ends and first-match mode returns
only the first completed `GAMMA_RULE` state met when the columns are scanned
from the last to the first, each in column order (the empty list when there is
none). -/
theorem parse_first_match_first_state (p : Parse) (hwf : p.WF) (hs : p.starts ≠ [])
    (hne : p.columns ≠ []) (fuel : Nat) (hfuel : p.stateBound < fuel) :
    ∃ q, p.sweep fuel = .ok q ∧
      p.parse fuel true =
        .ok ({ q with finalStates := q.allAccepting.take 1 }, q.allAccepting.take 1) ∧
      q.allAccepting = q.columns.reverse.flatMap (fun c => c.states.filter (fun s =>
        decide (s.Name = GAMMA_RULE) && (s.isCompleted == some true))) := by
  obtain ⟨q, h⟩ := sweep_terminates hwf hne fuel hfuel
  obtain ⟨_, _, _, _, hwfq⟩ := sweep_reach hwf h
  refine ⟨q, h, ?_, rfl⟩
  rw [parse_unfold p fuel true hs, h]
  simp only [accept_true_wf hwfq]

/-- Witness of C3, on the chart with two start symbols. -/
theorem parse_all_matches_exact_witness :
    ∃ q, twoStartChart.sweep 40 = .ok q ∧
      twoStartChart.parse 40 false =
        .ok ({ q with finalStates := q.allAccepting }, q.allAccepting) ∧
      q.allAccepting = q.columns.reverse.flatMap (fun c => c.states.filter (fun s =>
        decide (s.Name = GAMMA_RULE) && (s.isCompleted == some true))) :=
  (parse_all_matches_exact twoStartChart (by decide)).2 (freshChart_wf _ _ _) (by decide) 40
    (by decide)

/-- Witness of C4, on the chart with two start symbols. -/
theorem parse_first_match_longest_witness :
    ∃ q ret retAll, twoStartChart.sweep 40 = .ok q ∧
      twoStartChart.parse 40 true = .ok ({ q with finalStates := ret }, ret) ∧
      twoStartChart.parse 40 false = .ok ({ q with finalStates := retAll }, retAll) ∧
      ((∃ c ∈ q.columns, ∃ s ∈ c.states, s.Name = GAMMA_RULE ∧ s.isCompleted = some true) →
        ∃ s, ret = [s] ∧ s.Name = GAMMA_RULE ∧ s.isCompleted = some true ∧ s ∈ retAll ∧
          ∀ s1 ∈ retAll, s1.End ≤ s.End) ∧
      ((∀ c ∈ q.columns, ∀ s ∈ c.states,
          ¬ (s.Name = GAMMA_RULE ∧ s.isCompleted = some true)) → ret = []) :=
  parse_first_match_longest twoStartChart (freshChart_wf _ _ _) (by decide) (by decide) 40
    (by decide)

/-- Witness of the amended C5, on the chart with two start symbols. -/
theorem parse_first_match_first_state_witness :
    ∃ q, twoStartChart.sweep 40 = .ok q ∧
      twoStartChart.parse 40 true =
        .ok ({ q with finalStates := q.allAccepting.take 1 }, q.allAccepting.take 1) ∧
      q.allAccepting = q.columns.reverse.flatMap (fun c => c.states.filter (fun s =>
        decide (s.Name = GAMMA_RULE) && (s.isCompleted == some true))) :=
  parse_first_match_first_state twoStartChart (freshChart_wf _ _ _) (by decide) (by decide) 40
    (by decide)

/-! ### Wildcard bounds in the finished chart -/

/-- C7: a wildcard state carrying bounds is completed only with
`min ≤ dot ≤ max`; the work-list loop leaves the next column untouched for a
bounded wildcard state with `dot + 1 > max`; in the chart `parse` leaves
behind (started from a well-formed chart respecting the bound, such as a fresh
one) no wildcard state with bounds, `0 ≤ max`, has `dot > max`; and on such a
chart with at least one column `parse` does return with enough fuel. -/
theorem wildcard_bounds_enforced :
    (∀ (s : TableState) (m : List (String × Int)), s.isAny = true → s.meta = .intMap m →
      (s.isCompleted = some true ↔ lookupInt m "min" ≤ s.dot ∧ s.dot ≤ lookupInt m "max")) ∧
    (∀ (p q : Parse) (i : Nat) (st : TableState) (m : List (String × Int)), p.WF →
      p.InCol i st → st.isAny = true → st.meta = .intMap m →
      ¬ (st.dot + 1 ≤ lookupInt m "max") → p.processState i st = some q →
      q.columns.get? (i + 1) = p.columns.get? (i + 1)) ∧
    (∀ (p q : Parse) (fuel : Nat) (maxFlag : Bool) (ret : List TableState), p.WF →
      p.AllStates WithinMax → p.parse fuel maxFlag = .ok (q, ret) →
      ∀ i col, q.columns.get? i = some col → ∀ s ∈ col.states, s.isAny = true →
        ∀ m, s.meta = .intMap m → 0 ≤ lookupInt m "max" → s.dot ≤ lookupInt m "max") ∧
    (∀ (p : Parse) (maxFlag : Bool), p.WF → p.columns ≠ [] → ∀ fuel, p.stateBound < fuel →
      ∃ q ret, p.parse fuel maxFlag = .ok (q, ret)) := by
  refine ⟨?_, ?_, ?_,
    fun p maxFlag hwf hne fuel hfuel => parse_total_wf hwf hne fuel hfuel maxFlag⟩
  · intro s m ha hm
    simp [TableState.isCompleted, ha, hm]
  · intro p q i st m hwf hin ha hm hmax h
    unfold Parse.processState at h
    simp only [ha, if_true, hm] at h
    have hscan : ¬ (i + 1 < p.columns.length ∧ st.dot + 1 ≤ lookupInt m "max") :=
      fun hc => hmax hc.2
    by_cases hcond : st.dot ≥ lookupInt m "min" ∧ st.dot ≤ lookupInt m "max"
    · simp only [hcond, and_self, if_true] at h
      obtain ⟨p1, c, hq⟩ := complete_total hwf hin
      obtain ⟨_, _, hr, -⟩ := complete_post hwf hin (by
        simp [TableState.isCompleted, ha, hm, hcond]) hq
      rw [hq] at h
      simp only [Option.map_some'] at h
      have hscan1 : ¬ (i + 1 < p1.columns.length ∧ st.dot + 1 ≤ lookupInt m "max") :=
        fun hc => hmax hc.2
      simp only [hscan1, if_false, Option.some.injEq] at h
      subst h
      exact hr.unchanged (by omega)
    · simp only [hcond, if_false, hscan, Option.some.injEq] at h
      subst h
      rfl
  · intro p q fuel maxFlag ret hwf hP h i col hc s hs
    have hall : q.AllStates WithinMax := by
      rcases parse_chart h with ⟨-, rfl, -⟩ | ⟨-, q1, hsw, -, rfl⟩
      · exact hP
      · obtain ⟨p0, h0, hwf0, hr, -⟩ := sweep_reach hwf hsw
        have hP0 : p0.AllStates WithinMax := addStarts_allStates hP (by
          intro start _ ha
          simp [gammaState] at ha) h0
        exact hr.allStates hwf0 hP0 (fun _ _ _ _ i s hg => withinMax_step hg)
    exact hall i col hc s hs

/-- Witness of C7, on the chart for `S → any{1,2}` over three tokens. -/
theorem wildcard_bounds_enforced_witness :
    ∀ i col, ((boundedAnyChart.parse 10 false).getD (boundedAnyChart, [])).1.columns.get? i =
        some col →
      ∀ s ∈ col.states, s.isAny = true → ∀ m, s.meta = .intMap m → 0 ≤ lookupInt m "max" →
        s.dot ≤ lookupInt m "max" :=
  wildcard_bounds_enforced.2.2.1 boundedAnyChart _ 10 false
    ((boundedAnyChart.parse 10 false).getD (boundedAnyChart, [])).2
    (freshChart_wf _ _ _) (freshChart_allStates _ _ _ _) (by rfl)

/-! ### Argument kinds -/

theorem semStr_plain_unfold (R : Render) (a : Arg) (nodes : List Node)
    (h : a.Type_ ≠ "index") :
    semStr R (some a) nodes =
      if a.Type_ = "string" then
        match a.Value with
        | .str s => (R.quote s, none)
        | v => ("", some (.notString v))
      else if a.Type_ = "int" then
        match a.Value with
        | .bigInt i => (R.intString i, none)
        | v => ("", some (.notInt v))
      else if a.Type_ = "float" then
        match a.Value with
        | .bigFloat f => (R.floatString f, none)
        | v => ("", some (.notFloat v))
      else if a.Type_ = "func" then
        match a.Value with
        | .str s => (s, none)
        | v => ("", some (.notFunc v))
      else ("", some (.invalidType a.Type_)) := by
  rw [semStr]
  simp only [h, if_false]
  try rfl

/-- C11: `semStr` on an argument whose kind is not `index`. A nil argument is
an error. Otherwise the call succeeds exactly when the kind is `string`, `int`,
`float` or `func` and the payload has the matching dynamic type (text for
`string` and `func`, `*big.Int` for `int`, `*big.Float` for `float`); then
`func` returns the payload text itself, `int` and `float` the text
`(*big.Int).String` and `(*big.Float).String` give, and `string` the literal
quoted by `strconv.Quote`. Every failure returns the empty string, with the
error of the kind for a payload of the wrong type and the invalid-kind error
for any other kind tag. -/
theorem semStr_kinds_checked (R : Render) (nodes : List Node) :
    semStr R none nodes = ("", some .argNil) ∧
    (∀ a : Arg, a.Type_ ≠ "index" →
      ((semStr R (some a) nodes).2 = none ↔
        ((a.Type_ = "string" ∧ ∃ s, a.Value = .str s) ∨
         (a.Type_ = "int" ∧ ∃ i, a.Value = .bigInt i) ∨
         (a.Type_ = "float" ∧ ∃ f, a.Value = .bigFloat f) ∨
         (a.Type_ = "func" ∧ ∃ s, a.Value = .str s))) ∧
      ((semStr R (some a) nodes).2 ≠ none → (semStr R (some a) nodes).1 = "")) ∧
    (∀ s, semStr R (some { Type_ := "string", Value := .str s }) nodes = (R.quote s, none)) ∧
    (∀ i, semStr R (some { Type_ := "int", Value := .bigInt i }) nodes =
      (R.intString i, none)) ∧
    (∀ f, semStr R (some { Type_ := "float", Value := .bigFloat f }) nodes =
      (R.floatString f, none)) ∧
    (∀ s, semStr R (some { Type_ := "func", Value := .str s }) nodes = (s, none)) ∧
    (∀ v, (∀ s, v ≠ .str s) →
      semStr R (some { Type_ := "string", Value := v }) nodes = ("", some (.notString v)) ∧
      semStr R (some { Type_ := "func", Value := v }) nodes = ("", some (.notFunc v))) ∧
    (∀ v, (∀ i, v ≠ .bigInt i) →
      semStr R (some { Type_ := "int", Value := v }) nodes = ("", some (.notInt v))) ∧
    (∀ v, (∀ f, v ≠ .bigFloat f) →
      semStr R (some { Type_ := "float", Value := v }) nodes = ("", some (.notFloat v))) ∧
    (∀ a : Arg, a.Type_ ≠ "string" → a.Type_ ≠ "int" → a.Type_ ≠ "float" →
      a.Type_ ≠ "func" → a.Type_ ≠ "index" →
      semStr R (some a) nodes = ("", some (.invalidType a.Type_))) := by
  refine ⟨by rw [semStr], ?_, ?_, ?_, ?_, ?_, ?_, ?_, ?_, ?_⟩
  · intro a ha
    rw [semStr_plain_unfold R a nodes ha]
    obtain ⟨ty, v⟩ := a
    simp only
    by_cases h1 : ty = "string"
    · subst h1
      cases v <;> simp
    · by_cases h2 : ty = "int"
      · subst h2
        cases v <;> simp
      · by_cases h3 : ty = "float"
        · subst h3
          cases v <;> simp
        · by_cases h4 : ty = "func"
          · subst h4
            cases v <;> simp
          · simp [h1, h2, h3, h4]
  · intro s
    rw [semStr_plain_unfold R _ nodes (by simp)]
    simp
  · intro i
    rw [semStr_plain_unfold R _ nodes (by simp)]
    simp
  · intro f
    rw [semStr_plain_unfold R _ nodes (by simp)]
    simp
  · intro s
    rw [semStr_plain_unfold R _ nodes (by simp)]
    simp
  · intro v hv
    constructor
    · rw [semStr_plain_unfold R _ nodes (by simp)]
      cases v <;> simp at hv ⊢
    · rw [semStr_plain_unfold R _ nodes (by simp)]
      cases v <;> simp at hv ⊢
  · intro v hv
    rw [semStr_plain_unfold R _ nodes (by simp)]
    cases v <;> simp at hv ⊢
  · intro v hv
    rw [semStr_plain_unfold R _ nodes (by simp)]
    cases v <;> simp at hv ⊢
  · intro a h1 h2 h3 h4 h5
    rw [semStr_plain_unfold R a nodes h5]
    simp [h1, h2, h3, h4]

/-- Witness of C11: the `func` argument `nf.math.sum` succeeds and an `int`
argument carrying a text payload does not. -/
theorem semStr_kinds_checked_witness :
    ((semStr plainRender (some { Type_ := "func", Value := .str "nf.math.sum" }) []).2 = none ↔
      (("func" = "string" ∧ ∃ s, ArgValue.str "nf.math.sum" = .str s) ∨
       ("func" = "int" ∧ ∃ i, ArgValue.str "nf.math.sum" = .bigInt i) ∨
       ("func" = "float" ∧ ∃ f, ArgValue.str "nf.math.sum" = .bigFloat f) ∨
       ("func" = "func" ∧ ∃ s, ArgValue.str "nf.math.sum" = .str s))) ∧
    semStr plainRender (some { Type_ := "int", Value := .str "7" }) [] =
      ("", some (.notInt (.str "7"))) :=
  ⟨((semStr_kinds_checked plainRender []).2.1 { Type_ := "func", Value := .str "nf.math.sum" }
      (by decide)).1,
   (semStr_kinds_checked plainRender []).2.2.2.2.2.2.2.1 (.str "7") (by simp)⟩

/-! ### The round-trip example -/

theorem Semantic_no_action (R : Render) (v : TableState) (cs : List Node) (rb : RuleBody)
    (hrb : v.Rb = some rb) (hf : rb.F = none) : (Node.mk v cs).Semantic R = ("", none) := by
  rw [Node.Semantic]
  simp only [hrb, hf]

theorem barItemsNode_Semantic (R : Render) : barItemsNode.Semantic R = ("", none) :=
  Semantic_no_action R _ _ _ rfl rfl

theorem bazNode_Semantic (R : Render) : bazNode.Semantic R = ("", none) :=
  Semantic_no_action R _ _ _ rfl rfl

theorem itemsNode_Semantic (R : Render) :
    itemsNode.Semantic R = ("", some (.indexRange 3 2)) := by
  have h1 : (semStr R (some { Type_ := "index", Value := .int 1 })
      [barItemsNode, bazNode]).2 = none := by
    rw [semStr_index_unfold]
    simp [barItemsNode_Semantic]
  have h3 : (semStr R (some { Type_ := "index", Value := .int 3 })
      [barItemsNode, bazNode]).2 = some (.indexRange 3 2) := by
    rw [semStr_index_unfold]
    simp
  have hfail := semArgs_fail R [barItemsNode, bazNode]
    [some { Type_ := "index", Value := .int 1 }] (some { Type_ := "index", Value := .int 3 }) []
    (.indexRange 3 2) [] (by simpa using h1) h3
  unfold itemsNode
  rw [Semantic_call_unfold R itemsState _ itemsBody sumAction rfl rfl (by decide)]
  have hargs : sumAction.Args = [some { Type_ := "index", Value := .int 1 }] ++
      some { Type_ := "index", Value := .int 3 } :: [] := rfl
  rw [hargs]
  split
  · rename_i s err hs
    rw [hs] at hfail
    simp only [Option.some.injEq] at hfail
    rw [hfail]
  · rename_i s hs
    rw [hs] at hfail
    cases hfail

theorem itemsNode_three_children (R : Render) (mid : Node) :
    (Node.mk itemsState [barItemsNode, mid, bazNode]).Semantic R = ("sum(, )", none) := by
  have h1 : semStr R (some { Type_ := "index", Value := .int 1 })
      [barItemsNode, mid, bazNode] = ("", none) := by
    rw [semStr_index_unfold]
    simp [barItemsNode_Semantic]
  have h3 : semStr R (some { Type_ := "index", Value := .int 3 })
      [barItemsNode, mid, bazNode] = ("", none) := by
    rw [semStr_index_unfold]
    simp [bazNode_Semantic]
  rw [Semantic_call_unfold R itemsState _ itemsBody sumAction rfl rfl (by decide)]
  rw [semArgs_eq R _ sumAction.Args [] (by
    intro a ha
    simp only [sumAction, List.mem_cons, List.mem_singleton, List.not_mem_nil, or_false] at ha
    rcases ha with rfl | rfl
    · rw [h1]
    · rw [h3])]
  simp only [sumAction, List.map, h1, h3, List.nil_append]
  decide

theorem roundTripChart_parse (maxFlag : Bool) (fuel : Nat) (hfuel : 20 ≤ fuel) :
    ∃ q ret, roundTripChart.parse fuel maxFlag = .ok (q, ret) ∧
      ({ Name := GAMMA_RULE, Rb := some (gammaBody "list"), Start := 0, End := 5, dot := 1,
         isAny := false, meta := .nil } : TableState) ∈ ret ∧
      q.InCol 4 itemsState := by
  obtain ⟨k, rfl⟩ : ∃ k, fuel = 20 + k := ⟨fuel - 20, by omega⟩
  cases maxFlag with
  | false =>
    have h20 : roundTripChart.parse 20 false =
        .ok ((roundTripChart.parse 20 false).getD (roundTripChart, [])) := by rfl
    exact ⟨_, _, parse_fuel h20 k, by decide, ⟨_, by rfl, by decide⟩⟩
  | true =>
    have h20 : roundTripChart.parse 20 true =
        .ok ((roundTripChart.parse 20 true).getD (roundTripChart, [])) := by rfl
    exact ⟨_, _, parse_fuel h20 k, by decide, ⟨_, by rfl, by decide⟩⟩

/-- C12, as the code has it: the tokens `<`, `bar`, ` `, `baz`, `>` are
accepted in both modes, with a completed `GAMMA_RULE` state spanning all five
tokens, and the chart holds the completed state of `items → items " " item`
over `bar`, ` `, `baz`. Evaluating the node of that state with one child per
nonterminal (the inner `items` node and the `item` node) fails on `$3` with
the range error and the empty string; with one child per term (three children)
it yields `sum(, )`, since a rule body without action evaluates to the empty
string. -/
theorem round_trip_example :
    (∀ (maxFlag : Bool) (fuel : Nat), 20 ≤ fuel →
      ∃ q ret, roundTripChart.parse fuel maxFlag = .ok (q, ret) ∧
        ({ Name := GAMMA_RULE, Rb := some (gammaBody "list"), Start := 0, End := 5, dot := 1,
           isAny := false, meta := .nil } : TableState) ∈ ret ∧
        q.InCol 4 itemsState) ∧
    (∀ R : Render, itemsNode.Semantic R = ("", some (.indexRange 3 2))) ∧
    (∀ (R : Render) (mid : Node),
      (Node.mk itemsState [barItemsNode, mid, bazNode]).Semantic R = ("sum(, )", none)) :=
  ⟨roundTripChart_parse, itemsNode_Semantic, itemsNode_three_children⟩

/-- Witness of C12 as amended, in all-matches mode with fuel `20`. -/
theorem round_trip_example_witness :
    ∃ q ret, roundTripChart.parse 20 false = .ok (q, ret) ∧
      ({ Name := GAMMA_RULE, Rb := some (gammaBody "list"), Start := 0, End := 5, dot := 1,
         isAny := false, meta := .nil } : TableState) ∈ ret ∧
      q.InCol 4 itemsState :=
  round_trip_example.1 false 20 (by decide)

/-- Counterexample to C12: the node of `items` over `bar`, ` `, `baz` does not
evaluate to `sum("bar", "baz")`, neither with one child per nonterminal nor
with one child per term. -/
theorem round_trip_counterexample :
    itemsNode.Semantic plainRender ≠ ("sum(\"bar\", \"baz\")", none) ∧
    (Node.mk itemsState [barItemsNode,
        Node.mk { Name := " ", Rb := none, Start := 2, End := 3, dot := 0, isAny := false,
                  meta := .nil } [], bazNode]).Semantic
      plainRender ≠ ("sum(\"bar\", \"baz\")", none) := by
  constructor
  · rw [itemsNode_Semantic]
    decide
  · rw [itemsNode_three_children]
    decide

/-! ### `Parse.predict` and the grammars after the first that changes the column -/

/-- C13, the code at the failing input: with the grammars `S → "a"` and
`S → "b"` (both define `S`) and the state `ɣ → • S` in column `0`, one call of
`Parse.predict(col, S)` returns true after inserting `S → • "a"` from the first
grammar and never calls `predict` for the second one: the column then holds no
state for `S → "b"`. -/
theorem predict_skips_later_grammar :
    (∀ g ∈ twoGrammarChart.grammars, (g.rule "S").isSome = true) ∧
    ∃ states,
      (twoGrammarChart.addStarts.bind (fun p0 => p0.predict 0 (nTerm "S"))).map
          (fun r => ((r.1.columns.get? 0).map (fun c => c.states), r.2)) =
        some (some states, true) ∧
      states = [gammaState "S", predictedState "S" 0 { Terms := [tTerm "a"], F := none }] ∧
      predictedState "S" 0 { Terms := [tTerm "b"], F := none } ∉ states :=
  ⟨by decide, _, by rfl, rfl, by decide⟩

/-! ### The fixed point of `handleEpsilons` -/

theorem pairs_allStates {p : Parse} (hwf : p.WF) : p.AllStates (PairState p.pairs) := by
  intro i c hc s hs ha
  obtain ⟨rb, hrb, -⟩ := (hwf.2 i c hc s hs).2.2.2.2 ha
  refine ⟨rb, hrb, ?_⟩
  simp only [Parse.pairs, List.mem_append, List.mem_flatMap, List.mem_filterMap]
  exact Or.inr ⟨c, List.get?_mem hc, s, hs, by simp [hrb]⟩

theorem reach_colLength_le {C : Nat → Prop} {p q : Parse} (hwf : p.WF) (hr : Reach C p q)
    (k : Nat) : q.colLength k ≤ p.stateBound := by
  have hPq : q.AllStates (PairState p.pairs) :=
    hr.allStates hwf (pairs_allStates hwf) (fun q1 hext _ hP1 _ _ hg => pair_step hP1 (by
      intro pr hpr
      rw [hext.grammars, hext.starts] at hpr
      simp only [Parse.pairs, List.mem_append]
      exact Or.inl hpr) hg)
  have := colLength_added_bound hr.toExt (hr.added hwf) (hr.wf hwf) hPq k
  unfold Parse.stateBound
  omega

theorem closedAt_complete_noop {q : Parse} (hwf : q.WF) {i : Nat} {s : TableState}
    (hin : q.InCol i s) (hcl : q.ClosedAt i s) (hdone : s.isCompleted = some true) :
    q.complete i s = some (q, false) := by
  obtain ⟨q1, c, hq1⟩ := complete_total hwf hin
  obtain ⟨colk, hk, -, -, -, -, hsame⟩ := complete_post hwf hin hdone hq1
  obtain ⟨rfl, rfl⟩ := hsame (hcl.1 hdone colk hk)
  exact hq1

theorem closedAt_predict_noop {q : Parse} (hwf : q.WF) {i : Nat} {s : TableState} {term : Term}
    (hin : q.InCol i s) (hcl : q.ClosedAt i s) (ht : s.getNextTerm = some (some term))
    (hty : term.Type_ = .Nonterminal) :
    q.predict i term = some (q, false) ∧
      ∀ g ∈ q.grammars, predictGrammar g q i term = some (q, false) := by
  obtain ⟨col, hc, hm⟩ := hin
  have hlt := get?_lt hc
  constructor
  · obtain ⟨q1, c, hq1⟩ := predict_nonterminal_total (p := q) hlt hty
    obtain ⟨-, -, -, hsame, -⟩ := predict_nonterminal_post hwf.1 hc hm ht hty hq1
    obtain ⟨rfl, rfl⟩ := hsame (hcl.2 term ht hty col hc)
    exact hq1
  · intro g hg
    rw [predictGrammar_eq g q i term col hc]
    obtain ⟨q1, c, hq1⟩ := insertAll_total i (predictTargets [g] term.Value col.index) q false hlt
    obtain ⟨-, -, -, -, -, -, hsame⟩ := insertAll_post i _ q q1 false c hwf.1 hq1
    obtain ⟨rfl, rfl⟩ := hsame (by
      intro s1 hs1
      apply hcl.2 term ht hty col hc
      obtain ⟨g1, hg1, r, hr, prod, hp, rfl⟩ := mem_predictTargets.mp hs1
      simp only [List.mem_singleton] at hg1
      subst hg1
      exact mem_predictTargets.mpr ⟨g1, hg, r, hr, prod, hp, rfl⟩)
    exact hq1

/-- C14: on a well-formed chart `handleEpsilons(col)` returns (with enough
fuel for its passes), and when it has returned, for every completed state of
the column a further `complete(col, s)` returns false and leaves the chart as
it is, and for every state of the column whose next term is a nonterminal a
further `Parse.predict(col, term)` returns false and leaves the chart as it is,
and so does `predict(g, col, term)` for every grammar `g` of `p.grammars`. -/
theorem handleEpsilons_fixed_point (p : Parse) (i : Nat) (hwf : p.WF)
    (hi : i < p.columns.length) :
    (∀ fuel, p.stateBound < fuel → ∃ q, Parse.handleEpsilons fuel p i = .ok q) ∧
    (∀ fuel q, Parse.handleEpsilons fuel p i = .ok q →
      (∀ s, q.InCol i s → s.isCompleted = some true → q.complete i s = some (q, false)) ∧
      (∀ s term, q.InCol i s → s.getNextTerm = some (some term) →
        term.Type_ = .Nonterminal →
        q.predict i term = some (q, false) ∧
          ∀ g ∈ q.grammars, predictGrammar g q i term = some (q, false))) := by
  constructor
  · intro fuel hfuel
    exact @handleEpsilons_total i p.stateBound fuel p hwf hi
      (fun q hq => reach_colLength_le hwf hq i) (by omega)
  · intro fuel q h
    obtain ⟨hr, hcl⟩ := handleEpsilons_post fuel p q hwf h
    have hwfq := hr.wf hwf
    exact ⟨fun s hin hdone => closedAt_complete_noop hwfq hin (hcl s hin) hdone,
      fun s term hin ht hty => closedAt_predict_noop hwfq hin (hcl s hin) ht hty⟩

theorem nullableWorkChart_wf : nullableWorkChart.WF := by
  have h0 : nullableChart.addStarts = some (nullableChart.addStarts.getD nullableChart) := by rfl
  have h1 : Parse.columnLoop 10 (nullableChart.addStarts.getD nullableChart) 0 0 =
      .ok nullableWorkChart := by rfl
  have hwf0 := addStarts_wf (freshChart_wf _ _ _) h0
  exact (@columnLoop_post (fun _ _ => True) 0 (fun _ _ _ _ _ _ _ _ _ _ _ => trivial) 10 _ 0 _
    hwf0 trivial h1).1.wf hwf0

/-- Witness of C14, on the chart for `S → A A`, `A → ε` over the empty input,
where `handleEpsilons` has to add `S → A A •` and the completed `GAMMA_RULE`
state to column `0`. -/
theorem handleEpsilons_fixed_point_witness :
    (∀ fuel, nullableWorkChart.stateBound < fuel →
      ∃ q, Parse.handleEpsilons fuel nullableWorkChart 0 = .ok q) ∧
    (∀ fuel q, Parse.handleEpsilons fuel nullableWorkChart 0 = .ok q →
      (∀ s, q.InCol 0 s → s.isCompleted = some true → q.complete 0 s = some (q, false)) ∧
      (∀ s term, q.InCol 0 s → s.getNextTerm = some (some term) →
        term.Type_ = .Nonterminal →
        q.predict 0 term = some (q, false) ∧
          ∀ g ∈ q.grammars, predictGrammar g q 0 term = some (q, false))) :=
  handleEpsilons_fixed_point nullableWorkChart 0 nullableWorkChart_wf (by decide)

/-! ### `insert` deduplicates -/

theorem sameState_iff (a b : TableState) :
    sameState a b = true ↔
      a = b ∨ (a.isAny = true ∧ b.isAny = true ∧ a.Start = b.Start ∧ a.End = b.End) := by
  simp [sameState, and_assoc]

theorem find?_first {α : Type} (f : α → Bool) (l : List α) (a : α)
    (h : l.find? f = some a) :
    ∃ pre post, l = pre ++ a :: post ∧ f a = true ∧ ∀ y ∈ pre, f y = false := by
  induction l with
  | nil => simp at h
  | cons x xs ih =>
    by_cases hx : f x = true
    · simp only [List.find?_cons, hx, Option.some.injEq] at h
      subst h
      exact ⟨[], xs, rfl, hx, by simp⟩
    · have hx : f x = false := by simpa using hx
      simp only [List.find?_cons, hx] at h
      obtain ⟨pre, post, hl, ha, hpre⟩ := ih h
      refine ⟨x :: pre, post, by rw [hl]; rfl, ha, ?_⟩
      intro y hy
      rcases List.mem_cons.mp hy with rfl | hy
      · exact hx
      · exact hpre y hy

theorem insert_cases (col : TableColumn) (s : TableState) :
    (∃ pre x post, col.states = pre ++ x :: post ∧
        sameState { s with End := col.index } x = true ∧
        (∀ y ∈ pre, sameState { s with End := col.index } y = false) ∧
        col.insert s = (col, x, false)) ∨
    ((∀ y ∈ col.states, sameState { s with End := col.index } y = false) ∧
      col.insert s = ({ col with states := col.states ++ [{ s with End := col.index }] },
        { s with End := col.index }, true)) := by
  unfold TableColumn.insert
  dsimp only
  cases hf : col.states.find? (fun x => sameState { s with End := col.index } x) with
  | some x =>
    left
    obtain ⟨pre, post, hl, hx, hpre⟩ := find?_first _ _ _ hf
    exact ⟨pre, x, post, hl, hx, hpre, rfl⟩
  | none =>
    right
    refine ⟨?_, rfl⟩
    intro y hy
    have := List.find?_eq_none.mp hf y hy
    simpa using this

/-- C15: `insert` stamps `End` with the column index and then looks for the
first state of the column that is deeply equal to the stamped state, or is a
wildcard state with the same `Start` and `End` when the stamped state is one;
it returns that state and leaves the column as it is, or else appends the
stamped state at the end and returns it. Either way the states already in the
column keep their values and positions and the length grows by at most one.
In a column whose states all have `End = index`, as in every chart `parse`
builds, the test on a wildcard state is the one on `Start` alone. -/
theorem insert_deduplicates (col : TableColumn) (s : TableState) :
    ((∃ pre x post, col.states = pre ++ x :: post ∧
        (x = { s with End := col.index } ∨
          (s.isAny = true ∧ x.isAny = true ∧ x.Start = s.Start ∧ x.End = col.index)) ∧
        (∀ y ∈ pre, ¬ (y = { s with End := col.index } ∨
          (s.isAny = true ∧ y.isAny = true ∧ y.Start = s.Start ∧ y.End = col.index))) ∧
        col.insert s = (col, x, false)) ∨
     ((∀ y ∈ col.states, ¬ (y = { s with End := col.index } ∨
          (s.isAny = true ∧ y.isAny = true ∧ y.Start = s.Start ∧ y.End = col.index))) ∧
      col.insert s = ({ col with states := col.states ++ [{ s with End := col.index }] },
        { s with End := col.index }, true))) ∧
    (∀ j x, col.states.get? j = some x → (col.insert s).1.states.get? j = some x) ∧
    col.states.length ≤ (col.insert s).1.states.length ∧
    (col.insert s).1.states.length ≤ col.states.length + 1 ∧
    (col.insert s).1.index = col.index ∧ (col.insert s).1.token = col.token ∧
    ((∀ y ∈ col.states, y.End = col.index) →
      ((∃ pre x post, col.states = pre ++ x :: post ∧
          (x = { s with End := col.index } ∨
            (s.isAny = true ∧ x.isAny = true ∧ x.Start = s.Start)) ∧
          (∀ y ∈ pre, ¬ (y = { s with End := col.index } ∨
            (s.isAny = true ∧ y.isAny = true ∧ y.Start = s.Start))) ∧
          col.insert s = (col, x, false)) ∨
       ((∀ y ∈ col.states, ¬ (y = { s with End := col.index } ∨
            (s.isAny = true ∧ y.isAny = true ∧ y.Start = s.Start))) ∧
        col.insert s = ({ col with states := col.states ++ [{ s with End := col.index }] },
          { s with End := col.index }, true)))) := by
  have htest : ∀ y : TableState, sameState { s with End := col.index } y = true ↔
      (y = { s with End := col.index } ∨
        (s.isAny = true ∧ y.isAny = true ∧ y.Start = s.Start ∧ y.End = col.index)) := by
    intro y
    rw [sameState_iff]
    constructor
    · rintro (h | ⟨h1, h2, h3, h4⟩)
      · exact Or.inl h.symm
      · exact Or.inr ⟨h1, h2, h3.symm, h4.symm⟩
    · rintro (h | ⟨h1, h2, h3, h4⟩)
      · exact Or.inl h.symm
      · exact Or.inr ⟨h1, h2, h3.symm, h4.symm⟩
  have hfalse : ∀ y : TableState, sameState { s with End := col.index } y = false ↔
      ¬ (y = { s with End := col.index } ∨
        (s.isAny = true ∧ y.isAny = true ∧ y.Start = s.Start ∧ y.End = col.index)) := by
    intro y
    rw [← htest y]
    simp
  have hmain : (∃ pre x post, col.states = pre ++ x :: post ∧
        (x = { s with End := col.index } ∨
          (s.isAny = true ∧ x.isAny = true ∧ x.Start = s.Start ∧ x.End = col.index)) ∧
        (∀ y ∈ pre, ¬ (y = { s with End := col.index } ∨
          (s.isAny = true ∧ y.isAny = true ∧ y.Start = s.Start ∧ y.End = col.index))) ∧
        col.insert s = (col, x, false)) ∨
     ((∀ y ∈ col.states, ¬ (y = { s with End := col.index } ∨
          (s.isAny = true ∧ y.isAny = true ∧ y.Start = s.Start ∧ y.End = col.index))) ∧
      col.insert s = ({ col with states := col.states ++ [{ s with End := col.index }] },
        { s with End := col.index }, true)) := by
    rcases insert_cases col s with ⟨pre, x, post, hl, hx, hpre, hins⟩ | ⟨hno, hins⟩
    · exact Or.inl ⟨pre, x, post, hl, (htest x).mp hx,
        fun y hy => (hfalse y).mp (hpre y hy), hins⟩
    · exact Or.inr ⟨fun y hy => (hfalse y).mp (hno y hy), hins⟩
  refine ⟨hmain, ?_, ?_, ?_, (insert_index col s).1, (insert_index col s).2, ?_⟩
  · intro j x hj
    rcases insert_states col s with ⟨h1, -, -⟩ | ⟨h1, -, -⟩
    · rw [h1]; exact hj
    · rw [h1]
      simp only [List.get?_eq_getElem?] at hj ⊢
      rw [List.getElem?_append_left (by
        by_contra hn
        rw [List.getElem?_eq_none (by omega)] at hj
        cases hj)]
      exact hj
  · rcases insert_states col s with ⟨h1, -, -⟩ | ⟨h1, -, -⟩ <;> simp [h1]
  · rcases insert_states col s with ⟨h1, -, -⟩ | ⟨h1, -, -⟩ <;> simp [h1]
  · intro hend
    have hdrop : ∀ y ∈ col.states,
        ((y = { s with End := col.index } ∨
          (s.isAny = true ∧ y.isAny = true ∧ y.Start = s.Start ∧ y.End = col.index)) ↔
         (y = { s with End := col.index } ∨
          (s.isAny = true ∧ y.isAny = true ∧ y.Start = s.Start))) := by
      intro y hy
      have := hend y hy
      constructor
      · rintro (h | ⟨h1, h2, h3, -⟩)
        · exact Or.inl h
        · exact Or.inr ⟨h1, h2, h3⟩
      · rintro (h | ⟨h1, h2, h3⟩)
        · exact Or.inl h
        · exact Or.inr ⟨h1, h2, h3, this⟩
    rcases hmain with ⟨pre, x, post, hl, hx, hpre, hins⟩ | ⟨hno, hins⟩
    · left
      have hxm : x ∈ col.states := by rw [hl]; simp
      refine ⟨pre, x, post, hl, (hdrop x hxm).mp hx, ?_, hins⟩
      intro y hy hc
      have hym : y ∈ col.states := by rw [hl]; exact List.mem_append_left _ hy
      exact hpre y hy ((hdrop y hym).mpr hc)
    · right
      exact ⟨fun y hy hc => hno y hy ((hdrop y hy).mpr hc), hins⟩

/-- Witness of C15: a wildcard state with `Start = 0` inserted into a column of
index `2` that holds a wildcard state with `Start = 0` and another `dot`. -/
theorem insert_deduplicates_witness :
    (∃ pre x post, anyColumn.states = pre ++ x :: post ∧
        (x = { anyProbe with End := anyColumn.index } ∨
          (anyProbe.isAny = true ∧ x.isAny = true ∧ x.Start = anyProbe.Start)) ∧
        (∀ y ∈ pre, ¬ (y = { anyProbe with End := anyColumn.index } ∨
          (anyProbe.isAny = true ∧ y.isAny = true ∧ y.Start = anyProbe.Start))) ∧
        anyColumn.insert anyProbe = (anyColumn, x, false)) ∨
     ((∀ y ∈ anyColumn.states, ¬ (y = { anyProbe with End := anyColumn.index } ∨
          (anyProbe.isAny = true ∧ y.isAny = true ∧ y.Start = anyProbe.Start))) ∧
      anyColumn.insert anyProbe =
        ({ anyColumn with
            states := anyColumn.states ++ [{ anyProbe with End := anyColumn.index }] },
          { anyProbe with End := anyColumn.index }, true)) :=
  (insert_deduplicates anyColumn anyProbe).2.2.2.2.2.2 (by decide)

/-! ### Columns are deduplicated sets -/

theorem dedup_insertAt {p q : Parse} {i : Nat} {s : TableState} {b : Bool} (hd : p.Dedup)
    (hwf : p.WF) (h : p.insertAt i s = some (q, b)) : q.Dedup := by
  intro k c hc
  by_cases hki : k = i
  · subst hki
    obtain ⟨col, hcol, hq, -⟩ := insertAt_column h
    rw [hq] at hc
    cases hc
    have hidx := hwf.1 k col hcol
    rcases insert_states col s with ⟨h1, -, -⟩ | ⟨h1, -, hno⟩
    · unfold DedupStates
      rw [h1]
      exact hd k col hcol
    · unfold DedupStates
      rw [h1, List.pairwise_append]
      refine ⟨hd k col hcol, List.pairwise_singleton _ _, ?_⟩
      intro a ha x hx
      simp only [List.mem_singleton] at hx
      subst hx
      have hsame := hno a ha
      have hend := (hwf.2 k col hcol a ha).1
      simp only [sameState, Bool.or_eq_false_iff, decide_eq_false_iff_not,
        Bool.and_eq_false_iff] at hsame
      obtain ⟨hne, hw⟩ := hsame
      refine ⟨fun h => hne h.symm, ?_⟩
      rintro ⟨ha1, ha2, ha3⟩
      simp only at ha2
      rcases hw with ((h | h) | h) | h
      · exact absurd ha2 (by simpa using h)
      · exact absurd ha1 (by simpa using h)
      · exact h ha3.symm
      · exact h (by rw [hend, hidx])
  · rw [insertAt_other h hki] at hc
    exact hd k c hc

theorem Reach.dedup {C : Nat → Prop} {p q : Parse} (h : Reach C p q) (hwf : p.WF)
    (hd : p.Dedup) : q.Dedup := by
  induction h with
  | refl => exact hd
  | step q r i s b hr _ _ hins ih => exact dedup_insertAt ih (hr.wf hwf) hins

theorem gammaState_injective : Function.Injective gammaState := by
  intro a b h
  simp only [gammaState, gammaBody, TableState.mk.injEq, Option.some.injEq, RuleBody.mk.injEq,
    List.cons.injEq, Term.mk.injEq] at h
  exact h.2.1.1.1.1

theorem freshChart_addStarts_dedup (gs : List Grammar) (starts toks : List String)
    (hs : starts.Nodup) {p0 : Parse} (h : (freshChart gs starts toks).addStarts = some p0) :
    p0.Dedup := by
  obtain ⟨col0, cols, hcols, rfl⟩ := addStarts_spec h
  intro i col hc
  cases i with
  | zero =>
    simp only [List.get?_cons_zero, Option.some.injEq] at hc
    subst hc
    have h0 : col0.states = [] :=
      (freshChart_column gs starts toks 0 col0 (by rw [hcols]; rfl)).2
    simp only [h0, List.nil_append]
    unfold DedupStates
    rw [List.pairwise_map]
    have hs1 : (freshChart gs starts toks).starts.Pairwise (fun a b => a ≠ b) := hs
    refine hs1.imp ?_
    intro a b hab
    refine ⟨fun h => hab (gammaState_injective h), ?_⟩
    rintro ⟨ha, -⟩
    simp [gammaState] at ha
  | succ i =>
    simp only [List.get?_cons_succ] at hc
    have h0 : col.states = [] :=
      (freshChart_column gs starts toks (i + 1) col (by rw [hcols]; exact hc)).2
    unfold DedupStates
    rw [h0]
    exact List.Pairwise.nil

theorem dedupStates_positions {l : List TableState} (hd : DedupStates l) (j k : Nat)
    (a b : TableState) (hjk : j ≠ k) (hj : l.get? j = some a) (hk : l.get? k = some b) :
    a ≠ b ∧ ¬ (a.isAny = true ∧ b.isAny = true ∧ a.Start = b.Start) := by
  have hjl := get?_lt hj
  have hkl := get?_lt hk
  simp only [List.get?_eq_getElem?] at hj hk
  rw [List.getElem?_eq_getElem hjl] at hj
  rw [List.getElem?_eq_getElem hkl] at hk
  simp only [Option.some.injEq] at hj hk
  have hp := List.pairwise_iff_getElem.mp hd
  rcases Nat.lt_or_gt_of_ne hjk with hlt | hgt
  · have := hp j k hjl hkl hlt
    rw [hj, hk] at this
    exact this
  · have := hp k j hkl hjl hgt
    rw [hj, hk] at this
    exact ⟨fun h => this.1 h.symm, fun ⟨h1, h2, h3⟩ => this.2 ⟨h2, h1, h3.symm⟩⟩

/-- Every state that goes through `insert` is deduplicated: on a fresh chart
whose start-symbol list has no repetition, `parse` returns (given enough fuel)
and in the chart it leaves no column holds, at two different positions, two
states that are deeply equal or two wildcard states with the same `Start`. -/
theorem parse_columns_deduplicated (gs : List Grammar) (starts toks : List String)
    (maxFlag : Bool) (hs : starts.Nodup) (fuel : Nat)
    (hfuel : (freshChart gs starts toks).stateBound < fuel) :
    ∃ q ret, (freshChart gs starts toks).parse fuel maxFlag = .ok (q, ret) ∧
      ∀ i col, q.columns.get? i = some col → ∀ j k a b, j ≠ k →
        col.states.get? j = some a → col.states.get? k = some b →
        a ≠ b ∧ ¬ (a.isAny = true ∧ b.isAny = true ∧ a.Start = b.Start) := by
  have hwf := freshChart_wf gs starts toks
  obtain ⟨q, ret, hq⟩ := parse_total_wf hwf (by simp [freshChart]) fuel hfuel maxFlag
  refine ⟨q, ret, hq, ?_⟩
  have hd : q.Dedup := by
    rcases parse_chart hq with ⟨-, rfl, -⟩ | ⟨-, q1, hsw, -, rfl⟩
    · intro i col hc
      unfold DedupStates
      rw [(freshChart_column gs starts toks i col hc).2]
      exact List.Pairwise.nil
    · obtain ⟨p0, h0, hwf0, hr, -⟩ := sweep_reach hwf hsw
      exact hr.dedup hwf0 (freshChart_addStarts_dedup gs starts toks hs h0)
  intro i col hc j k a b hjk hj hk
  exact dedupStates_positions (hd i col hc) j k a b hjk hj hk

/-- An instance of `parse_columns_deduplicated`: the chart with the two start
symbols `A` and `B`. -/
theorem parse_columns_deduplicated_witness :
    ∃ q ret, twoStartChart.parse 40 true = .ok (q, ret) ∧
      ∀ i col, q.columns.get? i = some col → ∀ j k a b, j ≠ k →
        col.states.get? j = some a → col.states.get? k = some b →
        a ≠ b ∧ ¬ (a.isAny = true ∧ b.isAny = true ∧ a.Start = b.Start) :=
  parse_columns_deduplicated _ ["A", "B"] ["x"] true (by decide) 40 (by decide)

/-- C16, the code at the failing input: with the start symbol `S` named
twice, the first loop of `parse` appends the state `ɣ → • S` twice to
`p.columns[0].states`, without going through `insert` as `predict`, `scan` and
`complete` do, and the chart `parse` leaves holds it at the positions `0` and
`1` of column `0`: the column is no deduplicated set. -/
theorem parse_repeated_start_duplicates :
    ∃ q ret col, repeatedStartChart.parse 10 false = .ok (q, ret) ∧
      q.columns.get? 0 = some col ∧ col.states.get? 0 = some (gammaState "S") ∧
      col.states.get? 1 = some (gammaState "S") :=
  ⟨_, _, _, by rfl, by rfl, by rfl, by rfl⟩

/-! ### The operations preserve the chart invariant -/

theorem insertAll_wf {i : Nat} {l : List TableState} {p q : Parse} {ch c : Bool}
    (hwf : p.WF) (hgood : ∀ s ∈ l, GoodState i (stamp i s))
    (h : insertAll i l p ch = some (q, c)) : q.WF := by
  induction l generalizing p ch with
  | nil =>
    simp only [insertAll, Option.some.injEq, Prod.mk.injEq] at h
    rw [← h.1]
    exact hwf
  | cons s rest ih =>
    simp only [insertAll] at h
    split at h
    · cases h
    · rename_i p1 b h1
      have hwf1 : p1.WF := ⟨hwf.1.ofExt (insertAt_ext h1),
        allStates_insertAt hwf.1 hwf.2 (hgood s (List.mem_cons_self _ _)) h1⟩
      exact ih hwf1 (fun s1 hs1 => hgood s1 (List.mem_cons_of_mem _ hs1)) h

theorem predictGrammars_wf {i : Nat} {term : Term} {gs : List Grammar} {p q : Parse}
    {ch c : Bool} (hwf : p.WF) (h : predictGrammars i term gs p ch = some (q, c)) : q.WF := by
  induction gs generalizing p ch with
  | nil =>
    simp only [predictGrammars, Option.some.injEq, Prod.mk.injEq] at h
    rw [← h.1]
    exact hwf
  | cons g gs ih =>
    cases ch with
    | true =>
      rw [predictGrammars_true] at h
      simp only [Option.some.injEq, Prod.mk.injEq] at h
      rw [← h.1]
      exact hwf
    | false =>
      simp only [predictGrammars, Bool.false_eq_true, if_false] at h
      cases hc : p.columns.get? i with
      | none =>
        have : predictGrammar g p i term = some (p, false) ∨ predictGrammar g p i term = none ∨
            ∃ r1, predictGrammar g p i term = some r1 ∧ r1.1.WF := by
          unfold predictGrammar
          cases hr : g.rule term.Value with
          | none => exact Or.inl rfl
          | some r =>
            simp only
            cases hb : r.Body with
            | nil => exact Or.inl (by simp [predictBodies])
            | cons b bs =>
              refine Or.inr (Or.inl ?_)
              unfold predictBodies
              rw [hc]
        rcases this with h1 | h1 | ⟨r1, h1, hw1⟩
        · rw [h1] at h
          exact ih hwf h
        · rw [h1] at h
          cases h
        · rw [h1] at h
          exact ih hw1 h
      | some col =>
        rw [predictGrammar_eq g p i term col hc] at h
        cases h1 : insertAll i (predictTargets [g] term.Value col.index) p false with
        | none => rw [h1] at h; cases h
        | some r1 =>
          obtain ⟨p1, c1⟩ := r1
          rw [h1] at h
          have hidx := hwf.1 i col hc
          have hwf1 : p1.WF := insertAll_wf hwf (by
            intro s hs
            obtain ⟨g1, -, r, -, prod, -, rfl⟩ := mem_predictTargets.mp hs
            refine ⟨rfl, ?_, ?_, ?_, ?_⟩ <;> simp [stamp, predictedState, hidx]) h1
          exact ih hwf1 h

theorem predict_wf {p q : Parse} {i : Nat} {term : Term} {c : Bool} (hwf : p.WF)
    (h : p.predict i term = some (q, c)) : q.WF := by
  unfold Parse.predict at h
  cases hty : term.Type_ with
  | Nonterminal =>
    simp only [hty] at h
    exact predictGrammars_wf hwf h
  | Terminal =>
    simp only [hty, Option.some.injEq, Prod.mk.injEq] at h
    rw [← h.1]
    exact hwf
  | Any =>
    simp only [hty] at h
    cases hc : p.columns.get? i with
    | none => rw [hc] at h; cases h
    | some col =>
      rw [hc] at h
      simp only at h
      have hidx := hwf.1 i col hc
      exact ⟨hwf.1.ofExt (insertAt_ext h), allStates_insertAt hwf.1 hwf.2 (by
        refine ⟨rfl, ?_, ?_, ?_, ?_⟩ <;> simp [stamp, hidx]) h⟩

theorem complete_wf {p q : Parse} {i : Nat} {state : TableState} {c : Bool} (hwf : p.WF)
    (hin : p.InCol i state) (h : p.complete i state = some (q, c)) : q.WF := by
  obtain ⟨colk, hk, heq⟩ := complete_eq hwf hin
  rw [heq] at h
  obtain ⟨col, hc, hm⟩ := hin
  have hgs := hwf.2 i col hc state hm
  obtain ⟨hk0, hck⟩ := Parse.column_some hk
  refine insertAll_wf hwf ?_ h
  intro s hs
  obtain ⟨st, term, hst, rfl, ht, -⟩ := mem_completions hs
  have hgood := hwf.2 _ colk hck st hst
  have h1 := hgood.2.2.1
  have h2 := hgs.2.2.1
  have h3 := hgood.2.2.2.1
  refine ⟨rfl, hgood.2.1, by simp only [stamp, advanced]; omega,
    by simp only [stamp, advanced]; omega, ?_⟩
  intro hna
  simp only [stamp, advanced] at hna
  obtain ⟨rb, hrb, h0, hlt, -, -⟩ := getNextTerm_nonwild hna ht
  exact ⟨rb, hrb, by simp only [stamp, advanced]; omega⟩

theorem scan_wf {p q : Parse} {i : Nat} {st : TableState} {term : Term} (hwf : p.WF)
    (hin : p.InCol i st)
    (hcall : (st.isAny = true ∧ term.Type_ = .Any) ∨
      (st.isAny = false ∧ st.getNextTerm = some (some term) ∧ term.Type_ = .Terminal))
    (h : p.scan (i + 1) st term = some q) : q.WF := by
  obtain ⟨col, hc, hm⟩ := hin
  have hgood := hwf.2 i col hc st hm
  have h1 := hgood.2.2.1
  have h3 := hgood.2.2.2.1
  unfold Parse.scan at h
  rcases hcall with ⟨ha, hty⟩ | ⟨ha, ht, hty⟩
  · simp only [hty, if_true] at h
    cases hins : p.insertAt (i + 1) { Name := "any", Rb := st.Rb, Start := st.Start, End := 0, dot := st.dot + 1, isAny := st.isAny, meta := term.Meta } with
    | none => rw [hins] at h; cases h
    | some r =>
      obtain ⟨q1, b⟩ := r
      rw [hins] at h
      simp only [Option.map_some', Option.some.injEq] at h
      subst h
      refine ⟨hwf.1.ofExt (insertAt_ext hins), allStates_insertAt hwf.1 hwf.2 ?_ hins⟩
      refine ⟨rfl, hgood.2.1, by simp only [stamp]; push_cast; omega,
        by simp only [stamp]; omega, ?_⟩
      intro hna
      simp only [stamp] at hna
      rw [ha] at hna
      cases hna
  · simp only [hty, reduceCtorEq, if_false] at h
    cases hc1 : p.columns.get? (i + 1) with
    | none => rw [hc1] at h; cases h
    | some col1 =>
      rw [hc1] at h
      simp only at h
      by_cases htok : term.Value = col1.token
      · simp only [htok, if_true] at h
        cases hins : p.insertAt (i + 1) { Name := st.Name, Rb := st.Rb, Start := st.Start, End := 0, dot := st.dot + 1, isAny := false, meta := .nil } with
        | none => rw [hins] at h; cases h
        | some r =>
          obtain ⟨q1, b⟩ := r
          rw [hins] at h
          simp only [Option.map_some', Option.some.injEq] at h
          subst h
          obtain ⟨rb, hrb, h0, hlt, -, -⟩ := getNextTerm_nonwild ha ht
          refine ⟨hwf.1.ofExt (insertAt_ext hins), allStates_insertAt hwf.1 hwf.2 ?_ hins⟩
          exact ⟨rfl, hgood.2.1, by simp only [stamp]; push_cast; omega,
            by simp only [stamp]; omega, fun _ => ⟨rb, hrb, by simp only [stamp]; omega⟩⟩
      · simp only [htok, if_false, Option.some.injEq] at h
        subst h
        exact hwf

/-- C17: on a chart whose column at position `i` has index `i` (and whose
states, if it holds any yet, satisfy the invariant), every state found in
column `i` after `parse` satisfies `End = i`, `0 ≤ Start ≤ End`, `0 ≤ dot`
and, when it is not a wildcard state, has a rule body with
`dot ≤ len(Rb.Terms)`; `parse` does return when there is a column and enough
fuel; and the invariant is kept by every step of the work-list loop, by the
loop itself, by `predict`, by `scan` as `parse` calls it (a wildcard state
with a wildcard term, or a rule state with its next terminal), by `complete`
and by `handleEpsilons`. -/
theorem chart_state_invariant (p : Parse) (hwf : p.WF) :
    (∀ fuel maxFlag q ret, p.parse fuel maxFlag = .ok (q, ret) →
      ∀ i col, q.columns.get? i = some col → col.index = (i : Int) ∧ ∀ s ∈ col.states,
        s.End = (i : Int) ∧ 0 ≤ s.Start ∧ s.Start ≤ s.End ∧ 0 ≤ s.dot ∧
          (s.isAny = false → ∃ rb, s.Rb = some rb ∧ s.dot ≤ (rb.Terms.length : Int))) ∧
    (p.columns ≠ [] → ∀ fuel maxFlag, p.stateBound < fuel →
      ∃ q ret, p.parse fuel maxFlag = .ok (q, ret) ∧ q.WF) ∧
    (∀ i st, p.InCol i st → ∃ q, p.processState i st = some q ∧ q.WF) ∧
    (∀ fuel i j q, Parse.columnLoop fuel p i j = .ok q → q.WF) ∧
    (∀ i term q c, p.predict i term = some (q, c) → q.WF) ∧
    (∀ i st term q, p.InCol i st →
      ((st.isAny = true ∧ term.Type_ = .Any) ∨
        (st.isAny = false ∧ st.getNextTerm = some (some term) ∧ term.Type_ = .Terminal)) →
      p.scan (i + 1) st term = some q → q.WF) ∧
    (∀ i state q c, p.InCol i state → p.complete i state = some (q, c) → q.WF) ∧
    (∀ fuel i q, Parse.handleEpsilons fuel p i = .ok q → q.WF) := by
  have hparse : ∀ fuel maxFlag q ret, p.parse fuel maxFlag = .ok (q, ret) → q.WF := by
    intro fuel maxFlag q ret h
    rcases parse_chart h with ⟨-, rfl, -⟩ | ⟨-, q1, hsw, -, rfl⟩
    · exact hwf
    · obtain ⟨_, _, _, _, hwfq⟩ := sweep_reach hwf hsw
      exact hwfq
  refine ⟨?_, ?_, ?_, ?_, ?_, ?_, ?_, ?_⟩
  · intro fuel maxFlag q ret h i col hc
    have hq := hparse fuel maxFlag q ret h
    refine ⟨hq.1 i col hc, ?_⟩
    intro s hs
    obtain ⟨h1, h2, h3, h4, h5⟩ := hq.2 i col hc s hs
    exact ⟨h1, h2, by rw [h1]; exact h3, h4, h5⟩
  · intro hne fuel maxFlag hfuel
    obtain ⟨q, ret, h⟩ := parse_total_wf hwf hne fuel hfuel maxFlag
    exact ⟨q, ret, h, hparse fuel maxFlag q ret h⟩
  · intro i st hin
    obtain ⟨q, hq, hr, -⟩ := processState_post hwf hin
    exact ⟨q, hq, hr.wf hwf⟩
  · intro fuel i j q h
    exact (@columnLoop_post (fun _ _ => True) i (fun _ _ _ _ _ _ _ _ _ _ _ => trivial) fuel p j q
      hwf trivial h).1.wf hwf
  · intro i term q c h
    exact predict_wf hwf h
  · intro i st term q hin hcall h
    exact scan_wf hwf hin hcall h
  · intro i state q c hin h
    exact complete_wf hwf hin h
  · intro fuel i q h
    exact (handleEpsilons_post fuel p q hwf h).1.wf hwf

/-- Witness of C17, on the chart with two start symbols. -/
theorem chart_state_invariant_witness :
    ∃ q ret, twoStartChart.parse 40 true = .ok (q, ret) ∧ q.WF :=
  (chart_state_invariant twoStartChart (freshChart_wf _ _ _)).2.1 (by decide) 40 true
    (by decide)

/-! ### The dot of a wildcard state -/

theorem allStates_insertAt_fresh {P : Nat → TableState → Prop} {p q : Parse} {i : Nat}
    {s : TableState} {b : Bool} (hi : p.Indexed) (hP : p.AllStates P)
    (hs : ¬ p.Present i s → P i (stamp i s))
    (h : p.insertAt i s = some (q, b)) : q.AllStates P := by
  by_cases hpres : p.Present i s
  · have hb := (insertAt_fresh_iff hi h).mpr hpres
    rw [insertAt_unchanged h hb]
    exact hP
  · exact allStates_insertAt hi hP (hs hpres) h

theorem Reach.allStates_fresh {C : Nat → Prop} {P : Nat → TableState → Prop} {p q : Parse}
    (h : Reach C p q) (hwf : p.WF) (hP : p.AllStates P)
    (hstep : ∀ q1, p.Ext q1 → q1.WF → q1.AllStates P → ∀ i s, Gen q1 i s →
      ¬ q1.Present i s → P i (stamp i s)) :
    q.AllStates P := by
  induction h with
  | refl => exact hP
  | step q r i s b hr _ hg hins ih =>
    exact allStates_insertAt_fresh (hr.wf hwf).1 ih (hstep q hr.toExt (hr.wf hwf) ih i s hg) hins

theorem anyWithin_step {q : Parse} (hwf : q.WF) (hP : q.AllStates AnyWithin) {i : Nat}
    {s : TableState} (hg : Gen q i s) (hnew : ¬ q.Present i s) : AnyWithin i (stamp i s) := by
  intro ha
  cases hg with
  | predictRule i col st term g r prod hc hmem ht hty hg hr hp => simp [stamp] at ha
  | predictAny i col st term hc hmem hna ht hty =>
    have hidx := hwf.1 i col hc
    simp [stamp, hidx]
  | scanAny i col st hc hmem hst hmeta hlen =>
    have := hP i col hc st hmem hst
    simp only [stamp]
    push_cast
    omega
  | scanTerminal i col col1 st term hc hmem hna ht hty hc1 htok => simp [stamp] at ha
  | complete i col state colk st term hc hmem hdone hk hmk ht hty =>
    simp only [stamp] at ha ⊢
    have hgs := hwf.2 i col hc state hmem
    obtain ⟨hk0, hck⟩ := Parse.column_some hk
    have hgst := hwf.2 _ colk hck st hmk
    have hst := hP _ colk hck st hmk ha
    have h2 := hgs.2.2.1
    by_cases hlt : state.Start < (i : Int)
    · have : ((state.Start.toNat : Nat) : Int) = state.Start := Int.toNat_of_nonneg hk0
      omega
    · exfalso
      apply hnew
      have hki : state.Start.toNat = i := by omega
      rw [hki] at hck
      refine ⟨st, ⟨colk, hck, hmk⟩, ?_⟩
      have hend := (hwf.2 i colk hck st hmk).1
      simp [sameState, stamp, ha, hend]

theorem anyExact_step {q : Parse} (hwf : q.WF) (hP : q.AllStates AnyExact) {i : Nat}
    {s : TableState} (hg : Gen q i s) : AnyExact i (stamp i s) := by
  intro ha hm
  cases hg with
  | predictRule i col st term g r prod hc hmem ht hty hg hr hp => simp [stamp] at ha
  | predictAny i col st term hc hmem hna ht hty =>
    have hidx := hwf.1 i col hc
    simp [stamp, hidx]
  | scanAny i col st hc hmem hst hmeta hlen =>
    simp only [stamp] at hm ⊢
    have := hP i col hc st hmem hst hm
    push_cast
    omega
  | scanTerminal i col col1 st term hc hmem hna ht hty hc1 htok => simp [stamp] at ha
  | complete i col state colk st term hc hmem hdone hk hmk ht hty => simp [stamp] at hm

/-- C18, as the code has it: in the chart `parse` leaves (started from a
well-formed chart whose wildcard states, if any, satisfy the same bounds, such
as a fresh one), every wildcard state in column `c` with `Start = k` has
`0 ≤ dot ≤ c - k`, and `dot = c - k` when it carries a `meta` (bounds): such
states come from `predict` and `scan` only, and `scan` moves a state one
column on for one more in `dot`. The wildcard copies `complete` inserts carry
no `meta`, and their `dot` can stay below `c - k`. With a column and enough
fuel `parse` does return. -/
theorem wildcard_dot_bounded (p : Parse) (hwf : p.WF) (hP : p.AllStates AnyWithin)
    (hE : p.AllStates AnyExact) :
    (∀ fuel maxFlag q ret, p.parse fuel maxFlag = .ok (q, ret) →
      ∀ c col, q.columns.get? c = some col → ∀ s ∈ col.states, s.isAny = true →
        0 ≤ s.dot ∧ s.dot ≤ (c : Int) - s.Start ∧
          (s.meta ≠ .nil → s.dot = (c : Int) - s.Start)) ∧
    (p.columns ≠ [] → ∀ fuel maxFlag, p.stateBound < fuel →
      ∃ q ret, p.parse fuel maxFlag = .ok (q, ret)) := by
  constructor
  · intro fuel maxFlag q ret h c col hc s hs ha
    have hall : q.WF ∧ q.AllStates AnyWithin ∧ q.AllStates AnyExact := by
      rcases parse_chart h with ⟨-, rfl, -⟩ | ⟨-, q1, hsw, -, rfl⟩
      · exact ⟨hwf, hP, hE⟩
      · obtain ⟨p0, h0, hwf0, hr, hwfq⟩ := sweep_reach hwf hsw
        have hP0 : p0.AllStates AnyWithin := addStarts_allStates hP (by
          intro start _ ha
          simp [gammaState] at ha) h0
        have hE0 : p0.AllStates AnyExact := addStarts_allStates hE (by
          intro start _ ha
          simp [gammaState] at ha) h0
        exact ⟨hwfq,
          hr.allStates_fresh hwf0 hP0 (fun q1 _ hwf1 hP1 i s hg hnew =>
            anyWithin_step hwf1 hP1 hg hnew),
          hr.allStates hwf0 hE0 (fun q1 _ hwf1 hE1 i s hg => anyExact_step hwf1 hE1 hg)⟩
    obtain ⟨hwfq, hPq, hEq⟩ := hall
    exact ⟨(hwfq.2 c col hc s hs).2.2.2.1, hPq c col hc s hs ha, hEq c col hc s hs ha⟩
  · intro hne fuel maxFlag hfuel
    exact parse_total_wf hwf hne fuel hfuel maxFlag

/-- Witness of C18 as amended, on the chart for `S → "a" "b" | any{1,1}`
over `a b`. -/
theorem wildcard_dot_bounded_witness :
    ∃ q ret, wildcardGapChart.parse 20 false = .ok (q, ret) ∧
      ∀ c col, q.columns.get? c = some col → ∀ s ∈ col.states, s.isAny = true →
        0 ≤ s.dot ∧ s.dot ≤ (c : Int) - s.Start ∧
          (s.meta ≠ .nil → s.dot = (c : Int) - s.Start) :=
  ⟨((wildcardGapChart.parse 20 false).getD (wildcardGapChart, [])).1,
   ((wildcardGapChart.parse 20 false).getD (wildcardGapChart, [])).2, by rfl,
   (wildcard_dot_bounded wildcardGapChart (freshChart_wf _ _ _) (freshChart_allStates _ _ _ _)
      (freshChart_allStates _ _ _ _)).1 20 false _
      ((wildcardGapChart.parse 20 false).getD (wildcardGapChart, [])).2 (by rfl)⟩

/-- Counterexample to C18: with `S → "a" "b" | any{1,1}` over `a b`, when
`S → "a" "b" •` completes in column `2`, `complete` advances the wildcard state
that waits in column `0` with `dot = 0` and inserts its copy into column `2`:
a wildcard state with `Start = 0` and `dot = 1` in column `2`. -/
theorem wildcard_dot_counterexample :
    ∃ q ret col s, wildcardGapChart.parse 20 false = .ok (q, ret) ∧
      q.columns.get? 2 = some col ∧ s ∈ col.states ∧ s.isAny = true ∧ s.Start = 0 ∧
      s.dot = 1 ∧ s.dot ≠ 2 - s.Start :=
  ⟨_, _, _, { Name := "any", Rb := none, Start := 0, End := 2, dot := 1, isAny := true,
              meta := .nil }, by rfl, by rfl, by decide, rfl, rfl, rfl, by decide⟩

/-! ### Termination of `parse` -/

/-- C19: `parse` terminates. On the fresh chart of any grammars, start symbols
and tokens, and on any well-formed chart with a column, `parse` returns as soon
as the fuel exceeds `Parse.stateBound`, a number computed from the chart before
the run; so do the work-list loop and the loop of `handleEpsilons` on every
column. The reason is the one the claim gives: every chart the sweep reaches
has at most `stateBound` states in each column, `insert` appending only states
that match none of the column. -/
theorem parse_terminates :
    (∀ (gs : List Grammar) (starts toks : List String) (maxFlag : Bool) (fuel : Nat),
      (freshChart gs starts toks).stateBound < fuel →
      ∃ q ret, (freshChart gs starts toks).parse fuel maxFlag = .ok (q, ret)) ∧
    (∀ (p : Parse), p.WF → p.columns ≠ [] → ∀ (maxFlag : Bool) (fuel : Nat),
      p.stateBound < fuel → ∃ q ret, p.parse fuel maxFlag = .ok (q, ret)) ∧
    (∀ (p : Parse), p.WF → ∀ i, i < p.columns.length → ∀ fuel, p.stateBound < fuel →
      (∃ q, Parse.columnLoop fuel p i 0 = .ok q) ∧
      (∃ q, Parse.handleEpsilons fuel p i = .ok q)) ∧
    (∀ (p q : Parse), p.WF → Reach (fun _ => True) p q → ∀ k, q.colLength k ≤ p.stateBound) := by
  refine ⟨?_, ?_, ?_, ?_⟩
  · intro gs starts toks maxFlag fuel hfuel
    exact parse_total_wf (freshChart_wf gs starts toks) (by simp [freshChart]) fuel hfuel maxFlag
  · intro p hwf hne maxFlag fuel hfuel
    exact parse_total_wf hwf hne fuel hfuel maxFlag
  · intro p hwf i hi fuel hfuel
    constructor
    · exact @columnLoop_total i p.stateBound fuel p 0 hwf hi
        (fun q hq => reach_colLength_le hwf hq i) (Nat.zero_le _) (by omega)
    · exact @handleEpsilons_total i p.stateBound fuel p hwf hi
        (fun q hq => reach_colLength_le hwf hq i) (by omega)
  · intro p q hwf hr k
    exact reach_colLength_le hwf hr k

/-- Witness of C19: the grammar `S → S "a" | ε | A`, `A → S` over `a a`. -/
theorem parse_terminates_witness :
    ∃ q ret, cyclicChart.parse 60 false = .ok (q, ret) :=
  parse_terminates.1 _ ["S"] ["a", "a"] false 60 (by decide)

/-! ### `parse` does not fault on a well-formed chart -/

theorem columnLoop_no_panic {i : Nat} :
    ∀ fuel p j, p.WF → i < p.columns.length → Parse.columnLoop fuel p i j ≠ .panic := by
  intro fuel
  induction fuel with
  | zero => intro p j _ _; simp [Parse.columnLoop]
  | succ fuel ih =>
    intro p j hwf hlt
    unfold Parse.columnLoop
    have hc := List.get?_eq_get hlt
    rw [hc]
    simp only
    cases hst : (p.columns.get ⟨i, hlt⟩).states.get? j with
    | none => simp
    | some st =>
      simp only
      obtain ⟨p1, hp1, hr1, -⟩ := processState_post hwf ⟨_, hc, List.get?_mem hst⟩
      rw [hp1]
      exact ih p1 (j + 1) (hr1.wf hwf) (by rw [hr1.toExt.length]; exact hlt)

theorem handleEpsilons_no_panic {i : Nat} :
    ∀ fuel p, p.WF → i < p.columns.length → Parse.handleEpsilons fuel p i ≠ .panic := by
  intro fuel
  induction fuel with
  | zero => intro p _ _; simp [Parse.handleEpsilons]
  | succ fuel ih =>
    intro p hwf hlt
    unfold Parse.handleEpsilons
    have hc := List.get?_eq_get hlt
    rw [hc]
    simp only
    obtain ⟨p1, c, hpass, hr, -⟩ := epsilonPass_post
      (p.columns.get ⟨i, hlt⟩).states p false hwf (fun st hst => ⟨_, hc, hst⟩)
    rw [hpass]
    cases c with
    | false => simp
    | true => exact ih p1 (hr.wf hwf) (by rw [hr.toExt.length]; exact hlt)

theorem sweepFrom_no_panic {fuel : Nat} :
    ∀ n p i, p.WF → i + n = p.columns.length → Parse.sweepFrom fuel n p i ≠ .panic := by
  intro n
  induction n with
  | zero => intro p i _ _; simp [Parse.sweepFrom]
  | succ n ih =>
    intro p i hwf hn
    unfold Parse.sweepFrom
    cases h1 : Parse.columnLoop fuel p i 0 with
    | panic => exact absurd h1 (columnLoop_no_panic fuel p 0 hwf (by omega))
    | outOfFuel => simp
    | ok q1 =>
      simp only
      obtain ⟨hr1, -⟩ := @columnLoop_post (fun _ _ => True) i
        (fun _ _ _ _ _ _ _ _ _ _ _ => trivial) fuel p 0 q1 hwf trivial h1
      have hwf1 := hr1.wf hwf
      have hlen1 := hr1.toExt.length
      cases h2 : Parse.handleEpsilons fuel q1 i with
      | panic => exact absurd h2 (handleEpsilons_no_panic fuel q1 hwf1 (by omega))
      | outOfFuel => simp
      | ok q2 =>
        simp only
        obtain ⟨hr2, -⟩ := handleEpsilons_post fuel q1 q2 hwf1 h2
        have hlen2 := hr2.toExt.length
        exact ih q2 (i + 1) (hr2.wf hwf1) (by omega)

theorem parse_no_panic {p : Parse} (hwf : p.WF) (hne : p.columns ≠ []) (fuel : Nat)
    (maxFlag : Bool) : p.parse fuel maxFlag ≠ .panic := by
  by_cases hs : p.starts = []
  · unfold Parse.parse
    simp [hs]
  · rw [parse_unfold p fuel maxFlag hs]
    cases hsw : p.sweep fuel with
    | panic =>
      exfalso
      unfold Parse.sweep at hsw
      obtain ⟨p0, h0⟩ := addStarts_isSome hne
      rw [h0] at hsw
      exact sweepFrom_no_panic _ p0 0 (addStarts_wf hwf h0) (by omega) hsw
    | outOfFuel => simp
    | ok q =>
      obtain ⟨_, _, _, _, hwfq⟩ := sweep_reach hwf hsw
      cases maxFlag with
      | false => simp only [accept_false_wf hwfq]; simp
      | true => simp only [accept_true_wf hwfq]; simp

theorem predictGrammars_undefined (i : Nat) (term : Term) (gs : List Grammar) (p : Parse)
    (h : ∀ g ∈ gs, g.rule term.Value = none) :
    predictGrammars i term gs p false = some (p, false) := by
  induction gs with
  | nil => rfl
  | cons g gs ih =>
    have hg : predictGrammar g p i term = some (p, false) := by
      unfold predictGrammar
      rw [h g (List.mem_cons_self _ _)]
    simp only [predictGrammars, Bool.false_eq_true, if_false, hg]
    exact ih (fun g1 hg1 => h g1 (List.mem_cons_of_mem _ hg1))

theorem goodState_accesses {q : Parse} (hwf : q.WF) {i : Nat} {st : TableState}
    (hin : q.InCol i st) :
    (∃ b, st.isCompleted = some b) ∧ (∃ t, st.getNextTerm = some t) ∧
    (∃ colk, q.column st.Start = some colk) ∧
    (st.isAny = false → ∃ rb, st.Rb = some rb ∧
      (st.isCompleted = some false →
        0 ≤ st.dot ∧ st.dot < (rb.Terms.length : Int) ∧
          ∃ t, rb.Terms.get? st.dot.toNat = some t)) := by
  obtain ⟨col, hc, hm⟩ := hin
  have hgood := hwf.2 i col hc st hm
  have hlt := get?_lt hc
  refine ⟨hgood.isCompleted_isSome, ?_, ?_, ?_⟩
  · rcases hgood.getNextTerm_cases with ⟨-, h⟩ | ⟨-, t, h⟩
    · exact ⟨_, h⟩
    · exact ⟨_, h⟩
  · have h0 := hgood.2.1
    have h1 := hgood.2.2.1
    have hklt : st.Start.toNat < q.columns.length := by omega
    refine ⟨q.columns.get ⟨_, hklt⟩, ?_⟩
    unfold Parse.column
    simp only [show ¬ st.Start < 0 by omega, if_false]
    exact List.get?_eq_get hklt
  · intro ha
    obtain ⟨rb, hrb, hle⟩ := hgood.2.2.2.2 ha
    refine ⟨rb, hrb, ?_⟩
    intro hnd
    rcases hgood.getNextTerm_cases with ⟨hd, -⟩ | ⟨-, t, h⟩
    · rw [hd] at hnd
      cases hnd
    · obtain ⟨rb1, hrb1, h0, hlt1, hget, -⟩ := getNextTerm_nonwild ha h
      rw [hrb] at hrb1
      cases hrb1
      exact ⟨h0, hlt1, t, hget⟩

/-- C20: on a well-formed chart with at least one column (the column at
position `i` has index `i`; rule bodies and their terms are present by the
types of the model), `parse` never panics, whatever the fuel, and returns with
enough fuel. In every chart the sweep reaches and for every state `st` of any
column, `isCompleted` and `getNextTerm` return without fault, the column
`p.columns[st.Start]` exists, and a state that is not a wildcard state has a
rule body, with `Terms[dot]` in range when it is not completed. A nonterminal
without a rule in any grammar makes `Parse.predict` return false and leave the
chart as it is. -/
theorem parse_cannot_fault (p : Parse) (hwf : p.WF) (hne : p.columns ≠ []) :
    (∀ fuel maxFlag, p.parse fuel maxFlag ≠ .panic) ∧
    (∀ fuel maxFlag, p.stateBound < fuel → ∃ q ret, p.parse fuel maxFlag = .ok (q, ret)) ∧
    (∀ p0 q, p.addStarts = some p0 → Reach (fun _ => True) p0 q → ∀ i st, q.InCol i st →
      (∃ b, st.isCompleted = some b) ∧ (∃ t, st.getNextTerm = some t) ∧
      (∃ colk, q.column st.Start = some colk) ∧
      (st.isAny = false → ∃ rb, st.Rb = some rb ∧
        (st.isCompleted = some false →
          0 ≤ st.dot ∧ st.dot < (rb.Terms.length : Int) ∧
            ∃ t, rb.Terms.get? st.dot.toNat = some t))) ∧
    (∀ (q : Parse) (i : Nat) (term : Term), term.Type_ = .Nonterminal →
      (∀ g ∈ q.grammars, g.rule term.Value = none) → q.predict i term = some (q, false)) := by
  refine ⟨fun fuel maxFlag => parse_no_panic hwf hne fuel maxFlag,
    fun fuel maxFlag hfuel => parse_total_wf hwf hne fuel hfuel maxFlag, ?_, ?_⟩
  · intro p0 q h0 hr i st hin
    exact goodState_accesses (hr.wf (addStarts_wf hwf h0)) hin
  · intro q i term hty hno
    unfold Parse.predict
    simp only [hty]
    exact predictGrammars_undefined i term q.grammars q hno

/-- Witness of C20, on the chart for `S → S "a" | ε | A`, `A → S` over `a a`:
with too little fuel the model runs out of fuel, it does not panic. -/
theorem parse_cannot_fault_witness :
    cyclicChart.parse 3 false ≠ .panic ∧
    ∃ q ret, cyclicChart.parse 60 false = .ok (q, ret) :=
  ⟨(parse_cannot_fault cyclicChart (freshChart_wf _ _ _) (by decide)).1 3 false,
   (parse_cannot_fault cyclicChart (freshChart_wf _ _ _) (by decide)).2.1 60 false (by decide)⟩

end Fmr
